import Mathlib

/-!
# User-level packet buffers of `lib/packet.cc`

A shallow embedding of the user-level (`!__KERNEL__`) half of `lib/packet.cc`:
`Packet::Packet`, `Packet::~Packet`, both `Packet::make` forms,
`Packet::alloc_data`, `Packet::clone`, `Packet::uniqueify_copy`,
`Packet::expensive_push` and `Packet::expensive_put`.

Conventions of the embedding.

* Pointers to bytes are 32-bit addresses, natural numbers below `ADDR_MOD`,
  with `0` the null pointer; pointer arithmetic and `unsigned` arithmetic are
  taken modulo `ADDR_MOD`. Lines 243 and 271 add a wrapped `unsigned` to a
  pointer, which gives the intended position when the pointer wraps at the
  same width.
* The definitions whose name ends in `_at` are the same operations on a build
  whose pointers count modulo `P`, `unsigned` staying 32 bits wide; with
  `P = ADDR_MOD` they are the operations of the 32-bit embedding, and with
  `P = PTR64` they are a build with 64-bit pointers.
* Byte memory is a function from addresses to bytes.
* `Packet *` is an index into the object store of a `Heap` (`Option Nat`, with
  `none` the null pointer); objects are never moved and indices never reused.
  The store keeps the last field values of a deleted object and `deleted`
  records which objects have been deleted.
* What the environment decides (whether `new` of a packet object succeeds,
  the block that `new unsigned char[n]` returns, the contents of an
  uninitialised object) is an explicit argument of the operation.
* The operations that dereference `this` return `none` when `this` is not a
  live object (undefined behaviour in the source); `kill` also returns `none`
  when its fuel runs out.
-/

namespace Click

/-- Size of the address space: pointers and `unsigned` values live below it. -/
abbrev ADDR_MOD : Nat := 4294967296

/-- The slack that `expensive_push` and `expensive_put` add (the literal `128`). -/
abbrev SLACK : Nat := 128

/-- Pointer plus unsigned offset, in 32-bit arithmetic. -/
def padd (p k : Nat) : Nat := (p + k) % ADDR_MOD

/-- Difference of two 32-bit values, in 32-bit arithmetic (`p - q` as `unsigned`). -/
def psub (p q : Nat) : Nat := (p + ADDR_MOD - q % ADDR_MOD) % ADDR_MOD

/-- Byte memory: address to byte. -/
abbrev Mem := Nat → Nat

/-- The effect of `memcpy(dst, src, len)` on memory: the `len` bytes at `dst`
become the bytes that were at `src` before the call. -/
def memcpy (mem : Mem) (dst src len : Nat) : Mem :=
  fun x => if psub x dst < len then mem (padd src (psub x dst)) else mem x

/-- The fields of a user-level `Packet` object. `_cb` is the annotation block,
kept opaque. -/
structure Packet where
  _use_count : Int
  _data_packet : Option Nat
  _head : Nat
  _data : Nat
  _tail : Nat
  _end : Nat
  _destructor : Option Nat
  _cb : List Nat
  _nh_raw : Nat
  _h_raw : Nat
  deriving DecidableEq, Repr

namespace Packet

/-- Modelled from the spec: `clear_annotations()` of `click/packet.hh`, which
resets the annotation block and the header positions to the empty state. -/
def clear_annotations (p : Packet) : Packet :=
  { p with _cb := [], _nh_raw := 0, _h_raw := 0 }

/-- Modelled from the spec: `copy_annotations(src)` of `click/packet.hh`, which
copies the annotation block verbatim. The header positions `_nh.raw` and
`_h_raw` are members of their own, which the callers in `packet.cc` copy or
recompute themselves. -/
def copy_annotations (p src : Packet) : Packet :=
  { p with _cb := src._cb }

/-- Modelled from the spec: `data()` of `click/packet.hh`. -/
def data (p : Packet) : Nat := p._data

/-- Modelled from the spec: `length()`, `tail - data`. -/
def length (p : Packet) : Nat := psub p._tail p._data

/-- Modelled from the spec: `headroom()`, `data - head`. -/
def headroom (p : Packet) : Nat := psub p._data p._head

/-- Modelled from the spec: `tailroom()`, `end - tail`. -/
def tailroom (p : Packet) : Nat := psub p._end p._tail

/-- Modelled from the spec: `total_data()`, the start of the arena. -/
def total_data (p : Packet) : Nat := p._head

/-- Modelled from the spec: `total_length()`, `end - head`. -/
def total_length (p : Packet) : Nat := psub p._end p._head

/-- Modelled from the spec: `network_header()`, the raw network-header position. -/
def network_header (p : Packet) : Nat := p._nh_raw

/-- Modelled from the spec: `transport_header()`, the raw transport-header position. -/
def transport_header (p : Packet) : Nat := p._h_raw

/-- Modelled from the spec: `network_header_offset()`, `network_header - data`. -/
def network_header_offset (p : Packet) : Nat := psub p._nh_raw p._data

/-- Modelled from the spec: `transport_header_offset()`, `transport_header - data`. -/
def transport_header_offset (p : Packet) : Nat := psub p._h_raw p._data

/-- Modelled from the spec: `network_header_length()`,
`transport_header - network_header`. -/
def network_header_length (p : Packet) : Nat := psub p._h_raw p._nh_raw

/-- Modelled from the spec: `set_network_header(h, len)`, which stores the
network-header position `h` and the transport-header position `h + len`. -/
def set_network_header (p : Packet) (h len : Nat) : Packet :=
  { p with _nh_raw := h, _h_raw := padd h len }

/-- The constructor `Packet::Packet()` (lines 64-72): the fields of a newly
constructed object. -/
def ctor : Packet :=
  clear_annotations
    { _use_count := 1, _data_packet := none, _head := 0, _data := 0, _tail := 0,
      _end := 0, _destructor := none, _cb := [], _nh_raw := 0, _h_raw := 0 }

/-- `Packet::alloc_data` (lines 103-115). `arr` is what
`new unsigned char[n]` returned (`0` when it failed). -/
def alloc_data (p : Packet) (arr : Nat) (headroom len tailroom : Nat) : Bool × Packet :=
  let n := (len + headroom + tailroom) % ADDR_MOD
  let p := { p with _destructor := none, _head := arr }
  if p._head = 0 then (false, p)
  else
    let p := { p with _data := padd p._head headroom }
    let p := { p with _tail := padd p._data len }
    let p := { p with _end := padd p._head n }
    (true, p)

/-- The region invariant of a buffer: `head <= data <= tail <= end`, inside
the address space. -/
def WellFormed (p : Packet) : Prop :=
  p._head ≤ p._data ∧ p._data ≤ p._tail ∧ p._tail ≤ p._end ∧ p._end < ADDR_MOD

instance (p : Packet) : Decidable p.WellFormed := by
  unfold WellFormed; infer_instance

end Packet

/-- The block returned by a successful `new unsigned char[n]`: not null and
lying, with its one-past-the-end address, inside the address space. -/
def AllocOk (arr n : Nat) : Prop := arr ≠ 0 ∧ arr + n < ADDR_MOD

instance (arr n : Nat) : Decidable (AllocOk arr n) := by
  unfold AllocOk; infer_instance

/-- The program state: the packet objects, the objects deleted so far, the
byte memory, the arrays passed to `delete[]` and the calls made to release
callbacks `(callback, pointer, size)`. -/
structure Heap where
  pkts : List Packet
  deleted : List Nat
  mem : Mem
  freed : List Nat
  released : List (Nat × Nat × Nat)

namespace Heap

/-- The empty program state over a memory. -/
def empty (mem : Mem) : Heap :=
  { pkts := [], deleted := [], mem := mem, freed := [], released := [] }

/-- Dereference of a `Packet *`: the object, when it exists and is not deleted. -/
def deref (st : Heap) (p : Nat) : Option Packet :=
  if p ∈ st.deleted then none else st.pkts[p]?

/-- Store to the fields of object `p`. -/
def store (st : Heap) (p : Nat) (v : Packet) : Heap :=
  { st with pkts := st.pkts.set p v }

/-- A new object with fields `v`, at the next index of the store. -/
def push (st : Heap) (v : Packet) : Heap × Nat :=
  ({ st with pkts := st.pkts ++ [v] }, st.pkts.length)

end Heap

/-- Modelled from the spec: `kill()` of `click/packet.hh`, which decrements the
reference count and, when it has reached zero (the count is a signed `int`, so
zero or below), deletes the object; `del` is the deletion. -/
def kill_with (del : Heap → Nat → Option Heap) (st : Heap) (p : Nat) : Option Heap :=
  match st.deref p with
  | none => none
  | some pk =>
    let pk := { pk with _use_count := pk._use_count - 1 }
    let st := st.store p pk
    if pk._use_count ≤ 0 then del st p else some st

/-- The statement `delete[] a`; deleting the null pointer does nothing. -/
def delete_array (st : Heap) (a : Nat) : Heap :=
  if a = 0 then st else { st with freed := a :: st.freed }

/-- The two branches of `Packet::~Packet` for a packet that owns its arena
(lines 78-81): the release callback when `_head && _destructor`, otherwise
`delete[] _head`. -/
def release_arena (st : Heap) (pk : Packet) : Heap :=
  match pk._destructor with
  | some f =>
    if pk._head ≠ 0 then
      { st with released := (f, pk._head, psub pk._end pk._head) :: st.released }
    else delete_array st pk._head
  | none => delete_array st pk._head

/-- The end of `delete p`: the destructor's `_head = _data = 0` (line 82), then
the object is gone. -/
def end_of_delete (st : Heap) (p : Nat) : Option Heap :=
  match st.pkts[p]? with
  | none => none
  | some pk =>
    let st := st.store p { pk with _head := 0, _data := 0 }
    some { st with deleted := p :: st.deleted }

/-- The statement `delete p`: the destructor `Packet::~Packet` (lines 74-83)
runs on object `p`, then the object is gone. The destructor of an alias kills
the packet it borrows from, so the function takes fuel for the length of the
alias chain. -/
def delete_packet : Nat → Heap → Nat → Option Heap
  | 0, _, _ => none
  | fuel + 1, st, p =>
    match st.deref p with
    | none => none
    | some pk =>
      let body : Option Heap :=
        match pk._data_packet with
        | some d => kill_with (delete_packet fuel) st d
        | none => some (release_arena st pk)
      match body with
      | none => none
      | some st2 => end_of_delete st2 p

/-- The call `p->kill()`, with fuel for every alias chain in the store. -/
def kill (st : Heap) (p : Nat) : Option Heap :=
  kill_with (delete_packet st.pkts.length) st p

/-- `Packet::make(int, int, int)` (lines 85-89): a new object whose constructor
initialises nothing; `u` is the content of its storage. -/
def make_dummy (st : Heap) (pnew : Bool) (u : Packet) : Heap × Option Nat :=
  if pnew then
    let r := st.push u
    (r.1, some r.2)
  else (st, none)

/-- `Packet::make(unsigned char *data, unsigned len, destruct)` (lines 91-101):
a buffer over caller-owned bytes. `pnew` tells whether `new WritablePacket`
succeeded. -/
def make_external (st : Heap) (pnew : Bool) (data len : Nat) (destruct : Option Nat) :
    Heap × Option Nat :=
  if pnew then
    let p := Packet.ctor
    let p := { p with _head := data, _data := data }
    let p := { p with _tail := padd data len, _end := padd data len }
    let p := { p with _destructor := destruct }
    let r := st.push p
    (r.1, some r.2)
  else (st, none)

/-- `Packet::make(unsigned headroom, const unsigned char *data, unsigned len,
unsigned tailroom)` (lines 117-131). `pnew` tells whether `new WritablePacket`
succeeded and `arr` is what `new unsigned char[n]` returned; `data = 0` is the
null payload. -/
def make (st : Heap) (pnew : Bool) (arr : Nat) (headroom data len tailroom : Nat) :
    Option (Heap × Option Nat) :=
  if pnew then
    let r := st.push Packet.ctor
    let a := Packet.ctor.alloc_data arr headroom len tailroom
    if a.1 then
      let st1 := r.1.store r.2 a.2
      if data ≠ 0 then
        some ({ st1 with mem := memcpy st1.mem a.2.data data len }, some r.2)
      else some (st1, some r.2)
    else
      match delete_packet 1 (r.1.store r.2 a.2) r.2 with
      | none => none
      | some st2 => some (st2, none)
  else some (st, none)

/-- `Packet::clone` (lines 164-182), user level. -/
def clone (st : Heap) (this : Nat) (pnew : Bool) (u : Packet) : Option (Heap × Option Nat) :=
  match st.deref this with
  | none => none
  | some b =>
    match make_dummy st pnew u with
    | (st1, none) => some (st1, none)
    | (st1, some q) =>
      let p := u
      let p := { p with _use_count := 1 }
      let p := { p with _data_packet := some this }
      let p := { p with _head := b._head }
      let p := { p with _data := b._data }
      let p := { p with _tail := b._tail }
      let p := { p with _end := b._end }
      let p := { p with _destructor := none }
      let p := p.copy_annotations b
      let p := { p with _nh_raw := b._nh_raw }
      let p := { p with _h_raw := b._h_raw }
      let st2 := st1.store q p
      let st3 := st2.store this { b with _use_count := b._use_count + 1 }
      some (st3, some q)

/-- The annotations that `uniqueify_copy` gives the new packet `p`
(lines 193-200), `b` being the fields of `this`. -/
def uniqueify_fixup (p b : Packet) : Packet :=
  let p := p.copy_annotations b
  if b._nh_raw ≠ 0 then
    let p := { p with _nh_raw := padd p._data b.network_header_offset }
    { p with _h_raw := padd p._data b.transport_header_offset }
  else
    let p := { p with _nh_raw := 0 }
    { p with _h_raw := 0 }

/-- `Packet::uniqueify_copy` (lines 184-208), user level. -/
def uniqueify_copy (st : Heap) (this : Nat) (pnew : Bool) (u : Packet) (arr : Nat) :
    Option (Heap × Option Nat) :=
  match st.deref this with
  | none => none
  | some b =>
    let body : Option (Heap × Option Nat) :=
      match make_dummy st pnew u with
      | (st1, none) => some (st1, none)
      | (st1, some q) =>
        let p := u
        let p := { p with _use_count := 1 }
        let p := { p with _data_packet := none }
        let a := p.alloc_data arr b.headroom b.length b.tailroom
        if a.1 then
          let mem := memcpy st1.mem a.2._data b._data (psub b._tail b._data)
          some ({ st1.store q (uniqueify_fixup a.2 b) with mem := mem }, some q)
        else
          match delete_packet 1 (st1.store q a.2) q with
          | none => none
          | some st2 => some (st2, none)
    match body with
    | none => none
    | some (st2, r) =>
      match kill st2 this with
      | none => none
      | some st3 => some (st3, r)

/-- The adjustments that `expensive_push` makes to the new packet `q`
(lines 243-247), `b` being the fields of `this`, on a build whose pointers are
32 bits wide: the wrapped `unsigned` value `headroom() - nbytes` is added to a
pointer that wraps at `2^32` too. `push_fixup_at` is the same adjustment for a
pointer of any width. -/
def push_fixup (q b : Packet) (nbytes : Nat) : Packet :=
  let q := { q with _data := padd q._data (psub b.headroom nbytes) }
  let q := { q with _tail := psub q._tail b.tailroom }
  let q := q.copy_annotations b
  if b.network_header ≠ 0 then
    q.set_network_header (padd q.data b.network_header_offset) b.network_header_length
  else q

/-- `Packet::expensive_push` (lines 221-252), user level. The diagnostic
message is not part of the state. -/
def expensive_push (st : Heap) (this : Nat) (nbytes : Nat) (pnew : Bool) (arr : Nat) :
    Option (Heap × Option Nat) :=
  match st.deref this with
  | none => none
  | some b =>
    match make st pnew arr ((nbytes + 128) % ADDR_MOD) b.total_data b.total_length 0 with
    | none => none
    | some (st1, none) =>
      match kill st1 this with
      | none => none
      | some st3 => some (st3, none)
    | some (st1, some q) =>
      match st1.deref q with
      | none => none
      | some qp =>
        match kill (st1.store q (push_fixup qp b nbytes)) this with
        | none => none
        | some st3 => some (st3, some q)

/-- The adjustments that `expensive_put` makes to the new packet `q`
(lines 271-276), `b` being the fields of `this`, on a build whose pointers are
32 bits wide: the wrapped `unsigned` value `nbytes - tailroom()` is added to a
pointer that wraps at `2^32` too. `put_fixup_at` is the same adjustment for a
pointer of any width. -/
def put_fixup (q b : Packet) (nbytes : Nat) : Packet :=
  let q := { q with _tail := padd q._tail (psub nbytes b.tailroom) }
  let q := { q with _data := padd q._data b.headroom }
  let q := q.copy_annotations b
  if b.network_header ≠ 0 then
    q.set_network_header (padd q.data b.network_header_offset) b.network_header_length
  else q

/-- `Packet::expensive_put` (lines 254-280), user level. The diagnostic
message is not part of the state. -/
def expensive_put (st : Heap) (this : Nat) (nbytes : Nat) (pnew : Bool) (arr : Nat) :
    Option (Heap × Option Nat) :=
  match st.deref this with
  | none => none
  | some b =>
    match make st pnew arr 0 b.total_data b.total_length ((nbytes + 128) % ADDR_MOD) with
    | none => none
    | some (st1, none) =>
      match kill st1 this with
      | none => none
      | some st3 => some (st3, none)
    | some (st1, some q) =>
      match st1.deref q with
      | none => none
      | some qp =>
        match kill (st1.store q (put_fixup qp b nbytes)) this with
        | none => none
        | some st3 => some (st3, some q)

/-- Byte `i` of the payload of a buffer, read from memory. -/
def payload_byte (mem : Mem) (p : Packet) (i : Nat) : Nat := mem (padd p._data i)

/-- A memory holding `HELLO` at address `4096`, zero elsewhere. -/
def helloMem : Mem := fun x =>
  if x = 4096 then 72 else if x = 4097 then 69 else if x = 4098 then 76
  else if x = 4099 then 76 else if x = 4100 then 79 else 0

/-- The fields of the packet that an operation returned, when it returned one. -/
def returned (r : Option (Heap × Option Nat)) : Option Packet :=
  r.bind (fun x => x.2.bind x.1.deref)

/-- A packet with headroom 0, length 5 and tailroom 0 over the arena at `8192`,
as `make(0, "HELLO", 5, 0)` builds it. -/
def helloPacket : Packet :=
  { _use_count := 1, _data_packet := none, _head := 8192, _data := 8192, _tail := 8197,
    _end := 8197, _destructor := none, _cb := [], _nh_raw := 0, _h_raw := 0 }

/-- The state that holds `helloPacket` as its only object. -/
def helloHeap : Heap :=
  { pkts := [helloPacket], deleted := [], mem := memcpy helloMem 8192 4096 5,
    freed := [], released := [] }

/-- A packet with headroom 0, length 200 and tailroom 0 over the arena at `4096`,
as `make(0, 0, 200, 0)` builds it. -/
def widePacket : Packet :=
  { _use_count := 1, _data_packet := none, _head := 4096, _data := 4096, _tail := 4296,
    _end := 4296, _destructor := none, _cb := [], _nh_raw := 0, _h_raw := 0 }

/-- The state that holds `widePacket` as its only object. -/
def wideHeap : Heap :=
  { pkts := [widePacket], deleted := [], mem := fun _ => 0, freed := [], released := [] }

/-- A packet with headroom 2, length 5 and tailroom 1 over the arena at `8192`,
as `make(2, 0, 5, 1)` builds it. -/
def roomyPacket : Packet :=
  { _use_count := 1, _data_packet := none, _head := 8192, _data := 8194, _tail := 8199,
    _end := 8200, _destructor := none, _cb := [], _nh_raw := 0, _h_raw := 0 }

/-- The state that holds `roomyPacket` as its only object. -/
def roomyHeap : Heap :=
  { pkts := [roomyPacket], deleted := [], mem := fun _ => 0, freed := [], released := [] }

/-- The fields of the packet that a successful `make` builds. -/
def made (arr headroom len tailroom : Nat) : Packet :=
  { Packet.ctor with
    _head := arr, _data := padd arr headroom, _tail := padd (padd arr headroom) len,
    _end := padd arr ((len + headroom + tailroom) % ADDR_MOD) }

/-- The fields of the packet that `make` builds over caller-owned bytes. -/
def wrapped (data len : Nat) (destruct : Option Nat) : Packet :=
  { Packet.ctor with _head := data, _data := data, _tail := padd data len,
                     _end := padd data len, _destructor := destruct }

/-- The reference count stored in object `x` (zero outside the store). -/
def Heap.cnt (st : Heap) (x : Nat) : Int :=
  match st.pkts[x]? with
  | some pk => pk._use_count
  | none => 0

/-- The alias link stored in object `x`. -/
def Heap.link (st : Heap) (x : Nat) : Option Nat :=
  match st.pkts[x]? with
  | some pk => pk._data_packet
  | none => none

/-- The number of objects among the first `n` that have a positive count and
whose alias link is `x`. -/
def aliasCount (n : Nat) (cnt : Nat → Int) (lnk : Nat → Option Nat) (x : Nat) : Nat :=
  (List.range n).countP (fun y => decide (0 < cnt y) && decide (lnk y = some x))

/-- The number of objects with a positive count whose alias link is `x`. -/
def Heap.aliases (st : Heap) (x : Nat) : Nat :=
  aliasCount st.pkts.length st.cnt st.link x

/-- The number of arena releases so far: arrays passed to `delete[]` and calls
of release callbacks. -/
def Heap.releases (st : Heap) : Nat := st.freed.length + st.released.length

/-- The one release that the owner `g` of an arena performs in its destructor:
the callback when it has one, otherwise `delete[]`. -/
def ReleasedOnce (g : Packet) (st : Heap) : Prop :=
  match g._destructor with
  | some f => st.freed = [] ∧ st.released = [(f, g._head, psub g._end g._head)]
  | none => st.freed = [g._head] ∧ st.released = []

/-- A state of the program together with the handles that the user has killed. -/
structure Sys where
  heap : Heap
  killed : List Nat

/-- One user operation on a handle `h` that has not been killed: `clone(h)`,
which may or may not get its new object, or `kill(h)`. -/
inductive Step : Sys → Sys → Prop
  | clone (s : Sys) (h : Nat) (pnew : Bool) (u : Packet) (st' : Heap) (r : Option Nat) :
      h < s.heap.pkts.length → h ∉ s.killed → Click.clone s.heap h pnew u = some (st', r) →
      Step s { heap := st', killed := s.killed }
  | kill (s : Sys) (h : Nat) (st' : Heap) :
      h < s.heap.pkts.length → h ∉ s.killed → Click.kill s.heap h = some st' →
      Step s { heap := st', killed := h :: s.killed }

/-- The states reachable from `st0` by `clone` and `kill`, each handle killed
at most once. -/
inductive Reachable (st0 : Heap) : Sys → Prop
  | init : Reachable st0 { heap := st0, killed := [] }
  | step (s s' : Sys) : Reachable st0 s → Step s s' → Reachable st0 s'

/-- The state `st0` holds exactly the packet `g` that a successful `make` has
just returned: either form of `make`, called in the empty state, the wrapped
bytes being a non-null region. -/
def FromMake (st0 : Heap) (g : Packet) : Prop :=
  (∃ mem arr headroom data len tailroom, arr ≠ 0 ∧
    make (Heap.empty mem) true arr headroom data len tailroom = some (st0, some 0) ∧
    g = made arr headroom len tailroom) ∨
  (∃ mem data len destruct, data ≠ 0 ∧
    make_external (Heap.empty mem) true data len destruct = (st0, some 0) ∧
    g = wrapped data len destruct)

/-- The state after `clone` of `helloPacket` in `helloHeap`, the storage of the
new object holding `roomyPacket` before. -/
def sharedHeap : Heap :=
  { pkts := [{ helloPacket with _use_count := 2 },
             { roomyPacket with _use_count := 1, _data_packet := some 0, _tail := 8197,
                                _end := 8197, _data := 8192 }],
    deleted := [], mem := helloHeap.mem, freed := [], released := [] }

/-- The state after `kill` of the original in `sharedHeap`: the clone is left. -/
def orphanHeap : Heap :=
  { pkts := [helloPacket,
             { roomyPacket with _use_count := 1, _data_packet := some 0, _tail := 8197,
                                _end := 8197, _data := 8192 }],
    deleted := [], mem := helloHeap.mem, freed := [], released := [] }

/-- Sanity of a program state: deleted objects are objects of the store, and
the alias link of a live object points to an older live object. -/
def Heap.Valid (st : Heap) : Prop :=
  (∀ d ∈ st.deleted, d < st.pkts.length) ∧
  (∀ x pk, st.deref x = some pk → ∀ d, pk._data_packet = some d → d < x ∧ d ∉ st.deleted)

/-- What a call `p->kill()` leaves in place: memory, the size of the store,
every younger object, and the count of `p` lowered by one; `p` is deleted
exactly when its count was at most 1. -/
structure KillFrame (st : Heap) (p : Nat) (pk : Packet) (st' : Heap) : Prop where
  mem_eq : st'.mem = st.mem
  length_eq : st'.pkts.length = st.pkts.length
  younger : ∀ x, p < x → st'.pkts[x]? = st.pkts[x]?
  younger_deleted : ∀ x, p < x → (x ∈ st'.deleted ↔ x ∈ st.deleted)
  count : ∃ pk', st'.pkts[p]? = some pk' ∧ pk'._use_count = pk._use_count - 1
  deleted_iff : p ∈ st'.deleted ↔ pk._use_count ≤ 1
  deleted_once : st'.deleted.count p = if pk._use_count ≤ 1 then 1 else 0

/-- The state that holds `g` as its only object, over memory `m`. -/
def Heap.single (g : Packet) (m : Mem) : Heap :=
  { pkts := [g], deleted := [], mem := m, freed := [], released := [] }

/-- The state with a new live object `v` and memory `m`. -/
def Heap.withNew (st : Heap) (v : Packet) (m : Mem) : Heap :=
  { st with pkts := st.pkts ++ [v], mem := m }

/-- The state with a new object `v` that has been deleted again. -/
def Heap.withDead (st : Heap) (v : Packet) : Heap :=
  { st with pkts := st.pkts ++ [v], deleted := st.pkts.length :: st.deleted }

/-- What the caller holds after an operation has built the new packet `v` and
killed `this`: the new packet is live with fields `v`, memory is `m`, and
`this` has lost one reference. -/
structure Consumed (st : Heap) (this : Nat) (b v : Packet) (m : Mem) (st' : Heap) : Prop where
  result : st'.deref st.pkts.length = some v
  mem_eq : st'.mem = m
  count : ∃ pk', st'.pkts[this]? = some pk' ∧ pk'._use_count = b._use_count - 1
  deleted_iff : this ∈ st'.deleted ↔ b._use_count ≤ 1
  deleted_once : st'.deleted.count this = if b._use_count ≤ 1 then 1 else 0

/-- The fields that `uniqueify_copy` gives the new packet before the
annotations are set: the storage `u` with count 1, no alias link and the
region that `alloc_data` lays out. -/
def uniqueified (u b : Packet) (arr : Nat) : Packet :=
  { u with _use_count := 1, _data_packet := none, _destructor := none, _head := arr,
           _data := padd arr b.headroom, _tail := padd (padd arr b.headroom) b.length,
           _end := padd arr ((b.length + b.headroom + b.tailroom) % ADDR_MOD) }

/-- The fields that `clone` gives the new packet (lines 169-178): the storage
`u` with count 1, the alias link to `this` and the region, annotations and
header positions of `b`, the fields of `this`. -/
def cloned (u b : Packet) (this : Nat) : Packet :=
  { u with _use_count := 1, _data_packet := some this, _head := b._head, _data := b._data,
           _tail := b._tail, _end := b._end, _destructor := none, _cb := b._cb,
           _nh_raw := b._nh_raw, _h_raw := b._h_raw }

/-- What `this->kill()` did to `this`, whose fields were `b`: its count is one
lower, and it has been deleted, once, exactly when the count reached zero. -/
structure Released (this : Nat) (b : Packet) (st' : Heap) : Prop where
  count : ∃ pk', st'.pkts[this]? = some pk' ∧ pk'._use_count = b._use_count - 1
  deleted_once : st'.deleted.count this = if b._use_count ≤ 1 then 1 else 0

/-- The invariant of the states reachable from a `make` by `clone` and `kill`.
`g` is the packet that `make` built, `killed` the handles killed so far, `P`
the objects whose destructor is running, `debt` the object whose count is
still one too high because the `kill()` that releases one of its references
has not run yet. -/
structure Inv (g : Packet) (mem0 : Mem) (killed : List Nat) (P : Nat → Prop)
    (debt : Option Nat) (st : Heap) : Prop where
  pos : 0 < st.pkts.length
  root : st.link 0 = none
  links : ∀ x, 0 < x → x < st.pkts.length → ∃ d, st.link x = some d ∧ d < x
  counts : ∀ x, x < st.pkts.length →
    st.cnt x = (if x ∈ killed then 0 else 1) + (st.aliases x : Int) +
      (if debt = some x then 1 else 0)
  dead : ∀ x, (x ∈ st.deleted ∨ P x) ↔ (x < st.pkts.length ∧ st.cnt x ≤ 0)
  pending : ∀ x, P x → x ∉ st.deleted
  killed_lt : ∀ x, x ∈ killed → x < st.pkts.length
  region : ∀ x pk, x ∉ st.deleted → st.pkts[x]? = some pk →
    pk._head = g._head ∧ pk._data = g._data ∧ pk._tail = g._tail ∧ pk._end = g._end
  root_destructor : ∀ pk, st.pkts[0]? = some pk → pk._destructor = g._destructor
  log_live : 0 ∉ st.deleted → ¬ P 0 → st.freed = [] ∧ st.released = []
  log_dead : 0 ∈ st.deleted → ReleasedOnce g st
  mem_eq : st.mem = mem0
  head_ne : g._head ≠ 0

/-- A memory whose byte at address `x` is `x % 256`. -/
def byteMem : Mem := fun x => x % 256

/-- The buffer `roomyPacket` (headroom 2, length 5, tailroom 1 over the arena at
`8192`) with its network header at `data + 1` and its transport header two
bytes further. -/
def annotatedPacket : Packet :=
  { _use_count := 1, _data_packet := none, _head := 8192, _data := 8194, _tail := 8199,
    _end := 8200, _destructor := none, _cb := [], _nh_raw := 8195, _h_raw := 8197 }

/-- The state that holds `annotatedPacket` as its only object, over `byteMem`. -/
def annotatedHeap : Heap :=
  { pkts := [annotatedPacket], deleted := [], mem := byteMem, freed := [], released := [] }

/-- Modelled from the spec: `push(n)` of `click/packet.hh`. The fast path,
taken when the headroom is available and the buffer is exclusively owned
(reference count 1, not an alias), moves `data` back by `n` in place; any other
call goes to the slow path `expensive_push`. -/
def push (st : Heap) (this : Nat) (nbytes : Nat) (pnew : Bool) (arr : Nat) :
    Option (Heap × Option Nat) :=
  match st.deref this with
  | none => none
  | some b =>
    if nbytes ≤ b.headroom ∧ b._use_count = 1 ∧ b._data_packet = none then
      some (st.store this { b with _data := psub b._data nbytes }, some this)
    else expensive_push st this nbytes pnew arr

/-- A sequence of `push` calls, each on the packet that the one before returned;
a step is the byte count with what the allocator would do if asked. -/
def pushes (st : Heap) (this : Nat) : List (Nat × Bool × Nat) → Option (Heap × Option Nat)
  | [] => some (st, some this)
  | step :: rest =>
    match push st this step.1 step.2.1 step.2.2 with
    | some (st1, some q) => pushes st1 q rest
    | r => r

/-- The bytes that a sequence of pushes prepends in all. -/
def pushed (steps : List (Nat × Bool × Nat)) : Nat := (steps.map (fun s => s.1)).sum

/-- The store of the byte `v` at address `a` that the holder of a writable
packet makes through its payload pointer. -/
def Heap.write (st : Heap) (a v : Nat) : Heap :=
  { st with mem := fun x => if x = a then v else st.mem x }

/-- The block of `n` bytes at `arr` does not overlap the region `[lo, hi)`:
what `new unsigned char[n]` guarantees for a region that is in use. -/
def Apart (arr n lo hi : Nat) : Prop := arr + n ≤ lo ∨ hi ≤ arr

instance (arr n lo hi : Nat) : Decidable (Apart arr n lo hi) := by
  unfold Apart; infer_instance

/-- What `kill()` keeps of the state it runs in: memory, the objects deleted
before, the tail and end of every object, and the head and data of every
object that is not deleted. -/
structure Kept (st st' : Heap) : Prop where
  mem_eq : st'.mem = st.mem
  deleted_mono : ∀ x, x ∈ st.deleted → x ∈ st'.deleted
  fields : ∀ x pk', st'.pkts[x]? = some pk' →
    ∃ pk, st.pkts[x]? = some pk ∧ pk'._tail = pk._tail ∧ pk'._end = pk._end ∧
      (x ∉ st'.deleted → pk'._head = pk._head ∧ pk'._data = pk._data)

/-- The pointer modulus of a build with 64-bit pointers, `2^64`. -/
abbrev PTR64 : Nat := 18446744073709551616

/-- Pointer plus a 32-bit `unsigned` offset on a build whose pointers count
modulo `P`: the offset is widened unchanged and the sum is taken modulo `P`. -/
def padd_at (P p k : Nat) : Nat := (p + k) % P

/-- Pointer minus a 32-bit `unsigned` offset, and the difference of two
pointers as `size_t`, on a build whose pointers count modulo `P`. -/
def pdec_at (P p k : Nat) : Nat := (p + P - k % P) % P

/-- The effect of `memcpy(dst, src, len)` on memory when addresses count
modulo `P`. -/
def memcpy_at (P : Nat) (mem : Mem) (dst src len : Nat) : Mem :=
  fun x => if pdec_at P x dst < len then mem (padd_at P src (pdec_at P x dst)) else mem x

/-- Modelled from the spec: `set_network_header(h, len)` with pointers modulo
`P`. -/
def Packet.set_network_header_at (P : Nat) (p : Packet) (h len : Nat) : Packet :=
  { p with _nh_raw := h, _h_raw := padd_at P h len }

/-- `Packet::alloc_data` (lines 103-115) with pointers modulo `P`; the size `n`
is an `unsigned`, 32 bits wide on every build. -/
def Packet.alloc_data_at (P : Nat) (p : Packet) (arr : Nat) (headroom len tailroom : Nat) :
    Bool × Packet :=
  let n := (len + headroom + tailroom) % ADDR_MOD
  let p := { p with _destructor := none, _head := arr }
  if p._head = 0 then (false, p)
  else
    let p := { p with _data := padd_at P p._head headroom }
    let p := { p with _tail := padd_at P p._data len }
    let p := { p with _end := padd_at P p._head n }
    (true, p)

/-- The two branches of `Packet::~Packet` for a packet that owns its arena
(lines 78-81) with pointers modulo `P`: the size passed to the release callback
is the `size_t` difference `_end - _head`. -/
def release_arena_at (P : Nat) (st : Heap) (pk : Packet) : Heap :=
  match pk._destructor with
  | some f =>
    if pk._head ≠ 0 then
      { st with released := (f, pk._head, pdec_at P pk._end pk._head) :: st.released }
    else delete_array st pk._head
  | none => delete_array st pk._head

/-- The statement `delete p` (destructor, lines 74-83) with pointers modulo `P`. -/
def delete_packet_at (P : Nat) : Nat → Heap → Nat → Option Heap
  | 0, _, _ => none
  | fuel + 1, st, p =>
    match st.deref p with
    | none => none
    | some pk =>
      let body : Option Heap :=
        match pk._data_packet with
        | some d => kill_with (delete_packet_at P fuel) st d
        | none => some (release_arena_at P st pk)
      match body with
      | none => none
      | some st2 => end_of_delete st2 p

/-- The call `p->kill()` with pointers modulo `P`. -/
def kill_at (P : Nat) (st : Heap) (p : Nat) : Option Heap :=
  kill_with (delete_packet_at P st.pkts.length) st p

/-- `Packet::make(unsigned headroom, const unsigned char *data, unsigned len,
unsigned tailroom)` (lines 117-131) with pointers modulo `P`. -/
def make_at (P : Nat) (st : Heap) (pnew : Bool) (arr : Nat) (headroom data len tailroom : Nat) :
    Option (Heap × Option Nat) :=
  if pnew then
    let r := st.push Packet.ctor
    let a := Packet.ctor.alloc_data_at P arr headroom len tailroom
    if a.1 then
      let st1 := r.1.store r.2 a.2
      if data ≠ 0 then
        some ({ st1 with mem := memcpy_at P st1.mem a.2.data data len }, some r.2)
      else some (st1, some r.2)
    else
      match delete_packet_at P 1 (r.1.store r.2 a.2) r.2 with
      | none => none
      | some st2 => some (st2, none)
  else some (st, none)

/-- The adjustments that `expensive_push` makes to the new packet `q`
(lines 243-247) with pointers modulo `P`. Line 243 computes
`headroom() - nbytes` as a 32-bit `unsigned`, which wraps when
`nbytes > headroom()`, and adds that value to the pointer `_data`; the sum is
taken at the width of the pointer. -/
def push_fixup_at (P : Nat) (q b : Packet) (nbytes : Nat) : Packet :=
  let q := { q with _data := padd_at P q._data (psub b.headroom nbytes) }
  let q := { q with _tail := pdec_at P q._tail b.tailroom }
  let q := q.copy_annotations b
  if b.network_header ≠ 0 then
    q.set_network_header_at P (padd_at P q.data b.network_header_offset)
      b.network_header_length
  else q

/-- `Packet::expensive_push` (lines 221-252), user level, with pointers modulo
`P`. -/
def expensive_push_at (P : Nat) (st : Heap) (this : Nat) (nbytes : Nat) (pnew : Bool)
    (arr : Nat) : Option (Heap × Option Nat) :=
  match st.deref this with
  | none => none
  | some b =>
    match make_at P st pnew arr ((nbytes + 128) % ADDR_MOD) b.total_data b.total_length 0 with
    | none => none
    | some (st1, none) =>
      match kill_at P st1 this with
      | none => none
      | some st3 => some (st3, none)
    | some (st1, some q) =>
      match st1.deref q with
      | none => none
      | some qp =>
        match kill_at P (st1.store q (push_fixup_at P qp b nbytes)) this with
        | none => none
        | some st3 => some (st3, some q)

/-- Byte `i` of the payload of a buffer, read from memory, with pointers modulo
`P`. -/
def payload_byte_at (P : Nat) (mem : Mem) (p : Packet) (i : Nat) : Nat :=
  mem (padd_at P p._data i)

theorem padd_of_lt {p k : Nat} (h : p + k < ADDR_MOD) : padd p k = p + k := by
  unfold padd; exact Nat.mod_eq_of_lt h

theorem psub_of_le {p q : Nat} (hq : q ≤ p) (hp : p < ADDR_MOD) : psub p q = p - q := by
  unfold psub; simp only [ADDR_MOD] at *; omega

theorem psub_lt (p q : Nat) : psub p q < ADDR_MOD := by
  unfold psub; exact Nat.mod_lt _ (by decide)

/-- The four sizes of a buffer whose region is known. -/
theorem Packet.rooms_of_region (q : Packet) (hd dt tl en : Nat) (h1 : q._head = hd)
    (h2 : q._data = dt) (h3 : q._tail = tl) (h4 : q._end = en) (l1 : hd ≤ dt)
    (l2 : dt ≤ tl) (l3 : tl ≤ en) (l4 : en < ADDR_MOD) :
    q.headroom = dt - hd ∧ q.length = tl - dt ∧ q.tailroom = en - tl ∧
    q.total_length = en - hd ∧ q.WellFormed := by
  subst h1 h2 h3 h4
  exact ⟨psub_of_le l1 (by omega), psub_of_le l2 (by omega), psub_of_le l3 l4,
    psub_of_le (by omega) l4, l1, l2, l3, l4⟩

theorem padd_lt (p k : Nat) : padd p k < ADDR_MOD := by
  unfold padd; exact Nat.mod_lt _ (by decide)

theorem psub_padd_self {d i : Nat} (hd : d < ADDR_MOD) (hi : i < ADDR_MOD) :
    psub (padd d i) d = i := by
  unfold psub padd; simp only [ADDR_MOD] at *; omega

theorem memcpy_read (mem : Mem) {dst len i : Nat} (src : Nat) (hd : dst < ADDR_MOD)
    (hl : len ≤ ADDR_MOD) (hi : i < len) :
    memcpy mem dst src len (padd dst i) = mem (padd src i) := by
  have h : psub (padd dst i) dst = i := psub_padd_self hd (by omega)
  simp [memcpy, h, hi]

/-! ## Pointers 32 bits wide

With the pointer modulus `ADDR_MOD` the operations that take the modulus as a
parameter are the operations of the 32-bit embedding. -/

theorem padd_at_narrow (p k : Nat) : padd_at ADDR_MOD p k = padd p k := rfl

theorem memcpy_at_narrow (mem : Mem) (dst src len : Nat) :
    memcpy_at ADDR_MOD mem dst src len = memcpy mem dst src len := rfl

theorem payload_byte_at_narrow (mem : Mem) (p : Packet) (i : Nat) :
    payload_byte_at ADDR_MOD mem p i = payload_byte mem p i := rfl

theorem Packet.set_network_header_at_narrow (p : Packet) (h len : Nat) :
    p.set_network_header_at ADDR_MOD h len = p.set_network_header h len := rfl

theorem Packet.alloc_data_at_narrow (p : Packet) (arr headroom len tailroom : Nat) :
    p.alloc_data_at ADDR_MOD arr headroom len tailroom =
      p.alloc_data arr headroom len tailroom := rfl

theorem release_arena_at_narrow (st : Heap) (pk : Packet) :
    release_arena_at ADDR_MOD st pk = release_arena st pk := rfl

theorem delete_packet_at_narrow (fuel : Nat) :
    delete_packet_at ADDR_MOD fuel = delete_packet fuel := by
  induction fuel with
  | zero => rfl
  | succ k ih =>
    funext st p
    simp only [delete_packet_at, delete_packet, ih, release_arena_at_narrow]

theorem kill_at_narrow (st : Heap) (p : Nat) : kill_at ADDR_MOD st p = kill st p := by
  unfold kill_at kill
  rw [delete_packet_at_narrow]

theorem make_at_narrow (st : Heap) (pnew : Bool) (arr headroom data len tailroom : Nat) :
    make_at ADDR_MOD st pnew arr headroom data len tailroom =
      make st pnew arr headroom data len tailroom := by
  unfold make_at make
  simp only [delete_packet_at_narrow, Packet.alloc_data_at_narrow, memcpy_at_narrow]

theorem push_fixup_at_narrow (q b : Packet) (nbytes : Nat) :
    push_fixup_at ADDR_MOD q b nbytes = push_fixup q b nbytes := rfl

theorem expensive_push_at_narrow (st : Heap) (this nbytes : Nat) (pnew : Bool) (arr : Nat) :
    expensive_push_at ADDR_MOD st this nbytes pnew arr =
      expensive_push st this nbytes pnew arr := by
  unfold expensive_push_at expensive_push
  simp only [make_at_narrow, push_fixup_at_narrow, kill_at_narrow]

theorem Heap.deref_eq_some {st : Heap} {p : Nat} {pk : Packet} (h : st.deref p = some pk) :
    p ∉ st.deleted ∧ st.pkts[p]? = some pk := by
  unfold Heap.deref at h
  by_cases hd : p ∈ st.deleted
  · simp [hd] at h
  · simpa [hd] using h

theorem Heap.deref_of {st : Heap} {p : Nat} {pk : Packet} (hd : p ∉ st.deleted)
    (h : st.pkts[p]? = some pk) : st.deref p = some pk := by
  simp [Heap.deref, hd, h]

theorem Heap.lt_of_deref {st : Heap} {p : Nat} {pk : Packet} (h : st.deref p = some pk) :
    p < st.pkts.length := by
  have h2 := (Heap.deref_eq_some h).2
  exact (List.getElem?_eq_some.mp h2).1

theorem Heap.fresh_not_deleted {st : Heap} (hv : st.Valid) : st.pkts.length ∉ st.deleted :=
  fun h => Nat.lt_irrefl _ (hv.1 _ h)

@[simp] theorem Heap.store_mem (st : Heap) (p : Nat) (v : Packet) :
    (st.store p v).mem = st.mem := rfl

@[simp] theorem Heap.store_deleted (st : Heap) (p : Nat) (v : Packet) :
    (st.store p v).deleted = st.deleted := rfl

@[simp] theorem Heap.store_freed (st : Heap) (p : Nat) (v : Packet) :
    (st.store p v).freed = st.freed := rfl

@[simp] theorem Heap.store_released (st : Heap) (p : Nat) (v : Packet) :
    (st.store p v).released = st.released := rfl

@[simp] theorem Heap.store_length (st : Heap) (p : Nat) (v : Packet) :
    (st.store p v).pkts.length = st.pkts.length := by
  simp [Heap.store]

theorem Heap.store_get_self {st : Heap} {p : Nat} (hp : p < st.pkts.length) (v : Packet) :
    (st.store p v).pkts[p]? = some v := by
  simp [Heap.store, List.getElem?_set, hp]

theorem Heap.store_get_ne (st : Heap) {p x : Nat} (hx : p ≠ x) (v : Packet) :
    (st.store p v).pkts[x]? = st.pkts[x]? := by
  simp [Heap.store, List.getElem?_set, hx]

theorem Heap.valid_store {st : Heap} (hv : st.Valid) {p : Nat} {pk v : Packet}
    (hp : st.pkts[p]? = some pk) (hl : v._data_packet = pk._data_packet) :
    (st.store p v).Valid := by
  have hplt : p < st.pkts.length := (List.getElem?_eq_some.mp hp).1
  refine ⟨by simpa using hv.1, ?_⟩
  intro x pkx hx d hd
  obtain ⟨hxd, hxs⟩ := Heap.deref_eq_some hx
  simp only [Heap.store_deleted] at hxd ⊢
  by_cases hxp : p = x
  · subst hxp
    rw [Heap.store_get_self hplt] at hxs
    cases hxs
    exact hv.2 p pk (Heap.deref_of hxd hp) d (hl ▸ hd)
  · rw [Heap.store_get_ne st hxp] at hxs
    exact hv.2 x pkx (Heap.deref_of hxd hxs) d hd

theorem kill_with_eq (del : Heap → Nat → Option Heap) {st : Heap} {p : Nat} {pk : Packet}
    (h : st.deref p = some pk) :
    kill_with del st p =
      if pk._use_count - 1 ≤ 0 then
        del (st.store p { pk with _use_count := pk._use_count - 1 }) p
      else some (st.store p { pk with _use_count := pk._use_count - 1 }) := by
  simp [kill_with, h]

theorem delete_packet_succ (fuel : Nat) {st : Heap} {p : Nat} {pk : Packet}
    (h : st.deref p = some pk) :
    delete_packet (fuel + 1) st p =
      match (match pk._data_packet with
        | some d => kill_with (delete_packet fuel) st d
        | none => some (release_arena st pk)) with
      | none => none
      | some st2 => end_of_delete st2 p := by
  simp [delete_packet, h]

theorem end_of_delete_eq {st : Heap} {p : Nat} {pk : Packet} (h : st.pkts[p]? = some pk) :
    end_of_delete st p =
      some { st.store p { pk with _head := 0, _data := 0 } with deleted := p :: st.deleted } := by
  simp [end_of_delete, h]

@[simp] theorem delete_array_mem (st : Heap) (a : Nat) : (delete_array st a).mem = st.mem := by
  unfold delete_array; split <;> rfl

@[simp] theorem delete_array_pkts (st : Heap) (a : Nat) :
    (delete_array st a).pkts = st.pkts := by
  unfold delete_array; split <;> rfl

@[simp] theorem delete_array_deleted (st : Heap) (a : Nat) :
    (delete_array st a).deleted = st.deleted := by
  unfold delete_array; split <;> rfl

@[simp] theorem release_arena_mem (st : Heap) (pk : Packet) :
    (release_arena st pk).mem = st.mem := by
  unfold release_arena; split
  · split <;> simp
  · simp

@[simp] theorem release_arena_pkts (st : Heap) (pk : Packet) :
    (release_arena st pk).pkts = st.pkts := by
  unfold release_arena; split
  · split <;> simp
  · simp

@[simp] theorem release_arena_deleted (st : Heap) (pk : Packet) :
    (release_arena st pk).deleted = st.deleted := by
  unfold release_arena; split
  · split <;> simp
  · simp

theorem kill_with_ok : ∀ (fuel : Nat) (st : Heap) (p : Nat) (pk : Packet),
    st.Valid → p < fuel → st.deref p = some pk →
    ∃ st', kill_with (delete_packet fuel) st p = some st' ∧ KillFrame st p pk st' := by
  intro fuel
  induction fuel with
  | zero => intro st p pk _ h; omega
  | succ fuel ih =>
    intro st p pk hv hpf hp
    obtain ⟨hpd, hps⟩ := Heap.deref_eq_some hp
    have hplt : p < st.pkts.length := Heap.lt_of_deref hp
    have hcnt0 : st.deleted.count p = 0 := List.count_eq_zero.mpr hpd
    rw [kill_with_eq _ hp]
    generalize hpk1 : ({ pk with _use_count := pk._use_count - 1 } : Packet) = pk1
    have hc1 : pk1._use_count = pk._use_count - 1 := by rw [← hpk1]
    have hl1 : pk1._data_packet = pk._data_packet := by rw [← hpk1]
    have hv1 : (st.store p pk1).Valid := Heap.valid_store hv hps hl1
    have hp1 : (st.store p pk1).deref p = some pk1 :=
      Heap.deref_of (by simpa using hpd) (Heap.store_get_self hplt _)
    by_cases hz : pk._use_count - 1 ≤ 0
    · rw [if_pos hz, delete_packet_succ _ hp1]
      have hle : pk._use_count ≤ 1 := by omega
      -- the state after the destructor body
      have key : ∀ st2 : Heap, st2.mem = st.mem → st2.pkts.length = st.pkts.length →
          (∀ x, p ≤ x → st2.pkts[x]? = (st.store p pk1).pkts[x]?) →
          st2.deleted.count p = 0 →
          (∀ x, p < x → (x ∈ st2.deleted ↔ x ∈ st.deleted)) →
          ∃ st', end_of_delete st2 p = some st' ∧ KillFrame st p pk st' := by
        intro st2 hm hl hy hd hyd
        have h2 : st2.pkts[p]? = some pk1 := by
          rw [hy p (Nat.le_refl _)]; exact Heap.store_get_self hplt _
        have hplt2 : p < st2.pkts.length := by omega
        refine ⟨_, end_of_delete_eq h2, ?_⟩
        refine ⟨by simpa using hm, by simpa using hl, ?_, ?_, ?_, ?_, ?_⟩
        · intro x hx
          have hne : p ≠ x := by omega
          simp only [Heap.store_get_ne st2 hne]
          rw [hy x (by omega), Heap.store_get_ne st hne]
        · intro x hx
          have hne : x ≠ p := by omega
          simp [hne, hyd x hx]
        · exact ⟨_, Heap.store_get_self hplt2 _, hc1⟩
        · simp [hle]
        · simp [hle, hd]
      cases hlink : pk1._data_packet with
      | some d =>
        have hdv := hv1.2 p pk1 hp1 d hlink
        have hdlt : d < st.pkts.length := by omega
        obtain ⟨pkd, hpkd⟩ : ∃ pkd, (st.store p pk1).pkts[d]? = some pkd := by
          rw [Heap.store_get_ne st (by omega : p ≠ d)]
          exact ⟨_, List.getElem?_eq_getElem hdlt⟩
        have hdd : (st.store p pk1).deref d = some pkd := Heap.deref_of hdv.2 hpkd
        obtain ⟨st2, hk, hf⟩ := ih (st.store p pk1) d pkd hv1 (by omega) hdd
        simp only [hk]
        apply key st2
        · rw [hf.mem_eq]; rfl
        · rw [hf.length_eq]; simp
        · intro x hx; exact hf.younger x (by omega)
        · have := (hf.younger_deleted p hdv.1).not.mpr (by simpa using hpd)
          exact List.count_eq_zero.mpr this
        · intro x hx; rw [hf.younger_deleted x (by omega)]; simp
      | none =>
        exact key _ (by simp) (by simp) (fun _ _ => by simp) (by simpa using hcnt0)
          (fun _ _ => by simp)
    · rw [if_neg hz]
      have hgt : ¬ pk._use_count ≤ 1 := by omega
      refine ⟨_, rfl, ?_⟩
      refine ⟨rfl, by simp, ?_, ?_, ?_, ?_, ?_⟩
      · intro x hx; exact Heap.store_get_ne st (by omega) _
      · intro x hx; simp
      · exact ⟨_, Heap.store_get_self hplt _, hc1⟩
      · simp [hgt, hpd]
      · simp [hgt, hcnt0]

theorem kill_ok {st : Heap} {p : Nat} {pk : Packet} (hv : st.Valid)
    (hp : st.deref p = some pk) :
    ∃ st', kill st p = some st' ∧ KillFrame st p pk st' :=
  kill_with_ok _ st p pk hv (Heap.lt_of_deref hp) hp

/-! ## States with one more object -/

theorem Heap.valid_withNew {st : Heap} (hv : st.Valid) {v : Packet}
    (hl : v._data_packet = none) (m : Mem) : (st.withNew v m).Valid := by
  constructor
  · intro d hd
    have := hv.1 d hd
    simp only [Heap.withNew, List.length_append, List.length_singleton]; omega
  · intro x pk hx d hd
    obtain ⟨hxd, hxs⟩ := Heap.deref_eq_some hx
    simp only [Heap.withNew] at hxd hxs ⊢
    by_cases hlt : x < st.pkts.length
    · rw [List.getElem?_append_left hlt] at hxs
      exact hv.2 x pk (Heap.deref_of hxd hxs) d hd
    · have hxl := (List.getElem?_eq_some.mp hxs).1
      simp only [List.length_append, List.length_singleton] at hxl
      have hxe : x = st.pkts.length := by omega
      subst hxe
      simp at hxs
      subst hxs
      rw [hl] at hd; cases hd

theorem Heap.valid_withDead {st : Heap} (hv : st.Valid) (v : Packet) :
    (st.withDead v).Valid := by
  constructor
  · intro d hd
    simp only [Heap.withDead, List.length_append, List.length_singleton,
      List.mem_cons] at hd ⊢
    rcases hd with hd | hd
    · omega
    · have := hv.1 d hd; omega
  · intro x pk hx d hd
    obtain ⟨hxd, hxs⟩ := Heap.deref_eq_some hx
    simp only [Heap.withDead, List.mem_cons, not_or] at hxd hxs ⊢
    have hxl := (List.getElem?_eq_some.mp hxs).1
    simp only [List.length_append, List.length_singleton] at hxl
    have hlt : x < st.pkts.length := by omega
    rw [List.getElem?_append_left hlt] at hxs
    have := hv.2 x pk (Heap.deref_of hxd.2 hxs) d hd
    exact ⟨this.1, by omega, this.2⟩

theorem Heap.deref_withNew {st : Heap} {x : Nat} {b : Packet} (h : st.deref x = some b)
    (v : Packet) (m : Mem) : (st.withNew v m).deref x = some b := by
  obtain ⟨hd, hs⟩ := Heap.deref_eq_some h
  have hlt := Heap.lt_of_deref h
  exact Heap.deref_of hd (by simp only [Heap.withNew]; rw [List.getElem?_append_left hlt]; exact hs)

theorem Heap.deref_withDead {st : Heap} {x : Nat} {b : Packet} (h : st.deref x = some b)
    (v : Packet) : (st.withDead v).deref x = some b := by
  obtain ⟨hd, hs⟩ := Heap.deref_eq_some h
  have hlt := Heap.lt_of_deref h
  apply Heap.deref_of
  · simp only [Heap.withDead, List.mem_cons, not_or]; exact ⟨by omega, hd⟩
  · simp only [Heap.withDead]; rw [List.getElem?_append_left hlt]; exact hs

theorem Heap.deref_withNew_new {st : Heap} (hv : st.Valid) (v : Packet) (m : Mem) :
    (st.withNew v m).deref st.pkts.length = some v :=
  Heap.deref_of (Heap.fresh_not_deleted hv) (by simp [Heap.withNew])

theorem kill_after_new {st : Heap} {this : Nat} {b : Packet} (hv : st.Valid)
    (hb : st.deref this = some b) {v : Packet} (hl : v._data_packet = none) (m : Mem) :
    ∃ st', kill (st.withNew v m) this = some st' ∧ Consumed st this b v m st' := by
  obtain ⟨st', hk, hf⟩ := kill_ok (Heap.valid_withNew hv hl m) (Heap.deref_withNew hb v m)
  have hlt := Heap.lt_of_deref hb
  refine ⟨st', hk, ?_, hf.mem_eq, hf.count, hf.deleted_iff, hf.deleted_once⟩
  have hnew := Heap.deref_eq_some (Heap.deref_withNew_new hv v m)
  apply Heap.deref_of
  · rw [hf.younger_deleted _ hlt]; exact hnew.1
  · rw [hf.younger _ hlt]; exact hnew.2

theorem alloc_data_ok (p : Packet) {arr : Nat} (ha : arr ≠ 0) (h l t : Nat) :
    p.alloc_data arr h l t =
      (true, { p with _destructor := none, _head := arr, _data := padd arr h,
                      _tail := padd (padd arr h) l,
                      _end := padd arr ((l + h + t) % ADDR_MOD) }) := by
  simp [Packet.alloc_data, ha]

theorem make_ok (st : Heap) {arr : Nat} (ha : arr ≠ 0) (h src l t : Nat) :
    make st true arr h src l t =
      some ({ st with pkts := st.pkts ++ [made arr h l t],
                      mem := if src ≠ 0 then memcpy st.mem (padd arr h) src l else st.mem },
            some st.pkts.length) := by
  simp only [make, alloc_data_ok _ ha, Heap.push, Heap.store, if_true]
  by_cases hs : src = 0 <;> simp [hs, made, Packet.ctor, Packet.clear_annotations, Packet.data]

theorem expensive_push_ok {st : Heap} {this : Nat} {b : Packet} (nbytes : Nat) {arr : Nat}
    (hv : st.Valid) (hb : st.deref this = some b) (ha : arr ≠ 0) :
    expensive_push st this nbytes true arr =
      (kill (st.withNew
          (push_fixup (made arr ((nbytes + 128) % ADDR_MOD) b.total_length 0) b nbytes)
          (if b.total_data ≠ 0 then
            memcpy st.mem (padd arr ((nbytes + 128) % ADDR_MOD)) b.total_data b.total_length
           else st.mem)) this).map (fun s => (s, some st.pkts.length)) := by
  have hfresh := Heap.fresh_not_deleted hv
  simp only [expensive_push, hb, make_ok st ha]
  simp only [Heap.deref, hfresh, if_false, List.getElem?_concat_length, Heap.store,
    List.set_append_right, List.length_append, Heap.withNew]
  simp
  cases kill _ this <;> rfl

theorem Heap.valid_empty (mem : Mem) : (Heap.empty mem).Valid := by
  constructor
  · intro d hd; simp [Heap.empty] at hd
  · intro x pk hx; simp [Heap.empty, Heap.deref] at hx

theorem expensive_push_returns {st : Heap} {this : Nat} {b : Packet} (nbytes : Nat)
    {arr : Nat} (hv : st.Valid) (hb : st.deref this = some b) (ha : arr ≠ 0) :
    ∃ st', expensive_push st this nbytes true arr = some (st', some st.pkts.length) ∧
      Consumed st this b
        (push_fixup (made arr ((nbytes + 128) % ADDR_MOD) b.total_length 0) b nbytes)
        (if b.total_data ≠ 0 then
          memcpy st.mem (padd arr ((nbytes + 128) % ADDR_MOD)) b.total_data b.total_length
         else st.mem) st' := by
  have hl : (push_fixup (made arr ((nbytes + 128) % ADDR_MOD) b.total_length 0) b
      nbytes)._data_packet = none := by
    unfold push_fixup; simp only []; split <;> rfl
  obtain ⟨st', hk, hc⟩ := kill_after_new hv hb hl
    (if b.total_data ≠ 0 then
      memcpy st.mem (padd arr ((nbytes + 128) % ADDR_MOD)) b.total_data b.total_length
     else st.mem)
  exact ⟨st', by rw [expensive_push_ok nbytes hv hb ha, hk]; rfl, hc⟩

theorem push_size_eq {n TL : Nat} (hfit : n + 128 + TL < ADDR_MOD) :
    (TL + (n + 128) % ADDR_MOD + 0) % ADDR_MOD = n + 128 + TL := by
  simp only [ADDR_MOD] at *; omega

theorem push_data_eq {arr n H TL : Nat} (hfit : arr + (n + 128 + TL) < ADDR_MOD)
    (hH : H ≤ TL) :
    padd (padd arr ((n + 128) % ADDR_MOD)) (psub H n) = arr + 128 + H := by
  unfold padd psub; simp only [ADDR_MOD] at *; omega

theorem push_headroom_eq {arr n H : Nat} (harr : arr < ADDR_MOD) (hH : H < n)
    (hn : n ≤ SLACK) :
    psub (padd (padd arr ((n + 128) % ADDR_MOD)) (psub H n)) arr = SLACK + H := by
  unfold padd psub; simp only [ADDR_MOD, SLACK] at *; omega

theorem push_tail_eq {arr n T TL : Nat} (hfit : arr + (n + 128 + TL) < ADDR_MOD)
    (hT : T ≤ TL) :
    psub (padd (padd arr ((n + 128) % ADDR_MOD)) TL) T = arr + n + 128 + TL - T := by
  unfold padd psub; simp only [ADDR_MOD] at *; omega

/-- The region of the packet that `expensive_push` returns, sizes being exact. -/
theorem push_fixup_region {b : Packet} {n arr : Nat} (hwf : b.WellFormed)
    (hfit : n + 128 + b.total_length < ADDR_MOD)
    (hal : AllocOk arr ((b.total_length + (n + 128) % ADDR_MOD + 0) % ADDR_MOD)) :
    (push_fixup (made arr ((n + 128) % ADDR_MOD) b.total_length 0) b n)._head = arr ∧
    (push_fixup (made arr ((n + 128) % ADDR_MOD) b.total_length 0) b n)._data =
      arr + 128 + b.headroom ∧
    (push_fixup (made arr ((n + 128) % ADDR_MOD) b.total_length 0) b n)._tail =
      arr + 128 + b.headroom + n + b.length ∧
    (push_fixup (made arr ((n + 128) % ADDR_MOD) b.total_length 0) b n)._end =
      arr + n + 128 + b.total_length ∧
    b.headroom + b.length + b.tailroom = b.total_length := by
  obtain ⟨h1, h2, h3, h4⟩ := hwf
  obtain ⟨ha, hfit2⟩ := hal
  rw [push_size_eq hfit] at hfit2
  have e1 : b.headroom = b._data - b._head := psub_of_le h1 (by omega)
  have e2 : b.length = b._tail - b._data := psub_of_le h2 (by omega)
  have e3 : b.tailroom = b._end - b._tail := psub_of_le h3 h4
  have e4 : b.total_length = b._end - b._head := psub_of_le (by omega) h4
  have hsum : b.headroom + b.length + b.tailroom = b.total_length := by
    rw [e1, e2, e3, e4]; omega
  have g1 : (push_fixup (made arr ((n + 128) % ADDR_MOD) b.total_length 0) b n)._head
      = arr := by
    unfold push_fixup; simp only []; split <;> rfl
  have g2 : (push_fixup (made arr ((n + 128) % ADDR_MOD) b.total_length 0) b n)._data
      = padd (padd arr ((n + 128) % ADDR_MOD)) (psub b.headroom n) := by
    unfold push_fixup; simp only []; split <;> rfl
  have g3 : (push_fixup (made arr ((n + 128) % ADDR_MOD) b.total_length 0) b n)._tail
      = psub (padd (padd arr ((n + 128) % ADDR_MOD)) b.total_length) b.tailroom := by
    unfold push_fixup; simp only []; split <;> rfl
  have g4 : (push_fixup (made arr ((n + 128) % ADDR_MOD) b.total_length 0) b n)._end
      = padd arr ((b.total_length + (n + 128) % ADDR_MOD + 0) % ADDR_MOD) := by
    unfold push_fixup; simp only []; split <;> rfl
  rw [g1, g2, g3, g4, push_size_eq hfit, push_data_eq hfit2 (by omega),
    push_tail_eq hfit2 (by omega), padd_of_lt hfit2]
  refine ⟨rfl, rfl, ?_, by omega, hsum⟩
  omega

theorem expensive_put_ok {st : Heap} {this : Nat} {b : Packet} (nbytes : Nat) {arr : Nat}
    (hv : st.Valid) (hb : st.deref this = some b) (ha : arr ≠ 0) :
    expensive_put st this nbytes true arr =
      (kill (st.withNew
          (put_fixup (made arr 0 b.total_length ((nbytes + 128) % ADDR_MOD)) b nbytes)
          (if b.total_data ≠ 0 then
            memcpy st.mem (padd arr 0) b.total_data b.total_length
           else st.mem)) this).map (fun s => (s, some st.pkts.length)) := by
  have hfresh := Heap.fresh_not_deleted hv
  simp only [expensive_put, hb, make_ok st ha]
  simp only [Heap.deref, hfresh, if_false, List.getElem?_concat_length, Heap.store,
    List.set_append_right, List.length_append, Heap.withNew]
  simp
  cases kill _ this <;> rfl

theorem expensive_put_returns {st : Heap} {this : Nat} {b : Packet} (nbytes : Nat)
    {arr : Nat} (hv : st.Valid) (hb : st.deref this = some b) (ha : arr ≠ 0) :
    ∃ st', expensive_put st this nbytes true arr = some (st', some st.pkts.length) ∧
      Consumed st this b
        (put_fixup (made arr 0 b.total_length ((nbytes + 128) % ADDR_MOD)) b nbytes)
        (if b.total_data ≠ 0 then memcpy st.mem (padd arr 0) b.total_data b.total_length
         else st.mem) st' := by
  have hl : (put_fixup (made arr 0 b.total_length ((nbytes + 128) % ADDR_MOD)) b
      nbytes)._data_packet = none := by
    unfold put_fixup; simp only []; split <;> rfl
  obtain ⟨st', hk, hc⟩ := kill_after_new hv hb hl
    (if b.total_data ≠ 0 then memcpy st.mem (padd arr 0) b.total_data b.total_length
     else st.mem)
  exact ⟨st', by rw [expensive_put_ok nbytes hv hb ha, hk]; rfl, hc⟩

theorem put_size_eq {n TL : Nat} (hfit : n + 128 + TL < ADDR_MOD) :
    (TL + 0 + (n + 128) % ADDR_MOD) % ADDR_MOD = n + 128 + TL := by
  simp only [ADDR_MOD] at *; omega

theorem put_tail_eq {arr n T TL : Nat} (hfit : arr + (n + 128 + TL) < ADDR_MOD)
    (hT : T ≤ TL) :
    padd (padd (padd arr 0) TL) (psub n T) = arr + TL + n - T := by
  unfold padd psub; simp only [ADDR_MOD] at *; omega

theorem put_data_eq {arr n H TL : Nat} (hfit : arr + (n + 128 + TL) < ADDR_MOD)
    (hH : H ≤ TL) : padd (padd arr 0) H = arr + H := by
  unfold padd; simp only [ADDR_MOD] at *; omega

/-- The region of the packet that `expensive_put` returns, sizes being exact. -/
theorem put_fixup_region {b : Packet} {n arr : Nat} (hwf : b.WellFormed)
    (hfit : n + 128 + b.total_length < ADDR_MOD)
    (hal : AllocOk arr ((b.total_length + 0 + (n + 128) % ADDR_MOD) % ADDR_MOD)) :
    (put_fixup (made arr 0 b.total_length ((n + 128) % ADDR_MOD)) b n)._head = arr ∧
    (put_fixup (made arr 0 b.total_length ((n + 128) % ADDR_MOD)) b n)._data =
      arr + b.headroom ∧
    (put_fixup (made arr 0 b.total_length ((n + 128) % ADDR_MOD)) b n)._tail =
      arr + b.headroom + b.length + n ∧
    (put_fixup (made arr 0 b.total_length ((n + 128) % ADDR_MOD)) b n)._end =
      arr + n + 128 + b.total_length ∧
    b.headroom + b.length + b.tailroom = b.total_length := by
  obtain ⟨h1, h2, h3, h4⟩ := hwf
  obtain ⟨ha, hfit2⟩ := hal
  rw [put_size_eq hfit] at hfit2
  have e1 : b.headroom = b._data - b._head := psub_of_le h1 (by omega)
  have e2 : b.length = b._tail - b._data := psub_of_le h2 (by omega)
  have e3 : b.tailroom = b._end - b._tail := psub_of_le h3 h4
  have e4 : b.total_length = b._end - b._head := psub_of_le (by omega) h4
  have hsum : b.headroom + b.length + b.tailroom = b.total_length := by
    rw [e1, e2, e3, e4]; omega
  have g1 : (put_fixup (made arr 0 b.total_length ((n + 128) % ADDR_MOD)) b n)._head
      = arr := by
    unfold put_fixup; simp only []; split <;> rfl
  have g2 : (put_fixup (made arr 0 b.total_length ((n + 128) % ADDR_MOD)) b n)._data
      = padd (padd arr 0) b.headroom := by
    unfold put_fixup; simp only []; split <;> rfl
  have g3 : (put_fixup (made arr 0 b.total_length ((n + 128) % ADDR_MOD)) b n)._tail
      = padd (padd (padd arr 0) b.total_length) (psub n b.tailroom) := by
    unfold put_fixup; simp only []; split <;> rfl
  have g4 : (put_fixup (made arr 0 b.total_length ((n + 128) % ADDR_MOD)) b n)._end
      = padd arr ((b.total_length + 0 + (n + 128) % ADDR_MOD) % ADDR_MOD) := by
    unfold put_fixup; simp only []; split <;> rfl
  rw [g1, g2, g3, g4, put_size_eq hfit, put_data_eq hfit2 (by omega : b.headroom ≤ _),
    put_tail_eq hfit2 (by omega), padd_of_lt hfit2]
  refine ⟨rfl, rfl, ?_, by omega, hsum⟩
  omega

theorem uniqueify_copy_ok {st : Heap} {this : Nat} {b : Packet} (u : Packet) {arr : Nat}
    (hb : st.deref this = some b) (ha : arr ≠ 0) :
    uniqueify_copy st this true u arr =
      (kill (st.withNew (uniqueify_fixup (uniqueified u b arr) b)
          (memcpy st.mem (padd arr b.headroom) b._data (psub b._tail b._data))) this).map
        (fun s => (s, some st.pkts.length)) := by
  simp only [uniqueify_copy, hb, make_dummy, if_true, Heap.push, alloc_data_ok _ ha]
  simp only [Heap.store, List.set_append_right, List.length_append, Heap.withNew, uniqueified]
  simp
  cases kill _ this <;> rfl

theorem uniqueify_copy_returns {st : Heap} {this : Nat} {b : Packet} (u : Packet)
    {arr : Nat} (hv : st.Valid) (hb : st.deref this = some b) (ha : arr ≠ 0) :
    ∃ st', uniqueify_copy st this true u arr = some (st', some st.pkts.length) ∧
      Consumed st this b (uniqueify_fixup (uniqueified u b arr) b)
        (memcpy st.mem (padd arr b.headroom) b._data (psub b._tail b._data)) st' := by
  have hl : (uniqueify_fixup (uniqueified u b arr) b)._data_packet = none := by
    unfold uniqueify_fixup; simp only []; split <;> rfl
  obtain ⟨st', hk, hc⟩ := kill_after_new hv hb hl
    (memcpy st.mem (padd arr b.headroom) b._data (psub b._tail b._data))
  exact ⟨st', by rw [uniqueify_copy_ok u hb ha, hk]; rfl, hc⟩

theorem uniq_data_eq {arr H L T : Nat} (hfit : arr + (L + H + T) < ADDR_MOD) :
    padd arr H = arr + H ∧ padd (padd arr H) L = arr + H + L ∧
    padd arr ((L + H + T) % ADDR_MOD) = arr + H + L + T := by
  unfold padd; simp only [ADDR_MOD] at *; omega

/-- The region of the packet that `uniqueify_copy` returns. -/
theorem uniqueify_region {b : Packet} (u : Packet) {arr : Nat} (hwf : b.WellFormed)
    (hal : AllocOk arr ((b.length + b.headroom + b.tailroom) % ADDR_MOD)) :
    (uniqueify_fixup (uniqueified u b arr) b)._head = arr ∧
    (uniqueify_fixup (uniqueified u b arr) b)._data = arr + b.headroom ∧
    (uniqueify_fixup (uniqueified u b arr) b)._tail = arr + b.headroom + b.length ∧
    (uniqueify_fixup (uniqueified u b arr) b)._end =
      arr + b.headroom + b.length + b.tailroom ∧
    (uniqueify_fixup (uniqueified u b arr) b)._use_count = 1 ∧
    (uniqueify_fixup (uniqueified u b arr) b)._data_packet = none ∧
    (uniqueify_fixup (uniqueified u b arr) b)._destructor = none ∧
    b.headroom + b.length + b.tailroom < ADDR_MOD ∧
    arr + (b.length + b.headroom + b.tailroom) < ADDR_MOD := by
  obtain ⟨h1, h2, h3, h4⟩ := hwf
  obtain ⟨ha, hfit⟩ := hal
  have e1 : b.headroom = b._data - b._head := psub_of_le h1 (by omega)
  have e2 : b.length = b._tail - b._data := psub_of_le h2 (by omega)
  have e3 : b.tailroom = b._end - b._tail := psub_of_le h3 h4
  have hsum : b.length + b.headroom + b.tailroom < ADDR_MOD := by
    rw [e1, e2, e3]; omega
  rw [Nat.mod_eq_of_lt hsum] at hfit
  obtain ⟨a1, a2, a3⟩ := uniq_data_eq hfit
  have g1 : (uniqueify_fixup (uniqueified u b arr) b)._head = arr := by
    unfold uniqueify_fixup; simp only []; split <;> rfl
  have g2 : (uniqueify_fixup (uniqueified u b arr) b)._data = padd arr b.headroom := by
    unfold uniqueify_fixup; simp only []; split <;> rfl
  have g3 : (uniqueify_fixup (uniqueified u b arr) b)._tail =
      padd (padd arr b.headroom) b.length := by
    unfold uniqueify_fixup; simp only []; split <;> rfl
  have g4 : (uniqueify_fixup (uniqueified u b arr) b)._end =
      padd arr ((b.length + b.headroom + b.tailroom) % ADDR_MOD) := by
    unfold uniqueify_fixup; simp only []; split <;> rfl
  have g5 : (uniqueify_fixup (uniqueified u b arr) b)._use_count = 1 := by
    unfold uniqueify_fixup; simp only []; split <;> rfl
  have g6 : (uniqueify_fixup (uniqueified u b arr) b)._data_packet = none := by
    unfold uniqueify_fixup; simp only []; split <;> rfl
  have g7 : (uniqueify_fixup (uniqueified u b arr) b)._destructor = none := by
    unfold uniqueify_fixup; simp only []; split <;> rfl
  rw [g1, g2, g3, g4, a2, a1, a3]
  exact ⟨rfl, rfl, rfl, rfl, g5, g6, g7, by omega, by omega⟩

theorem clone_ok {st : Heap} {this : Nat} {b : Packet} (u : Packet)
    (hb : st.deref this = some b) :
    clone st this true u =
      some ({ st with pkts := (st.pkts.set this { b with _use_count := b._use_count + 1 }) ++
                [cloned u b this] }, some st.pkts.length) := by
  have hlt := Heap.lt_of_deref hb
  simp only [clone, hb, make_dummy, if_true, Heap.push, Heap.store, Packet.copy_annotations,
    cloned]
  simp [List.set_append_right, List.set_append_left, hlt]

theorem released_of_kill {S : Heap} {this : Nat} {b : Packet} (hv : S.Valid)
    (hb : S.deref this = some b) :
    ∃ st', kill S this = some st' ∧ Released this b st' := by
  obtain ⟨st', hk, hf⟩ := kill_ok hv hb
  exact ⟨st', hk, hf.count, hf.deleted_once⟩

/-- The statement `delete p` on a new object that owns no arena: nothing is
released and the object is gone. -/
theorem delete_fresh {st : Heap} (hv : st.Valid) {v : Packet} (hl : v._data_packet = none)
    (hh : v._head = 0) :
    delete_packet 1 { st with pkts := st.pkts ++ [v] } st.pkts.length =
      some (st.withDead { v with _head := 0, _data := 0 }) := by
  have hd : ({ st with pkts := st.pkts ++ [v] } : Heap).deref st.pkts.length = some v :=
    Heap.deref_withNew_new hv v st.mem
  have hr : release_arena { st with pkts := st.pkts ++ [v] } v =
      { st with pkts := st.pkts ++ [v] } := by
    unfold release_arena delete_array
    cases v._destructor <;> simp [hh]
  have e := delete_packet_succ 0 hd
  simp only [hl, hr] at e
  rw [e, end_of_delete_eq (Heap.deref_eq_some hd).2]
  simp [Heap.withDead, Heap.store]

/-- When `make` returns no packet, the objects of the state are as before. -/
theorem make_none {st : Heap} (hv : st.Valid) {pnew : Bool} {arr : Nat}
    (hf : pnew = false ∨ arr = 0) (h src l t : Nat) :
    ∃ S, make st pnew arr h src l t = some (S, none) ∧ S.Valid ∧
      ∀ x b, st.deref x = some b → S.deref x = some b := by
  cases pnew with
  | false => exact ⟨st, by simp [make], hv, fun _ _ hx => hx⟩
  | true =>
    have ha : arr = 0 := by simpa using hf
    subst ha
    have hdel := delete_fresh hv (rfl : (Packet.ctor.alloc_data 0 h l t).2._data_packet = none)
      (rfl : (Packet.ctor.alloc_data 0 h l t).2._head = 0)
    refine ⟨st.withDead { (Packet.ctor.alloc_data 0 h l t).2 with _head := 0, _data := 0 },
      ?_, Heap.valid_withDead hv _, fun x b hx => Heap.deref_withDead hx _⟩
    have h1 : (Packet.ctor.alloc_data 0 h l t).1 = false := rfl
    simp only [make, if_true, h1, Heap.push, Heap.store, List.set_append_right,
      List.length_append]
    simp only [Bool.false_eq_true, if_false]
    have hset : (st.pkts ++ [Packet.ctor]).set st.pkts.length
        (Packet.ctor.alloc_data 0 h l t).2 = st.pkts ++ [(Packet.ctor.alloc_data 0 h l t).2] := by
      simp
    rw [hset, hdel]

theorem expensive_push_none {st : Heap} {this : Nat} {b : Packet} {n : Nat} {pnew : Bool}
    {arr : Nat} {S : Heap} (hb : st.deref this = some b)
    (hm : make st pnew arr ((n + 128) % ADDR_MOD) b.total_data b.total_length 0 =
      some (S, none)) :
    expensive_push st this n pnew arr = (kill S this).map (fun s => (s, none)) := by
  simp only [expensive_push, hb, hm]
  cases kill S this <;> rfl

theorem expensive_put_none {st : Heap} {this : Nat} {b : Packet} {n : Nat} {pnew : Bool}
    {arr : Nat} {S : Heap} (hb : st.deref this = some b)
    (hm : make st pnew arr 0 b.total_data b.total_length ((n + 128) % ADDR_MOD) =
      some (S, none)) :
    expensive_put st this n pnew arr = (kill S this).map (fun s => (s, none)) := by
  simp only [expensive_put, hb, hm]
  cases kill S this <;> rfl

theorem uniqueify_copy_none {st : Heap} {this : Nat} {b : Packet} (hv : st.Valid)
    (hb : st.deref this = some b) {pnew : Bool} {arr : Nat}
    (hf : pnew = false ∨ arr = 0) (u : Packet) :
    ∃ S, uniqueify_copy st this pnew u arr = (kill S this).map (fun s => (s, none)) ∧
      S.Valid ∧ S.deref this = some b := by
  cases pnew with
  | false =>
    refine ⟨st, ?_, hv, hb⟩
    simp only [uniqueify_copy, hb, make_dummy, Bool.false_eq_true, if_false]
    cases kill st this <;> rfl
  | true =>
    have ha : arr = 0 := by simpa using hf
    subst ha
    have hdel := delete_fresh hv
      (rfl : (Packet.alloc_data { u with _use_count := 1, _data_packet := none } 0
        b.headroom b.length b.tailroom).2._data_packet = none)
      (rfl : (Packet.alloc_data { u with _use_count := 1, _data_packet := none } 0
        b.headroom b.length b.tailroom).2._head = 0)
    refine ⟨st.withDead
      { (Packet.alloc_data { u with _use_count := 1, _data_packet := none } 0
          b.headroom b.length b.tailroom).2 with _head := 0, _data := 0 },
      ?_, Heap.valid_withDead hv _, Heap.deref_withDead hb _⟩
    have h1 : (Packet.alloc_data { u with _use_count := 1, _data_packet := none } 0
        b.headroom b.length b.tailroom).1 = false := rfl
    simp only [uniqueify_copy, hb, make_dummy, if_true, h1, Heap.push, Heap.store,
      List.set_append_right, List.length_append]
    simp only [Bool.false_eq_true, if_false]
    have hset : (st.pkts ++ [u]).set st.pkts.length
        (Packet.alloc_data { u with _use_count := 1, _data_packet := none } 0
          b.headroom b.length b.tailroom).2 =
        st.pkts ++ [(Packet.alloc_data { u with _use_count := 1, _data_packet := none } 0
          b.headroom b.length b.tailroom).2] := by
      simp
    rw [hset, hdel]
    dsimp only
    generalize kill _ this = k
    cases k <;> rfl

theorem make_external_ok (st : Heap) (data len : Nat) (destruct : Option Nat) :
    make_external st true data len destruct =
      ({ st with pkts := st.pkts ++ [wrapped data len destruct] }, some st.pkts.length) := rfl

theorem Heap.valid_single (v : Packet) (m : Mem) (hl : v._data_packet = none) :
    Heap.Valid { pkts := [v], deleted := [], mem := m, freed := [], released := [] } := by
  have h := Heap.valid_withNew (Heap.valid_empty m) hl m
  simpa [Heap.withNew, Heap.empty] using h

theorem helloHeap_eq_make :
    make (Heap.empty helloMem) true 8192 0 4096 5 0 = some (helloHeap, some 0) := by
  rw [make_ok _ (by decide)]
  simp [helloHeap, wideHeap, roomyHeap, helloPacket, widePacket, roomyPacket, made,
    Packet.ctor, Packet.clear_annotations, padd, Heap.empty, ADDR_MOD]

theorem wideHeap_eq_make :
    make (Heap.empty (fun _ => 0)) true 4096 0 0 200 0 = some (wideHeap, some 0) := by
  rw [make_ok _ (by decide)]
  simp [helloHeap, wideHeap, roomyHeap, helloPacket, widePacket, roomyPacket, made,
    Packet.ctor, Packet.clear_annotations, padd, Heap.empty, ADDR_MOD]

theorem roomyHeap_eq_make :
    make (Heap.empty (fun _ => 0)) true 8192 2 0 5 1 = some (roomyHeap, some 0) := by
  rw [make_ok _ (by decide)]
  simp [helloHeap, wideHeap, roomyHeap, helloPacket, widePacket, roomyPacket, made,
    Packet.ctor, Packet.clear_annotations, padd, Heap.empty, ADDR_MOD]

/-! ## Counting aliases -/

theorem aliasCount_congr {n : Nat} {cnt cnt' : Nat → Int} {lnk lnk' : Nat → Option Nat}
    (x : Nat) (h : ∀ y, y < n → ((0 < cnt' y ↔ 0 < cnt y) ∧ lnk' y = lnk y)) :
    aliasCount n cnt' lnk' x = aliasCount n cnt lnk x := by
  unfold aliasCount
  apply List.countP_congr
  intro y hy
  obtain ⟨h1, h2⟩ := h y (List.mem_range.mp hy)
  simp [h1, h2]

theorem aliasCount_congr_except {n : Nat} {cnt cnt' : Nat → Int} {lnk : Nat → Option Nat}
    {p x : Nat} (hp : lnk p ≠ some x) (h : ∀ y, y < n → y ≠ p → (0 < cnt' y ↔ 0 < cnt y)) :
    aliasCount n cnt' lnk x = aliasCount n cnt lnk x := by
  unfold aliasCount
  apply List.countP_congr
  intro y hy
  by_cases hyp : y = p
  · subst hyp; simp [hp]
  · simp [h y (List.mem_range.mp hy) hyp]

theorem countP_range_drop {n p : Nat} {f g : Nat → Bool} (hp : p < n)
    (h : ∀ y, y ≠ p → g y = f y) (hf : f p = true) (hg : g p = false) :
    (List.range n).countP g + 1 = (List.range n).countP f := by
  induction n with
  | zero => omega
  | succ n ih =>
    rw [List.range_succ, List.countP_append, List.countP_append]
    by_cases hpn : p = n
    · subst hpn
      have hc : (List.range p).countP g = (List.range p).countP f := by
        apply List.countP_congr
        intro y hy
        have hne : y ≠ p := by have := List.mem_range.mp hy; omega
        rw [h y hne]
      simp [hc, hf, hg]
    · have h1 := ih (by omega)
      have h2 := h n (Ne.symm hpn)
      simp only [List.countP_singleton, h2]
      omega

theorem aliasCount_drop {n : Nat} {cnt cnt' : Nat → Int} {lnk : Nat → Option Nat}
    {p d : Nat} (hp : p < n) (hl : lnk p = some d) (h1 : 0 < cnt p) (h2 : ¬ 0 < cnt' p)
    (h : ∀ y, y ≠ p → cnt' y = cnt y) :
    aliasCount n cnt' lnk d + 1 = aliasCount n cnt lnk d := by
  unfold aliasCount
  apply countP_range_drop hp
  · intro y hy; simp [h y hy]
  · simp [h1, hl]
  · simp [h2]

theorem aliasCount_pos {n : Nat} {cnt : Nat → Int} {lnk : Nat → Option Nat} {p d : Nat}
    (hp : p < n) (hl : lnk p = some d) (h1 : 0 < cnt p) : 0 < aliasCount n cnt lnk d := by
  unfold aliasCount
  rw [List.countP_pos_iff]
  exact ⟨p, List.mem_range.mpr hp, by simp [h1, hl]⟩

theorem aliasCount_zero {n : Nat} {cnt : Nat → Int} {lnk : Nat → Option Nat} {x : Nat}
    (h : ∀ y, y < n → 0 < cnt y → lnk y ≠ some x) : aliasCount n cnt lnk x = 0 := by
  unfold aliasCount
  rw [List.countP_eq_zero]
  intro y hy
  have := h y (List.mem_range.mp hy)
  by_cases hc : 0 < cnt y
  · simp [hc, this hc]
  · simp [hc]

theorem aliasCount_succ (n : Nat) (cnt : Nat → Int) (lnk : Nat → Option Nat) (x : Nat) :
    aliasCount (n + 1) cnt lnk x =
      aliasCount n cnt lnk x + (if 0 < cnt n ∧ lnk n = some x then 1 else 0) := by
  unfold aliasCount
  rw [List.range_succ, List.countP_append, List.countP_singleton]
  simp

theorem Heap.cnt_of_get {st : Heap} {x : Nat} {pk : Packet} (h : st.pkts[x]? = some pk) :
    st.cnt x = pk._use_count := by
  simp [Heap.cnt, h]

theorem Heap.link_of_get {st : Heap} {x : Nat} {pk : Packet} (h : st.pkts[x]? = some pk) :
    st.link x = pk._data_packet := by
  simp [Heap.link, h]

theorem Heap.cnt_store_ne (st : Heap) {p x : Nat} (h : p ≠ x) (v : Packet) :
    (st.store p v).cnt x = st.cnt x := by
  simp [Heap.cnt, Heap.store_get_ne st h]

theorem Heap.link_store_ne (st : Heap) {p x : Nat} (h : p ≠ x) (v : Packet) :
    (st.store p v).link x = st.link x := by
  simp [Heap.link, Heap.store_get_ne st h]

theorem Heap.cnt_store_self {st : Heap} {p : Nat} (hp : p < st.pkts.length) (v : Packet) :
    (st.store p v).cnt p = v._use_count := by
  simp [Heap.cnt, Heap.store_get_self hp]

theorem Heap.link_store_self {st : Heap} {p : Nat} (hp : p < st.pkts.length) (v : Packet) :
    (st.store p v).link p = v._data_packet := by
  simp [Heap.link, Heap.store_get_self hp]

/-- A store that keeps the alias link of the object leaves every link as it is. -/
theorem Heap.link_store_same {st : Heap} {p : Nat} {pk v : Packet}
    (hp : st.pkts[p]? = some pk) (hl : v._data_packet = pk._data_packet) (x : Nat) :
    (st.store p v).link x = st.link x := by
  have hplt : p < st.pkts.length := (List.getElem?_eq_some.mp hp).1
  by_cases h : p = x
  · subst h; rw [Heap.link_store_self hplt, Heap.link_of_get hp, hl]
  · exact Heap.link_store_ne st h v

/-- A store that keeps the count of the object leaves every count as it is. -/
theorem Heap.cnt_store_same {st : Heap} {p : Nat} {pk v : Packet}
    (hp : st.pkts[p]? = some pk) (hl : v._use_count = pk._use_count) (x : Nat) :
    (st.store p v).cnt x = st.cnt x := by
  have hplt : p < st.pkts.length := (List.getElem?_eq_some.mp hp).1
  by_cases h : p = x
  · subst h; rw [Heap.cnt_store_self hplt, Heap.cnt_of_get hp, hl]
  · exact Heap.cnt_store_ne st h v

/-! ## The lifetime invariant -/

theorem Heap.aliases_eq_of {st st' : Heap} (hl : st'.pkts.length = st.pkts.length)
    (h : ∀ y, y < st.pkts.length → ((0 < st'.cnt y ↔ 0 < st.cnt y) ∧ st'.link y = st.link y))
    (x : Nat) : st'.aliases x = st.aliases x := by
  unfold Heap.aliases
  rw [hl]
  exact aliasCount_congr x h

theorem Inv.link_ne_self {g : Packet} {mem0 : Mem} {killed : List Nat} {P : Nat → Prop}
    {debt : Option Nat} {st : Heap} (hI : Inv g mem0 killed P debt st) {p : Nat}
    (hp : p < st.pkts.length) : st.link p ≠ some p := by
  intro h
  rcases Nat.eq_zero_or_pos p with h0 | h0
  · subst h0; rw [hI.root] at h; cases h
  · obtain ⟨d, hd, hlt⟩ := hI.links p h0 hp
    rw [hd] at h; cases h; omega

/-- The decrement in `kill()`, when the count stays positive. -/
theorem Inv.decr_alive {g : Packet} {mem0 : Mem} {killed : List Nat} {P : Nat → Prop}
    {st : Heap} {p : Nat} {pk : Packet} (hI : Inv g mem0 killed P (some p) st)
    (hp : st.pkts[p]? = some pk) (hpos : ¬ pk._use_count - 1 ≤ 0) :
    Inv g mem0 killed P none (st.store p { pk with _use_count := pk._use_count - 1 }) := by
  have hplt : p < st.pkts.length := (List.getElem?_eq_some.mp hp).1
  have hlink : ∀ x, (st.store p { pk with _use_count := pk._use_count - 1 }).link x =
      st.link x := Heap.link_store_same hp rfl
  have hcp : st.cnt p = pk._use_count := Heap.cnt_of_get hp
  have hcnt_p : (st.store p { pk with _use_count := pk._use_count - 1 }).cnt p =
      pk._use_count - 1 := Heap.cnt_store_self hplt _
  have hcnt_ne : ∀ x, p ≠ x → (st.store p { pk with _use_count := pk._use_count - 1 }).cnt x =
      st.cnt x := fun x hx => Heap.cnt_store_ne st hx _
  have hsign : ∀ y, (0 < (st.store p { pk with _use_count := pk._use_count - 1 }).cnt y ↔
      0 < st.cnt y) := by
    intro y
    by_cases hy : p = y
    · subst hy; rw [hcnt_p, hcp]; omega
    · rw [hcnt_ne y hy]
  have hal : ∀ x, (st.store p { pk with _use_count := pk._use_count - 1 }).aliases x =
      st.aliases x :=
    Heap.aliases_eq_of (by simp) (fun y _ => ⟨hsign y, hlink y⟩)
  refine ⟨by simpa using hI.pos, by rw [hlink]; exact hI.root, ?_, ?_, ?_, ?_, ?_, ?_, ?_,
    ?_, ?_, hI.mem_eq, hI.head_ne⟩
  · intro x h0 hx
    rw [hlink]; exact hI.links x h0 (by simpa using hx)
  · intro x hx
    have hc := hI.counts x (by simpa using hx)
    rw [hal]
    by_cases hy : p = x
    · subst hy
      rw [hcnt_p]; rw [hcp] at hc
      simp only [if_true] at hc
      simp only [reduceCtorEq, if_false]
      omega
    · rw [hcnt_ne x hy, hc]
      have : ¬ (some p = some x) := fun h => hy (Option.some.inj h)
      simp [this]
  · intro x
    rw [Heap.store_deleted, Heap.store_length, hI.dead x]
    have := hsign x
    constructor
    · rintro ⟨h1, h2⟩; exact ⟨h1, by omega⟩
    · rintro ⟨h1, h2⟩; exact ⟨h1, by omega⟩
  · exact hI.pending
  · intro x hx; simpa using hI.killed_lt x hx
  · intro x pk' hxd hx
    by_cases hy : p = x
    · subst hy
      rw [Heap.store_get_self hplt] at hx
      cases hx
      exact hI.region p pk hxd hp
    · rw [Heap.store_get_ne st hy] at hx
      exact hI.region x pk' hxd hx
  · intro pk' hx
    by_cases hy : p = 0
    · subst hy
      rw [Heap.store_get_self hplt] at hx
      cases hx
      exact hI.root_destructor pk hp
    · rw [Heap.store_get_ne st hy] at hx
      exact hI.root_destructor pk' hx
  · exact hI.log_live
  · exact hI.log_dead

/-- The decrement in `kill()`, when the count reaches zero: the object is now
pending deletion and the packet it borrows from holds one reference too many. -/
theorem Inv.decr_zero {g : Packet} {mem0 : Mem} {killed : List Nat} {P : Nat → Prop}
    {st : Heap} {p : Nat} {pk pk1 : Packet} (hI : Inv g mem0 killed P (some p) st)
    (hp : st.pkts[p]? = some pk) (hz : pk._use_count - 1 ≤ 0)
    (hpk1 : pk1 = { pk with _use_count := pk._use_count - 1 }) :
    Inv g mem0 killed (fun x => P x ∨ x = p) pk._data_packet (st.store p pk1) ∧
    p ∉ st.deleted ∧ ¬ P p := by
  have hplt : p < st.pkts.length := (List.getElem?_eq_some.mp hp).1
  have hc1 : pk1._use_count = pk._use_count - 1 := by rw [hpk1]
  have hr1 : pk1._head = pk._head ∧ pk1._data = pk._data ∧ pk1._tail = pk._tail ∧
      pk1._end = pk._end ∧ pk1._destructor = pk._destructor := by
    rw [hpk1]; exact ⟨rfl, rfl, rfl, rfl, rfl⟩
  have hlink : ∀ x, (st.store p pk1).link x =
      st.link x := Heap.link_store_same hp (by rw [hpk1])
  have hlp : st.link p = pk._data_packet := Heap.link_of_get hp
  have hcp : st.cnt p = pk._use_count := Heap.cnt_of_get hp
  have hcnt_p : (st.store p pk1).cnt p =
      pk._use_count - 1 := by rw [Heap.cnt_store_self hplt, hc1]
  have hcnt_ne : ∀ x, p ≠ x → (st.store p pk1).cnt x =
      st.cnt x := fun x hx => Heap.cnt_store_ne st hx _
  have hcount := hI.counts p hplt
  rw [hcp] at hcount
  simp only [if_true] at hcount
  have hone : pk._use_count = 1 := by
    have : (0 : Int) ≤ (st.aliases p : Int) := Int.ofNat_nonneg _
    split at hcount <;> omega
  have hkilled : p ∈ killed := by
    by_contra hk
    have : (0 : Int) ≤ (st.aliases p : Int) := Int.ofNat_nonneg _
    simp only [hk, if_false] at hcount
    omega
  have hal0 : st.aliases p = 0 := by
    simp only [hkilled, if_true] at hcount
    omega
  have hnotdead : ¬ (p ∈ st.deleted ∨ P p) := by
    intro h
    have := ((hI.dead p).mp h).2
    rw [hcp] at this; omega
  have hself := hI.link_ne_self hplt
  -- the alias counts after the decrement
  have hal_ne : ∀ x, st.link p ≠ some x →
      (st.store p pk1).aliases x = st.aliases x := by
    intro x hx
    unfold Heap.aliases
    rw [Heap.store_length]
    have e1 : aliasCount st.pkts.length
        (st.store p pk1).cnt
        (st.store p pk1).link x =
        aliasCount st.pkts.length
        (st.store p pk1).cnt st.link x :=
      aliasCount_congr x (fun y _ => ⟨Iff.rfl, hlink y⟩)
    rw [e1]
    exact aliasCount_congr_except hx (fun y _ hy => by rw [hcnt_ne y (Ne.symm hy)])
  have hal_eq : ∀ d, st.link p = some d →
      (st.store p pk1).aliases d + 1 =
        st.aliases d := by
    intro d hd
    unfold Heap.aliases
    rw [Heap.store_length]
    have e1 : aliasCount st.pkts.length
        (st.store p pk1).cnt
        (st.store p pk1).link d =
        aliasCount st.pkts.length
        (st.store p pk1).cnt st.link d :=
      aliasCount_congr d (fun y _ => ⟨Iff.rfl, hlink y⟩)
    rw [e1]
    exact aliasCount_drop hplt hd (by rw [hcp]; omega) (by rw [hcnt_p]; omega)
      (fun y hy => hcnt_ne y (Ne.symm hy))
  refine ⟨⟨by simpa using hI.pos, by rw [hlink]; exact hI.root, ?_, ?_, ?_, ?_, ?_, ?_, ?_,
    ?_, ?_, hI.mem_eq, hI.head_ne⟩, fun h => hnotdead (Or.inl h), fun h => hnotdead (Or.inr h)⟩
  · intro x h0 hx
    rw [hlink]; exact hI.links x h0 (by simpa using hx)
  · intro x hx
    have hxlt : x < st.pkts.length := by simpa using hx
    have hc := hI.counts x hxlt
    by_cases hy : p = x
    · subst hy
      rw [hcnt_p, hal_ne p hself, hal0, hone]
      have : ¬ (pk._data_packet = some p) := by rw [← hlp]; exact hself
      simp [hkilled, this]
    · rw [hcnt_ne x hy, hc]
      have hne : ¬ (some p = some x) := fun h => hy (Option.some.inj h)
      simp only [hne, if_false]
      by_cases hd : st.link p = some x
      · have := hal_eq x hd
        have hd' : pk._data_packet = some x := by rw [← hlp]; exact hd
        simp only [hd', if_true]
        omega
      · have := hal_ne x hd
        have hd' : ¬ (pk._data_packet = some x) := by rw [← hlp]; exact hd
        simp only [hd', if_false]
        omega
  · intro x
    rw [Heap.store_deleted, Heap.store_length]
    by_cases hy : p = x
    · subst hy
      rw [hcnt_p]
      constructor
      · intro _; exact ⟨hplt, hz⟩
      · intro _; exact Or.inr (Or.inr rfl)
    · rw [hcnt_ne x hy, ← hI.dead x]
      constructor
      · rintro (h | h | h)
        · exact Or.inl h
        · exact Or.inr h
        · exact absurd h.symm hy
      · rintro (h | h)
        · exact Or.inl h
        · exact Or.inr (Or.inl h)
  · rintro x (h | h)
    · exact hI.pending x h
    · subst h; exact fun h => hnotdead (Or.inl h)
  · intro x hx; simpa using hI.killed_lt x hx
  · intro x pk' hxd hx
    by_cases hy : p = x
    · subst hy
      rw [Heap.store_get_self hplt] at hx
      cases hx
      have := hI.region p pk hxd hp
      rw [hr1.1, hr1.2.1, hr1.2.2.1, hr1.2.2.2.1]; exact this
    · rw [Heap.store_get_ne st hy] at hx
      exact hI.region x pk' hxd hx
  · intro pk' hx
    by_cases hy : p = 0
    · subst hy
      rw [Heap.store_get_self hplt] at hx
      cases hx
      rw [hr1.2.2.2.2]; exact hI.root_destructor pk hp
    · rw [Heap.store_get_ne st hy] at hx
      exact hI.root_destructor pk' hx
  · intro h0 hP
    exact hI.log_live h0 (fun h => hP (Or.inl h))
  · exact hI.log_dead

/-- The destructor of the owner releases the arena (lines 78-81). -/
theorem Inv.release {g : Packet} {mem0 : Mem} {killed : List Nat} {P : Nat → Prop}
    {st : Heap} {pk : Packet} (hI : Inv g mem0 killed P none st) (hP : P 0)
    (hlog : st.freed = [] ∧ st.released = [])
    (hr : pk._head = g._head ∧ pk._end = g._end ∧ pk._destructor = g._destructor) :
    Inv g mem0 killed P none (release_arena st pk) ∧ ReleasedOnce g (release_arena st pk) := by
  have hpk : (release_arena st pk).pkts = st.pkts := release_arena_pkts st pk
  have hdel : (release_arena st pk).deleted = st.deleted := release_arena_deleted st pk
  have hcnt : ∀ x, (release_arena st pk).cnt x = st.cnt x := by
    intro x; simp [Heap.cnt, hpk]
  have hlink : ∀ x, (release_arena st pk).link x = st.link x := by
    intro x; simp [Heap.link, hpk]
  have hal : ∀ x, (release_arena st pk).aliases x = st.aliases x :=
    Heap.aliases_eq_of (by rw [hpk]) (fun y _ => ⟨by rw [hcnt], hlink y⟩)
  constructor
  · refine ⟨by rw [hpk]; exact hI.pos, by rw [hlink]; exact hI.root, ?_, ?_, ?_, ?_, ?_, ?_,
      ?_, ?_, ?_, by rw [release_arena_mem]; exact hI.mem_eq, hI.head_ne⟩
    · intro x h0 hx; rw [hlink]; rw [hpk] at hx; exact hI.links x h0 hx
    · intro x hx; rw [hcnt, hal]; rw [hpk] at hx; exact hI.counts x hx
    · intro x; rw [hdel, hpk, hcnt]; exact hI.dead x
    · intro x hx; rw [hdel]; exact hI.pending x hx
    · intro x hx; rw [hpk]; exact hI.killed_lt x hx
    · intro x pk' hxd hx; rw [hdel] at hxd; rw [hpk] at hx; exact hI.region x pk' hxd hx
    · intro pk' hx; rw [hpk] at hx; exact hI.root_destructor pk' hx
    · intro _ h; exact absurd hP h
    · intro h; rw [hdel] at h; exact absurd h (hI.pending 0 hP)
  · have hne : pk._head ≠ 0 := by rw [hr.1]; exact hI.head_ne
    unfold ReleasedOnce release_arena delete_array
    rw [← hr.2.2, ← hr.1, ← hr.2.1]
    cases pk._destructor with
    | some f => simp [hne, hlog.1, hlog.2]
    | none => simp [hne, hlog.1, hlog.2]

/-- The end of `delete p`: the pending object `p` becomes a deleted one. -/
theorem Inv.finish {g : Packet} {mem0 : Mem} {killed : List Nat} {P : Nat → Prop}
    {st : Heap} {p : Nat} {pk : Packet}
    (hI : Inv g mem0 killed (fun x => P x ∨ x = p) none st) (hP : ¬ P p)
    (hp : st.pkts[p]? = some pk) (hlog : p = 0 → ReleasedOnce g st) :
    Inv g mem0 killed P none
      { st.store p { pk with _head := 0, _data := 0 } with deleted := p :: st.deleted } := by
  have hplt : p < st.pkts.length := (List.getElem?_eq_some.mp hp).1
  have hcnt : ∀ x, ({ st.store p { pk with _head := 0, _data := 0 } with
      deleted := p :: st.deleted } : Heap).cnt x = st.cnt x :=
    fun x => @Heap.cnt_store_same st p pk { pk with _head := 0, _data := 0 } hp rfl x
  have hlink : ∀ x, ({ st.store p { pk with _head := 0, _data := 0 } with
      deleted := p :: st.deleted } : Heap).link x = st.link x :=
    fun x => @Heap.link_store_same st p pk { pk with _head := 0, _data := 0 } hp rfl x
  have hlen : ({ st.store p { pk with _head := 0, _data := 0 } with
      deleted := p :: st.deleted } : Heap).pkts.length = st.pkts.length :=
    Heap.store_length st p _
  have hal : ∀ x, ({ st.store p { pk with _head := 0, _data := 0 } with
      deleted := p :: st.deleted } : Heap).aliases x = st.aliases x :=
    Heap.aliases_eq_of hlen (fun y _ => ⟨by rw [hcnt], hlink y⟩)
  refine ⟨by rw [hlen]; exact hI.pos, by rw [hlink]; exact hI.root, ?_, ?_, ?_, ?_, ?_, ?_,
    ?_, ?_, ?_, hI.mem_eq, hI.head_ne⟩
  · intro x h0 hx; rw [hlink]; rw [hlen] at hx; exact hI.links x h0 hx
  · intro x hx; rw [hcnt, hal]; rw [hlen] at hx; exact hI.counts x hx
  · intro x
    rw [hlen, hcnt, ← hI.dead x]
    show (x ∈ p :: st.deleted ∨ P x) ↔ _
    rw [List.mem_cons]
    constructor
    · rintro ((h | h) | h)
      · exact Or.inr (Or.inr h)
      · exact Or.inl h
      · exact Or.inr (Or.inl h)
    · rintro (h | h | h)
      · exact Or.inl (Or.inr h)
      · exact Or.inr h
      · exact Or.inl (Or.inl h)
  · intro x hx
    show x ∉ p :: st.deleted
    rw [List.mem_cons]
    rintro (h | h)
    · subst h; exact hP hx
    · exact hI.pending x (Or.inl hx) h
  · intro x hx; rw [hlen]; exact hI.killed_lt x hx
  · intro x pk' hxd hx
    have hxd' : x ∉ p :: st.deleted := hxd
    rw [List.mem_cons, not_or] at hxd'
    have hx' : (st.store p { pk with _head := 0, _data := 0 }).pkts[x]? = some pk' := hx
    rw [Heap.store_get_ne st (Ne.symm hxd'.1)] at hx'
    exact hI.region x pk' hxd'.2 hx'
  · intro pk' hx
    have hx' : (st.store p { pk with _head := 0, _data := 0 }).pkts[0]? = some pk' := hx
    by_cases hy : p = 0
    · subst hy
      rw [Heap.store_get_self hplt] at hx'
      cases hx'
      exact hI.root_destructor pk hp
    · rw [Heap.store_get_ne st hy] at hx'
      exact hI.root_destructor pk' hx'
  · intro h0 hP0
    have h0' : (0 : Nat) ∉ p :: st.deleted := h0
    rw [List.mem_cons, not_or] at h0'
    have hfr := hI.log_live h0'.2 (fun h => h.elim hP0 h0'.1)
    exact hfr
  · intro h0
    have h0' : (0 : Nat) ∈ p :: st.deleted := h0
    rw [List.mem_cons] at h0'
    have hR : ReleasedOnce g st := by
      rcases h0' with h | h
      · exact hlog h.symm
      · exact hI.log_dead h
    unfold ReleasedOnce at hR ⊢
    exact hR

/-- A call `p->kill()` that releases the reference which `p` holds in excess
returns and restores the invariant. -/
theorem kill_with_inv {g : Packet} {mem0 : Mem} {killed : List Nat} :
    ∀ (fuel : Nat) (st : Heap) (p : Nat) (P : Nat → Prop),
    Inv g mem0 killed P (some p) st → p < st.pkts.length → p < fuel →
    ∃ st', kill_with (delete_packet fuel) st p = some st' ∧ Inv g mem0 killed P none st' := by
  intro fuel
  induction fuel with
  | zero => intro st p P _ _ h; omega
  | succ fuel ih =>
    intro st p P hI hplt hpf
    obtain ⟨pk, hp⟩ : ∃ pk, st.pkts[p]? = some pk := ⟨_, List.getElem?_eq_getElem hplt⟩
    have hcp : st.cnt p = pk._use_count := Heap.cnt_of_get hp
    have hcount := hI.counts p hplt
    have hge : 1 ≤ pk._use_count := by
      rw [hcp] at hcount
      have : (0 : Int) ≤ (st.aliases p : Int) := Int.ofNat_nonneg _
      simp only [if_true] at hcount
      split at hcount <;> omega
    have hnd : p ∉ st.deleted := by
      intro h
      have := ((hI.dead p).mp (Or.inl h)).2
      rw [hcp] at this; omega
    have hd : st.deref p = some pk := Heap.deref_of hnd hp
    rw [kill_with_eq _ hd]
    by_cases hz : pk._use_count - 1 ≤ 0
    · rw [if_pos hz]
      obtain ⟨hI1, -, hPp⟩ := hI.decr_zero hp hz rfl
      generalize hpk1 : ({ pk with _use_count := pk._use_count - 1 } : Packet) = pk1 at hI1 ⊢
      have hl1 : pk1._data_packet = pk._data_packet := by rw [← hpk1]
      have hr1 : pk1._head = pk._head ∧ pk1._end = pk._end ∧
          pk1._destructor = pk._destructor := by rw [← hpk1]; exact ⟨rfl, rfl, rfl⟩
      have hp1 : (st.store p pk1).pkts[p]? = some pk1 := Heap.store_get_self hplt _
      have hd1 : (st.store p pk1).deref p = some pk1 :=
        Heap.deref_of (by simpa using hnd) hp1
      rw [delete_packet_succ _ hd1]
      have hlp : st.link p = pk._data_packet := Heap.link_of_get hp
      cases hlink : pk._data_packet with
      | some d =>
        rw [hlink] at hI1
        have hdlt : d < p := by
          have h0 : 0 < p := by
            rcases Nat.eq_zero_or_pos p with h | h
            · subst h; rw [hI.root] at hlp; rw [hlink] at hlp; cases hlp
            · exact h
          obtain ⟨d', hd', hlt⟩ := hI.links p h0 hplt
          rw [hlp, hlink] at hd'; cases hd'; exact hlt
        obtain ⟨st2, hk, hI2⟩ := ih (st.store p pk1) d _ hI1 (by simp; omega) (by omega)
        rw [hl1, hlink]
        simp only [hk]
        have hplt2 : p < st2.pkts.length := ((hI2.dead p).mp (Or.inr (Or.inr rfl))).1
        obtain ⟨pk2, hp2⟩ : ∃ pk2, st2.pkts[p]? = some pk2 :=
          ⟨_, List.getElem?_eq_getElem hplt2⟩
        rw [end_of_delete_eq hp2]
        refine ⟨_, rfl, hI2.finish hPp hp2 ?_⟩
        intro h0; omega
      | none =>
        rw [hlink] at hI1
        have hp0 : p = 0 := by
          rcases Nat.eq_zero_or_pos p with h | h
          · exact h
          · obtain ⟨d', hd', -⟩ := hI.links p h hplt
            rw [hlp, hlink] at hd'; cases hd'
        subst hp0
        have hlog := hI.log_live hnd hPp
        have hreg := hI.region 0 pk hnd hp
        have hdes := hI.root_destructor pk hp
        obtain ⟨hI2, hRel⟩ := hI1.release (Or.inr rfl)
          (by simpa using hlog)
          (show pk1._head = g._head ∧ pk1._end = g._end ∧ pk1._destructor = g._destructor from
            ⟨by rw [hr1.1]; exact hreg.1, by rw [hr1.2.1]; exact hreg.2.2.2,
             by rw [hr1.2.2]; exact hdes⟩)
        rw [hl1, hlink]
        simp only []
        have hp2 : (release_arena (st.store 0 pk1) pk1).pkts[0]? = some pk1 := by
          rw [release_arena_pkts]; exact hp1
        rw [end_of_delete_eq hp2]
        exact ⟨_, rfl, hI2.finish hPp hp2 (fun _ => hRel)⟩
    · rw [if_neg hz]
      exact ⟨_, rfl, hI.decr_alive hp hz⟩

/-- The state that holds the packet of a successful `make` satisfies the
invariant. -/
theorem Inv.single {g : Packet} (m : Mem) (h1 : g._use_count = 1)
    (h2 : g._data_packet = none) (h3 : g._head ≠ 0) :
    Inv g m [] (fun _ => False) none (Heap.single g m) := by
  have hlen : (Heap.single g m).pkts.length = 1 := rfl
  have hget : (Heap.single g m).pkts[0]? = some g := rfl
  have hal : ∀ x, (Heap.single g m).aliases x = 0 := by
    intro x
    apply aliasCount_zero
    intro y hy _
    have hy0 : y = 0 := by rw [hlen] at hy; omega
    subst hy0
    rw [Heap.link_of_get hget, h2]; exact fun h => by cases h
  refine ⟨by rw [hlen]; omega, by rw [Heap.link_of_get hget, h2], ?_, ?_, ?_, ?_, ?_, ?_,
    ?_, ?_, ?_, rfl, h3⟩
  · intro x h0 hx; rw [hlen] at hx; omega
  · intro x hx
    have hx0 : x = 0 := by rw [hlen] at hx; omega
    subst hx0
    rw [hal, Heap.cnt_of_get hget, h1]; simp
  · intro x
    constructor
    · rintro (h | h)
      · exact absurd h (List.not_mem_nil x)
      · exact h.elim
    · rintro ⟨hx, hc⟩
      have hx0 : x = 0 := by rw [hlen] at hx; omega
      subst hx0
      rw [Heap.cnt_of_get hget, h1] at hc; omega
  · intro x hx; exact hx.elim
  · intro x hx; exact absurd hx (List.not_mem_nil x)
  · intro x pk _ hx
    have hxl := (List.getElem?_eq_some.mp hx).1
    have hx0 : x = 0 := by rw [hlen] at hxl; omega
    subst hx0
    rw [hget] at hx; cases hx
    exact ⟨rfl, rfl, rfl, rfl⟩
  · intro pk hx
    rw [hget] at hx; cases hx; rfl
  · intro _ _; exact ⟨rfl, rfl⟩
  · intro h; exact absurd h (List.not_mem_nil 0)

theorem Inv.of_make {st0 : Heap} {g : Packet} (hm : FromMake st0 g) :
    Inv g st0.mem [] (fun _ => False) none st0 := by
  rcases hm with ⟨mem, arr, h, d, l, t, ha, hmk, hg⟩ | ⟨mem, d, len, f, hd, hmk, hg⟩
  · rw [make_ok _ ha] at hmk
    have hst : st0 = Heap.single g st0.mem := by
      have := (Prod.mk.inj (Option.some.inj hmk)).1
      rw [← this, hg]; simp [Heap.empty, Heap.single]
    rw [hst]
    exact Inv.single _ (by rw [hg]; rfl) (by rw [hg]; rfl) (by rw [hg]; exact ha)
  · rw [make_external_ok] at hmk
    have hst : st0 = Heap.single g st0.mem := by
      have := (Prod.mk.inj hmk).1
      rw [← this, hg]; simp [Heap.empty, Heap.single]
    rw [hst]
    exact Inv.single _ (by rw [hg]; rfl) (by rw [hg]; rfl) (by rw [hg]; exact hd)

/-- A handle that has not been killed is a live object. -/
theorem Inv.live_of_not_killed {g : Packet} {mem0 : Mem} {killed : List Nat} {st : Heap}
    (hI : Inv g mem0 killed (fun _ => False) none st) {x : Nat} (hx : x < st.pkts.length)
    (hk : x ∉ killed) : 0 < st.cnt x ∧ x ∉ st.deleted := by
  have hc := hI.counts x hx
  simp only [hk, if_false, reduceCtorEq] at hc
  have : (0 : Int) ≤ (st.aliases x : Int) := Int.ofNat_nonneg _
  have hpos : 0 < st.cnt x := by omega
  refine ⟨hpos, fun h => ?_⟩
  have := ((hI.dead x).mp (Or.inl h)).2
  omega

/-- The invariant is kept by `kill` of a handle not yet killed, and `kill`
returns. -/
theorem Inv.kill_step {g : Packet} {mem0 : Mem} {killed : List Nat} {st : Heap}
    (hI : Inv g mem0 killed (fun _ => False) none st) {h : Nat} (hx : h < st.pkts.length)
    (hk : h ∉ killed) :
    ∃ st', kill st h = some st' ∧ Inv g mem0 (h :: killed) (fun _ => False) none st' := by
  have hI' : Inv g mem0 (h :: killed) (fun _ => False) (some h) st := by
    refine ⟨hI.pos, hI.root, hI.links, ?_, hI.dead, hI.pending, ?_, hI.region,
      hI.root_destructor, hI.log_live, hI.log_dead, hI.mem_eq, hI.head_ne⟩
    · intro x hxl
      have hc := hI.counts x hxl
      rw [hc]
      by_cases hxh : x = h
      · subst hxh; simp [hk]; omega
      · have h1 : ¬ (some h = some x) := fun e => hxh (Option.some.inj e).symm
        have h2 : (x ∈ h :: killed) ↔ x ∈ killed := by simp [hxh]
        simp only [h1, h2, if_false, reduceCtorEq]
    · intro x hxm
      rcases List.mem_cons.mp hxm with e | e
      · rw [e]; exact hx
      · exact hI.killed_lt x e
  exact kill_with_inv st.pkts.length st h _ hI' hx hx

/-- The invariant is kept by `clone` of a handle not yet killed, and `clone`
returns. -/
theorem Inv.clone_step {g : Packet} {mem0 : Mem} {killed : List Nat} {st : Heap}
    (hI : Inv g mem0 killed (fun _ => False) none st) {h : Nat} (hx : h < st.pkts.length)
    (hk : h ∉ killed) (pnew : Bool) (u : Packet) :
    ∃ st' r, clone st h pnew u = some (st', r) ∧
      Inv g mem0 killed (fun _ => False) none st' := by
  obtain ⟨hpos, hnd⟩ := hI.live_of_not_killed hx hk
  obtain ⟨b, hb⟩ : ∃ b, st.pkts[h]? = some b := ⟨_, List.getElem?_eq_getElem hx⟩
  have hd : st.deref h = some b := Heap.deref_of hnd hb
  cases pnew with
  | false => exact ⟨st, none, by simp [clone, hd, make_dummy], hI⟩
  | true =>
    refine ⟨_, _, clone_ok u hd, ?_⟩
    generalize hb' : ({ b with _use_count := b._use_count + 1 } : Packet) = b'
    have hc' : b'._use_count = b._use_count + 1 := by rw [← hb']
    have hl' : b'._data_packet = b._data_packet := by rw [← hb']
    have hr' : b'._head = b._head ∧ b'._data = b._data ∧ b'._tail = b._tail ∧
        b'._end = b._end ∧ b'._destructor = b._destructor := by
      rw [← hb']; exact ⟨rfl, rfl, rfl, rfl, rfl⟩
    generalize hst' : ({ st with pkts := st.pkts.set h b' ++ [cloned u b h] } : Heap) = st'
    have hpk : st'.pkts = st.pkts.set h b' ++ [cloned u b h] := by rw [← hst']
    have hdel : st'.deleted = st.deleted := by rw [← hst']
    have hlen : st'.pkts.length = st.pkts.length + 1 := by rw [hpk]; simp
    have hget_old : ∀ x, x < st.pkts.length → h ≠ x → st'.pkts[x]? = st.pkts[x]? := by
      intro x hxl hne
      rw [hpk, List.getElem?_append_left (by simpa using hxl)]
      simp [List.getElem?_set, hne]
    have hget_h : st'.pkts[h]? = some b' := by
      rw [hpk, List.getElem?_append_left (by simpa using hx)]
      simp [List.getElem?_set, hx]
    have hget_new : st'.pkts[st.pkts.length]? = some (cloned u b h) := by
      have hl : st.pkts.length = (st.pkts.set h b').length := by simp
      rw [hpk, hl, List.getElem?_concat_length]
    have hcb : st.cnt h = b._use_count := Heap.cnt_of_get hb
    have hcnt_old : ∀ x, x < st.pkts.length → h ≠ x → st'.cnt x = st.cnt x := by
      intro x hxl hne; simp [Heap.cnt, hget_old x hxl hne]
    have hcnt_h : st'.cnt h = st.cnt h + 1 := by
      rw [Heap.cnt_of_get hget_h, hc', hcb]
    have hcnt_new : st'.cnt st.pkts.length = 1 := by rw [Heap.cnt_of_get hget_new]; rfl
    have hlink_old : ∀ x, x < st.pkts.length → st'.link x = st.link x := by
      intro x hxl
      by_cases hne : h = x
      · subst hne; rw [Heap.link_of_get hget_h, Heap.link_of_get hb, hl']
      · simp [Heap.link, hget_old x hxl hne]
    have hlink_new : st'.link st.pkts.length = some h := by
      rw [Heap.link_of_get hget_new]; rfl
    have hsign : ∀ y, y < st.pkts.length → (0 < st'.cnt y ↔ 0 < st.cnt y) := by
      intro y hy
      by_cases hne : h = y
      · subst hne; rw [hcnt_h]; omega
      · rw [hcnt_old y hy hne]
    have hal : ∀ x, st'.aliases x = st.aliases x + (if h = x then 1 else 0) := by
      intro x
      unfold Heap.aliases
      rw [hlen, aliasCount_succ, hcnt_new, hlink_new]
      have e : aliasCount st.pkts.length st'.cnt st'.link x =
          aliasCount st.pkts.length st.cnt st.link x :=
        aliasCount_congr x (fun y hy => ⟨hsign y hy, hlink_old y hy⟩)
      rw [e]
      by_cases hhx : h = x
      · subst hhx; simp
      · have : ¬ (some h = some x) := fun e => hhx (Option.some.inj e)
        simp [hhx, this]
    have hal_old : ∀ x, st.pkts.length ≤ x → st.aliases x = 0 := by
      intro x hxl
      apply aliasCount_zero
      intro y hy _ hl
      rcases Nat.eq_zero_or_pos y with h0 | h0
      · subst h0; rw [hI.root] at hl; cases hl
      · obtain ⟨d, hd', hlt⟩ := hI.links y h0 hy
        rw [hd'] at hl; cases hl; omega
    refine ⟨by omega, ?_, ?_, ?_, ?_, ?_, ?_, ?_, ?_, ?_, ?_, ?_, hI.head_ne⟩
    · rw [hlink_old 0 hI.pos]; exact hI.root
    · intro x h0 hxl
      by_cases hxn : x < st.pkts.length
      · rw [hlink_old x hxn]; exact hI.links x h0 hxn
      · have hxe : x = st.pkts.length := by omega
        subst hxe
        exact ⟨h, hlink_new, hx⟩
    · intro x hxl
      rw [hal]
      by_cases hxn : x < st.pkts.length
      · have hc := hI.counts x hxn
        by_cases hhx : h = x
        · subst hhx
          rw [hcnt_h, hc]; simp; omega
        · rw [hcnt_old x hxn hhx, hc]; simp [hhx]
      · have hxe : x = st.pkts.length := by omega
        subst hxe
        have hnk : st.pkts.length ∉ killed := fun hm =>
          Nat.lt_irrefl _ (hI.killed_lt _ hm)
        have hne : h ≠ st.pkts.length := by omega
        rw [hcnt_new, hal_old _ (Nat.le_refl _)]
        simp [hnk, hne]
    · intro x
      rw [hdel, hlen]
      by_cases hxn : x < st.pkts.length
      · have := hI.dead x
        have hs := hsign x hxn
        constructor
        · intro hm
          have := (this.mp hm).2
          exact ⟨by omega, by omega⟩
        · rintro ⟨_, hc⟩
          exact this.mpr ⟨hxn, by omega⟩
      · constructor
        · rintro (hm | hm)
          · have := ((hI.dead x).mp (Or.inl hm)).1; omega
          · exact hm.elim
        · rintro ⟨hxl, hc⟩
          have hxe : x = st.pkts.length := by omega
          subst hxe
          rw [hcnt_new] at hc; omega
    · intro x hm; exact hm.elim
    · intro x hm; have := hI.killed_lt x hm; omega
    · intro x pk hxd hxg
      rw [hdel] at hxd
      have hxl := (List.getElem?_eq_some.mp hxg).1
      have hbr := hI.region h b hnd hb
      by_cases hxn : x < st.pkts.length
      · by_cases hhx : h = x
        · subst hhx
          rw [hget_h] at hxg; cases hxg
          rw [hr'.1, hr'.2.1, hr'.2.2.1, hr'.2.2.2.1]; exact hbr
        · rw [hget_old x hxn hhx] at hxg
          exact hI.region x pk hxd hxg
      · have hxe : x = st.pkts.length := by omega
        subst hxe
        rw [hget_new] at hxg; cases hxg
        exact hbr
    · intro pk hxg
      by_cases hhx : h = 0
      · subst hhx
        rw [hget_h] at hxg; cases hxg
        rw [hr'.2.2.2.2]; exact hI.root_destructor b hb
      · rw [hget_old 0 hI.pos hhx] at hxg
        exact hI.root_destructor pk hxg
    · intro h0 hP
      rw [hdel] at h0
      have := hI.log_live h0 hP
      rw [← hst']; exact this
    · intro h0
      rw [hdel] at h0
      have := hI.log_dead h0
      unfold ReleasedOnce at this ⊢
      rw [← hst']; exact this
    · rw [← hst']; exact hI.mem_eq

/-- Every reachable state satisfies the invariant. -/
theorem Reachable.inv {st0 : Heap} {g : Packet} (hm : FromMake st0 g) {s : Sys}
    (hr : Reachable st0 s) : Inv g st0.mem s.killed (fun _ => False) none s.heap := by
  induction hr with
  | init => exact Inv.of_make hm
  | step s s' _ hstep ih =>
    cases hstep with
    | clone h pnew u st' r hx hk hc =>
      obtain ⟨st'', r', hc', hI⟩ := ih.clone_step hx hk pnew u
      rw [hc] at hc'
      have := (Prod.mk.inj (Option.some.inj hc')).1
      rw [this]; exact hI
    | kill h st' hx hk hc =>
      obtain ⟨st'', hc', hI⟩ := ih.kill_step hx hk
      rw [hc] at hc'
      rw [Option.some.inj hc']; exact hI

/-- When every handle has been killed, every count is zero. -/
theorem Inv.all_killed {g : Packet} {mem0 : Mem} {killed : List Nat} {st : Heap}
    (hI : Inv g mem0 killed (fun _ => False) none st)
    (hall : ∀ x, x < st.pkts.length → x ∈ killed) :
    ∀ k x, x < st.pkts.length → st.pkts.length - x ≤ k → st.cnt x ≤ 0 := by
  intro k
  induction k with
  | zero => intro x hx hk; omega
  | succ k ih =>
    intro x hx hk
    have hc := hI.counts x hx
    have hal : st.aliases x = 0 := by
      apply aliasCount_zero
      intro y hy hpos hl
      have hyx : x < y := by
        rcases Nat.eq_zero_or_pos y with h0 | h0
        · subst h0; rw [hI.root] at hl; cases hl
        · obtain ⟨d, hd, hlt⟩ := hI.links y h0 hy
          rw [hd] at hl; cases hl; exact hlt
      have := ih y hy (by omega)
      omega
    rw [hal] at hc
    simp only [hall x hx, if_true, reduceCtorEq, if_false] at hc
    omega

/-- When the owner of the arena is gone, every count is zero. -/
theorem Inv.root_dead {g : Packet} {mem0 : Mem} {killed : List Nat} {st : Heap}
    (hI : Inv g mem0 killed (fun _ => False) none st) (h0 : st.cnt 0 ≤ 0) :
    ∀ k x, x ≤ k → x < st.pkts.length → st.cnt x ≤ 0 := by
  intro k
  induction k with
  | zero => intro x hx _; have : x = 0 := by omega
            subst this; exact h0
  | succ k ih =>
    intro x hxk hx
    rcases Nat.eq_zero_or_pos x with hx0 | hx0
    · subst hx0; exact h0
    · obtain ⟨d, hd, hlt⟩ := hI.links x hx0 hx
      have hcd := ih d (by omega) (by omega)
      have hc := hI.counts d (by omega)
      by_contra hpos
      have := aliasCount_pos hx hd (by omega : 0 < st.cnt x)
      have h2 : 0 < st.aliases d := this
      have h3 : (0 : Int) < (st.aliases d : Int) := by exact_mod_cast h2
      simp only [reduceCtorEq, if_false] at hc
      split at hc <;> omega

theorem helloHeap_fromMake : FromMake helloHeap helloPacket :=
  Or.inl ⟨helloMem, 8192, 0, 4096, 5, 0, by decide, helloHeap_eq_make, by decide⟩

theorem sharedHeap_eq_clone :
    clone helloHeap 0 true roomyPacket = some (sharedHeap, some 1) := by
  rw [clone_ok roomyPacket (by decide : helloHeap.deref 0 = some helloPacket)]
  rfl

theorem orphanHeap_eq_kill : kill sharedHeap 0 = some orphanHeap := by
  have hd : sharedHeap.deref 0 = some { helloPacket with _use_count := 2 } := by decide
  rw [kill, kill_with_eq _ hd]
  simp [Heap.store, sharedHeap, orphanHeap, helloPacket]

theorem orphanHeap_reachable :
    Reachable helloHeap { heap := orphanHeap, killed := [0] } :=
  Reachable.step _ _
    (Reachable.step _ _ Reachable.init
      (Step.clone { heap := helloHeap, killed := [] } 0 true roomyPacket sharedHeap (some 1)
        (by decide) (by simp) sharedHeap_eq_clone))
    (Step.kill { heap := sharedHeap, killed := [] } 0 orphanHeap (by decide) (by simp)
      orphanHeap_eq_kill)

/-- C1: a successful user-level `make(h, payload, l, t)` whose size `h+l+t` is
representable returns a buffer with `headroom() == h`, `length() == l`,
`tailroom() == t`, `end - head == h+l+t`, reference count 1 and no alias link,
and, when a payload is supplied, payload bytes equal to the supplied `l` bytes. -/
theorem make_returns_requested_buffer (st : Heap) (arr h src l t : Nat)
    (hv : st.Valid) (hrep : h + l + t < ADDR_MOD)
    (hal : AllocOk arr ((l + h + t) % ADDR_MOD)) :
    ∃ st' q p, make st true arr h src l t = some (st', some q) ∧
      st'.deref q = some p ∧
      p.headroom = h ∧ p.length = l ∧ p.tailroom = t ∧ p.total_length = h + l + t ∧
      p._use_count = 1 ∧ p._data_packet = none ∧
      (src ≠ 0 → ∀ i, i < l → payload_byte st'.mem p i = st.mem (padd src i)) := by
  obtain ⟨ha, hfit⟩ := hal
  have hn : (l + h + t) % ADDR_MOD = l + h + t := Nat.mod_eq_of_lt (by omega)
  rw [hn] at hfit
  refine ⟨_, _, made arr h l t, make_ok st ha h src l t, ?_, ?_, ?_, ?_, ?_, rfl, rfl, ?_⟩
  · apply Heap.deref_of
    · exact Heap.fresh_not_deleted hv
    · simp
  · simp only [Packet.headroom, made, padd, psub, ADDR_MOD] at *; omega
  · simp only [Packet.length, made, padd, psub, ADDR_MOD] at *; omega
  · simp only [Packet.tailroom, made, padd, psub, ADDR_MOD] at *; omega
  · simp only [Packet.total_length, made, padd, psub, ADDR_MOD] at *; omega
  · intro hs i hi
    simp only [payload_byte, made, hs, ne_eq, not_false_eq_true, if_true]
    exact memcpy_read st.mem src (padd_lt _ _) (by omega) hi

/-- The scenario of C1: `make(10, "HELLO", 5, 20)` in the empty state, the
allocator returning the block at `8192`. -/
theorem make_returns_requested_buffer_witness :
    10 + 5 + 20 < ADDR_MOD ∧ AllocOk 8192 ((5 + 10 + 20) % ADDR_MOD) ∧
    ∃ st' q p, make (Heap.empty helloMem) true 8192 10 4096 5 20 = some (st', some q) ∧
      st'.deref q = some p ∧
      p.headroom = 10 ∧ p.length = 5 ∧ p.tailroom = 20 ∧ p.total_length = 10 + 5 + 20 ∧
      p._use_count = 1 ∧ p._data_packet = none ∧
      ((4096 : Nat) ≠ 0 → ∀ i, i < 5 →
        payload_byte st'.mem p i = (Heap.empty helloMem).mem (padd 4096 i)) :=
  ⟨by decide, by decide,
   make_returns_requested_buffer (Heap.empty helloMem) 8192 10 4096 5 20
     (Heap.valid_empty helloMem) (by decide) (by decide)⟩

/-- C2, as amended: on a build whose pointers are 32 bits wide (pointer
modulus `P = 2^32`), for a well-formed buffer `b` over a non-null arena and
every `n` whose requested arena size `n + 128 + (end - head)` is representable
in 32 bits, a successful user-level `expensive_push(b, n)` returns a buffer `q`
with `length(q) == length(b) + n` and `q.data[n + i] == b.data[i]` for all
`i < length(b)`. -/
theorem expensive_push_keeps_payload (P : Nat) (hP : P = ADDR_MOD) (st : Heap)
    (this n arr : Nat) (b : Packet)
    (hv : st.Valid) (hb : st.deref this = some b) (hwf : b.WellFormed)
    (hh : b._head ≠ 0) (hfit : n + 128 + b.total_length < ADDR_MOD)
    (hal : AllocOk arr ((b.total_length + (n + 128) % ADDR_MOD + 0) % ADDR_MOD)) :
    ∃ st' q qp, expensive_push_at P st this n true arr = some (st', some q) ∧
      st'.deref q = some qp ∧ qp.length = b.length + n ∧
      ∀ i, i < b.length →
        payload_byte_at P st'.mem qp (n + i) = payload_byte_at P st.mem b i := by
  subst hP
  simp only [expensive_push_at_narrow, payload_byte_at_narrow]
  obtain ⟨st', hr, hc⟩ := expensive_push_returns n hv hb hal.1
  obtain ⟨g1, g2, g3, g4, hsum⟩ := push_fixup_region hwf hfit hal
  have hfit2 := hal.2
  rw [push_size_eq hfit] at hfit2
  have e1 : b.headroom = b._data - b._head := psub_of_le hwf.1 (by have := hwf.2; omega)
  obtain ⟨r1, r2, r3, r4, -⟩ :=
    Packet.rooms_of_region _ _ _ _ _ g1 g2 g3 g4 (by omega) (by omega) (by omega) (by omega)
  refine ⟨st', _, _, hr, hc.result, ?_, ?_⟩
  · rw [r2]; omega
  · intro i hi
    have hd : b.total_data ≠ 0 := hh
    rw [hc.mem_eq, if_pos hd]
    unfold payload_byte
    rw [g2]
    have haddr : padd (arr + 128 + b.headroom) (n + i) =
        padd (padd arr ((n + 128) % ADDR_MOD)) (b.headroom + i) := by
      unfold padd; simp only [ADDR_MOD] at *; omega
    rw [haddr, memcpy_read _ _ (padd_lt _ _) (by omega) (by omega)]
    congr 1
    show padd b._head (b.headroom + i) = padd b._data i
    rw [e1]
    have := hwf.1
    unfold padd; congr 1; omega

/-- The amended C2 at `helloHeap`: with 32-bit pointers, a push of 4 bytes on
the buffer holding `HELLO`, the allocator returning the block at `16384`. -/
theorem expensive_push_keeps_payload_witness :
    ADDR_MOD = ADDR_MOD ∧
    helloHeap.Valid ∧ helloHeap.deref 0 = some helloPacket ∧ helloPacket.WellFormed ∧
    helloPacket._head ≠ 0 ∧ 4 + 128 + helloPacket.total_length < ADDR_MOD ∧
    AllocOk 16384 ((helloPacket.total_length + (4 + 128) % ADDR_MOD + 0) % ADDR_MOD) ∧
    ∃ st' q qp, expensive_push_at ADDR_MOD helloHeap 0 4 true 16384 = some (st', some q) ∧
      st'.deref q = some qp ∧ qp.length = helloPacket.length + 4 ∧
      ∀ i, i < helloPacket.length →
        payload_byte_at ADDR_MOD st'.mem qp (4 + i) =
          payload_byte_at ADDR_MOD helloHeap.mem helloPacket i :=
  ⟨rfl, Heap.valid_single _ _ rfl, by decide, by decide, by decide, by decide, by decide,
   expensive_push_keeps_payload ADDR_MOD rfl helloHeap 0 4 16384 helloPacket
     (Heap.valid_single _ _ rfl) (by decide) (by decide) (by decide) (by decide) (by decide)⟩

/-- C2 as stated fails: on a buffer of length 200, `expensive_push` with
`n = 2^32 - 128` asks for `n + 128 = 0` extra bytes, the allocation of the 200
byte arena succeeds, and the returned buffer has length 72, not `200 + n`. -/
theorem expensive_push_length_wraps :
    wideHeap.deref 0 = some widePacket ∧ widePacket.WellFormed ∧ widePacket.length = 200 ∧
    AllocOk 8192 ((widePacket.total_length + (4294967168 + 128) % ADDR_MOD + 0) % ADDR_MOD) ∧
    (returned (expensive_push wideHeap 0 4294967168 true 8192)).map Packet.length = some 72 ∧
    (72 : Nat) ≠ widePacket.length + 4294967168 := by
  decide

/-- The payload claim of C2 needs pointers that wrap at `2^32`: on a build with
64-bit pointers, the push of 4 bytes on the buffer holding `HELLO` (headroom 0,
so `headroom() - nbytes` wraps to `2^32 - 4`) returns a buffer whose `data` lies
`2^32` above its arena at `16384`, and the byte at `q.data + 4` is not the
first byte `H` of the old payload. -/
theorem expensive_push_payload_lost_wide :
    AllocOk 16384 ((helloPacket.total_length + (4 + 128) % ADDR_MOD + 0) % ADDR_MOD) ∧
    (returned (expensive_push_at PTR64 helloHeap 0 4 true 16384)).map
      (fun q => (q._head, q._data, q._tail, q._end)) =
        some (16384, 4294983808, 16521, 16521) ∧
    (expensive_push_at PTR64 helloHeap 0 4 true 16384).bind
      (fun r => (returned (some r)).map (fun q => payload_byte_at PTR64 r.1.mem q (4 + 0))) =
        some 0 ∧
    payload_byte_at PTR64 helloHeap.mem helloPacket 0 = 72 := by
  decide

/-- C3, as amended: for a well-formed buffer `b` and every `n` with
`headroom(b) < n <= S` for which allocation succeeds, the result `q` of the
user-level `expensive_push(b, n)` has `headroom(q) == S + headroom(b)`, and
`length(q) == length(b) + n` when the requested arena size is representable;
so headroom 0, length 5 and a push of 4 bytes give headroom `S` and length 9. -/
theorem expensive_push_headroom (st : Heap) (this n arr : Nat) (b : Packet)
    (hv : st.Valid) (hb : st.deref this = some b) (hwf : b.WellFormed)
    (hlt : b.headroom < n) (hle : n ≤ SLACK)
    (hal : AllocOk arr ((b.total_length + (n + 128) % ADDR_MOD + 0) % ADDR_MOD)) :
    ∃ st' q qp, expensive_push st this n true arr = some (st', some q) ∧
      st'.deref q = some qp ∧ qp.headroom = SLACK + b.headroom ∧
      (n + 128 + b.total_length < ADDR_MOD → qp.length = b.length + n) := by
  obtain ⟨st', hr, hc⟩ := expensive_push_returns n hv hb hal.1
  refine ⟨st', _, _, hr, hc.result, ?_, ?_⟩
  · have g1 : (push_fixup (made arr ((n + 128) % ADDR_MOD) b.total_length 0) b n)._head
        = arr := by
      unfold push_fixup; simp only []; split <;> rfl
    have g2 : (push_fixup (made arr ((n + 128) % ADDR_MOD) b.total_length 0) b n)._data
        = padd (padd arr ((n + 128) % ADDR_MOD)) (psub b.headroom n) := by
      unfold push_fixup; simp only []; split <;> rfl
    have e : ∀ q : Packet, q.headroom = psub q._data q._head := fun _ => rfl
    rw [e, g1, g2]
    exact push_headroom_eq (by have := hal.2; omega) hlt hle
  · intro hfit
    obtain ⟨g1, g2, g3, g4, hsum⟩ := push_fixup_region hwf hfit hal
    have hfit2 := hal.2
    rw [push_size_eq hfit] at hfit2
    obtain ⟨r1, r2, r3, r4, -⟩ :=
      Packet.rooms_of_region _ _ _ _ _ g1 g2 g3 g4 (by omega) (by omega) (by omega) (by omega)
    rw [r2]; omega

/-- The scenario of C3 under the amended claim: headroom 0, length 5, a push
of 4 bytes; the result has headroom `S` and length 9. -/
theorem expensive_push_headroom_witness :
    helloHeap.Valid ∧ helloHeap.deref 0 = some helloPacket ∧ helloPacket.WellFormed ∧
    helloPacket.headroom < 4 ∧ 4 ≤ SLACK ∧
    AllocOk 16384 ((helloPacket.total_length + (4 + 128) % ADDR_MOD + 0) % ADDR_MOD) ∧
    ∃ st' q qp, expensive_push helloHeap 0 4 true 16384 = some (st', some q) ∧
      st'.deref q = some qp ∧ qp.headroom = SLACK + helloPacket.headroom ∧
      (4 + 128 + helloPacket.total_length < ADDR_MOD →
        qp.length = helloPacket.length + 4) :=
  ⟨Heap.valid_single _ _ rfl, by decide, by decide, by decide, by decide, by decide,
   expensive_push_headroom helloHeap 0 4 16384 helloPacket
     (Heap.valid_single _ _ rfl) (by decide) (by decide) (by decide) (by decide) (by decide)⟩

/-- C3 as stated fails on its own scenario: for the buffer with headroom 0 and
length 5, `expensive_push(4)` returns a buffer with headroom 128, not
`S - 4 = 124`. -/
theorem expensive_push_headroom_scenario :
    helloHeap.deref 0 = some helloPacket ∧ helloPacket.headroom = 0 ∧
    helloPacket.length = 5 ∧ helloPacket.headroom < 4 ∧ 4 ≤ SLACK ∧
    (returned (expensive_push helloHeap 0 4 true 16384)).map Packet.headroom = some 128 ∧
    (128 : Nat) ≠ SLACK - 4 := by
  decide

/-- C4, as amended: for a well-formed buffer `b` over a non-null arena and
every `n` whose requested arena size `n + 128 + (end - head)` is representable
in 32 bits, a successful user-level `expensive_put(b, n)` returns a buffer `q`
with `headroom(q) == headroom(b)`, `length(q) == length(b) + n` and the first
`length(b)` payload bytes equal to the payload of `b`. -/
theorem expensive_put_keeps_payload (st : Heap) (this n arr : Nat) (b : Packet)
    (hv : st.Valid) (hb : st.deref this = some b) (hwf : b.WellFormed)
    (hh : b._head ≠ 0) (hfit : n + 128 + b.total_length < ADDR_MOD)
    (hal : AllocOk arr ((b.total_length + 0 + (n + 128) % ADDR_MOD) % ADDR_MOD)) :
    ∃ st' q qp, expensive_put st this n true arr = some (st', some q) ∧
      st'.deref q = some qp ∧ qp.headroom = b.headroom ∧ qp.length = b.length + n ∧
      ∀ i, i < b.length → payload_byte st'.mem qp i = payload_byte st.mem b i := by
  obtain ⟨st', hr, hc⟩ := expensive_put_returns n hv hb hal.1
  obtain ⟨g1, g2, g3, g4, hsum⟩ := put_fixup_region hwf hfit hal
  have hfit2 := hal.2
  rw [put_size_eq hfit] at hfit2
  have e1 : b.headroom = b._data - b._head := psub_of_le hwf.1 (by have := hwf.2; omega)
  obtain ⟨r1, r2, r3, r4, -⟩ :=
    Packet.rooms_of_region _ _ _ _ _ g1 g2 g3 g4 (by omega) (by omega) (by omega) (by omega)
  refine ⟨st', _, _, hr, hc.result, ?_, ?_, ?_⟩
  · rw [r1]; omega
  · rw [r2]; omega
  · intro i hi
    have hd : b.total_data ≠ 0 := hh
    rw [hc.mem_eq, if_pos hd]
    unfold payload_byte
    rw [g2]
    have haddr : padd (arr + b.headroom) i = padd (padd arr 0) (b.headroom + i) := by
      unfold padd; simp only [ADDR_MOD] at *; omega
    rw [haddr, memcpy_read _ _ (padd_lt _ _) (by omega) (by omega)]
    congr 1
    show padd b._head (b.headroom + i) = padd b._data i
    rw [e1]
    have := hwf.1
    unfold padd; congr 1; omega

/-- The amended C4 at `helloHeap`: a put of 4 bytes on the buffer holding
`HELLO`, the allocator returning the block at `16384`. -/
theorem expensive_put_keeps_payload_witness :
    helloHeap.Valid ∧ helloHeap.deref 0 = some helloPacket ∧ helloPacket.WellFormed ∧
    helloPacket._head ≠ 0 ∧ 4 + 128 + helloPacket.total_length < ADDR_MOD ∧
    AllocOk 16384 ((helloPacket.total_length + 0 + (4 + 128) % ADDR_MOD) % ADDR_MOD) ∧
    ∃ st' q qp, expensive_put helloHeap 0 4 true 16384 = some (st', some q) ∧
      st'.deref q = some qp ∧ qp.headroom = helloPacket.headroom ∧
      qp.length = helloPacket.length + 4 ∧
      ∀ i, i < helloPacket.length →
        payload_byte st'.mem qp i = payload_byte helloHeap.mem helloPacket i :=
  ⟨Heap.valid_single _ _ rfl, by decide, by decide, by decide, by decide, by decide,
   expensive_put_keeps_payload helloHeap 0 4 16384 helloPacket
     (Heap.valid_single _ _ rfl) (by decide) (by decide) (by decide) (by decide) (by decide)⟩

/-- C4 as stated fails: on a buffer of length 200, `expensive_put` with
`n = 2^32 - 128` asks for `n + 128 = 0` bytes of tailroom, the allocation of
the 200 byte arena succeeds, and the returned buffer has length 72, not
`200 + n`. -/
theorem expensive_put_length_wraps :
    wideHeap.deref 0 = some widePacket ∧ widePacket.WellFormed ∧ widePacket.length = 200 ∧
    AllocOk 8192 ((widePacket.total_length + 0 + (4294967168 + 128) % ADDR_MOD) % ADDR_MOD) ∧
    (returned (expensive_put wideHeap 0 4294967168 true 8192)).map Packet.length = some 72 ∧
    (72 : Nat) ≠ widePacket.length + 4294967168 := by
  decide

/-- C5, as amended: for a well-formed buffer `b` and every `n` whose requested
arena size `n + S + (end - head)` is representable in 32 bits, the arena of a
successful user-level `expensive_put(b, n)` keeps the tailroom of `b` next to
the `n + S` new bytes: `tailroom(q) == tailroom(b) + S` and
`end(q) - head(q) == headroom(b) + length(b) + tailroom(b) + n + S`. -/
theorem expensive_put_tailroom (st : Heap) (this n arr : Nat) (b : Packet)
    (hv : st.Valid) (hb : st.deref this = some b) (hwf : b.WellFormed)
    (hfit : n + 128 + b.total_length < ADDR_MOD)
    (hal : AllocOk arr ((b.total_length + 0 + (n + 128) % ADDR_MOD) % ADDR_MOD)) :
    ∃ st' q qp, expensive_put st this n true arr = some (st', some q) ∧
      st'.deref q = some qp ∧ qp.tailroom = b.tailroom + SLACK ∧
      qp.total_length = b.headroom + b.length + b.tailroom + n + SLACK := by
  obtain ⟨st', hr, hc⟩ := expensive_put_returns n hv hb hal.1
  obtain ⟨g1, g2, g3, g4, hsum⟩ := put_fixup_region hwf hfit hal
  have hfit2 := hal.2
  rw [put_size_eq hfit] at hfit2
  obtain ⟨r1, r2, r3, r4, -⟩ :=
    Packet.rooms_of_region _ _ _ _ _ g1 g2 g3 g4 (by omega) (by omega) (by omega) (by omega)
  refine ⟨st', _, _, hr, hc.result, ?_, ?_⟩
  · rw [r3]; show _ = b.tailroom + 128; omega
  · rw [r4]; show _ = b.headroom + b.length + b.tailroom + n + 128; omega

/-- The amended C5 at `roomyHeap`: a put of 2 bytes on a buffer with
tailroom 1, the allocator returning the block at `16384`. -/
theorem expensive_put_tailroom_witness :
    roomyHeap.Valid ∧ roomyHeap.deref 0 = some roomyPacket ∧ roomyPacket.WellFormed ∧
    2 + 128 + roomyPacket.total_length < ADDR_MOD ∧
    AllocOk 16384 ((roomyPacket.total_length + 0 + (2 + 128) % ADDR_MOD) % ADDR_MOD) ∧
    ∃ st' q qp, expensive_put roomyHeap 0 2 true 16384 = some (st', some q) ∧
      st'.deref q = some qp ∧ qp.tailroom = roomyPacket.tailroom + SLACK ∧
      qp.total_length =
        roomyPacket.headroom + roomyPacket.length + roomyPacket.tailroom + 2 + SLACK :=
  ⟨Heap.valid_single _ _ rfl, by decide, by decide, by decide, by decide,
   expensive_put_tailroom roomyHeap 0 2 16384 roomyPacket
     (Heap.valid_single _ _ rfl) (by decide) (by decide) (by decide) (by decide)⟩

/-- C5 as stated fails: for the buffer with headroom 2, length 5 and
tailroom 1, `expensive_put(2)` returns a buffer with tailroom 129, not `S`,
over an arena of 138 bytes, not `2 + 5 + 2 + S = 137`. -/
theorem expensive_put_tailroom_scenario :
    roomyHeap.deref 0 = some roomyPacket ∧ roomyPacket.WellFormed ∧
    roomyPacket.headroom = 2 ∧ roomyPacket.length = 5 ∧ roomyPacket.tailroom = 1 ∧
    (returned (expensive_put roomyHeap 0 2 true 16384)).map Packet.tailroom = some 129 ∧
    (129 : Nat) ≠ SLACK ∧
    (returned (expensive_put roomyHeap 0 2 true 16384)).map Packet.total_length = some 138 ∧
    (138 : Nat) ≠ roomyPacket.headroom + roomyPacket.length + 2 + SLACK := by
  decide

/-- C6: for a well-formed buffer `b`, a successful user-level
`uniqueify_copy(b)` returns a new buffer `q` over the newly allocated arena,
with reference count 1, no alias link and no release callback,
`headroom(q) == headroom(b)`, `length(q) == length(b)`,
`tailroom(q) == tailroom(b)` and payload bytes equal to the payload of `b` at
call time. -/
theorem uniqueify_copy_owns_copy (st : Heap) (this : Nat) (u : Packet) (arr : Nat)
    (b : Packet) (hv : st.Valid) (hb : st.deref this = some b) (hwf : b.WellFormed)
    (hal : AllocOk arr ((b.length + b.headroom + b.tailroom) % ADDR_MOD)) :
    ∃ st' q qp, uniqueify_copy st this true u arr = some (st', some q) ∧
      q = st.pkts.length ∧ st'.deref q = some qp ∧ qp._head = arr ∧
      qp._use_count = 1 ∧ qp._data_packet = none ∧ qp._destructor = none ∧
      qp.headroom = b.headroom ∧ qp.length = b.length ∧ qp.tailroom = b.tailroom ∧
      ∀ i, i < b.length → payload_byte st'.mem qp i = payload_byte st.mem b i := by
  obtain ⟨st', hr, hc⟩ := uniqueify_copy_returns u hv hb hal.1
  obtain ⟨g1, g2, g3, g4, g5, g6, g7, hsum, hfit⟩ := uniqueify_region u hwf hal
  obtain ⟨r1, r2, r3, r4, -⟩ :=
    Packet.rooms_of_region _ _ _ _ _ g1 g2 g3 g4 (by omega) (by omega) (by omega) (by omega)
  refine ⟨st', _, _, hr, rfl, hc.result, g1, g5, g6, g7, ?_, ?_, ?_, ?_⟩
  · rw [r1]; omega
  · rw [r2]; omega
  · rw [r3]; omega
  · intro i hi
    rw [hc.mem_eq]
    unfold payload_byte
    rw [g2, ← (uniq_data_eq hfit).1]
    exact memcpy_read _ _ (padd_lt _ _) (by have := psub_lt b._tail b._data; omega) hi

/-- C6 at `helloHeap`: `uniqueify_copy` of the buffer holding `HELLO`, the
allocator returning the block at `16384`. -/
theorem uniqueify_copy_owns_copy_witness :
    helloHeap.Valid ∧ helloHeap.deref 0 = some helloPacket ∧ helloPacket.WellFormed ∧
    AllocOk 16384
      ((helloPacket.length + helloPacket.headroom + helloPacket.tailroom) % ADDR_MOD) ∧
    ∃ st' q qp, uniqueify_copy helloHeap 0 true roomyPacket 16384 = some (st', some q) ∧
      q = helloHeap.pkts.length ∧ st'.deref q = some qp ∧ qp._head = 16384 ∧
      qp._use_count = 1 ∧ qp._data_packet = none ∧ qp._destructor = none ∧
      qp.headroom = helloPacket.headroom ∧ qp.length = helloPacket.length ∧
      qp.tailroom = helloPacket.tailroom ∧
      ∀ i, i < helloPacket.length →
        payload_byte st'.mem qp i = payload_byte helloHeap.mem helloPacket i :=
  ⟨Heap.valid_single _ _ rfl, by decide, by decide, by decide,
   uniqueify_copy_owns_copy helloHeap 0 roomyPacket 16384 helloPacket
     (Heap.valid_single _ _ rfl) (by decide) (by decide) (by decide)⟩

/-- C7: `uniqueify_copy`, `expensive_push` and `expensive_put` return on every
path, whatever the two allocations do, and each kills its input exactly once:
the reference count of the input is one lower after the call, the input is
deleted (once) exactly when its count was at most 1, and the result is empty
exactly when an allocation failed. -/
theorem consuming_operations_kill_input (st : Heap) (this : Nat) (b : Packet)
    (pnew : Bool) (u : Packet) (arr n : Nat) (hv : st.Valid)
    (hb : st.deref this = some b) :
    (∃ st' r, uniqueify_copy st this pnew u arr = some (st', r) ∧ Released this b st' ∧
      (r = none ↔ (pnew = false ∨ arr = 0))) ∧
    (∃ st' r, expensive_push st this n pnew arr = some (st', r) ∧ Released this b st' ∧
      (r = none ↔ (pnew = false ∨ arr = 0))) ∧
    (∃ st' r, expensive_put st this n pnew arr = some (st', r) ∧ Released this b st' ∧
      (r = none ↔ (pnew = false ∨ arr = 0))) := by
  by_cases hf : pnew = false ∨ arr = 0
  · refine ⟨?_, ?_, ?_⟩
    · obtain ⟨S, he, hSv, hSb⟩ := uniqueify_copy_none hv hb hf u
      obtain ⟨st', hk, hr⟩ := released_of_kill hSv hSb
      exact ⟨st', none, by rw [he, hk]; rfl, hr, by simp [hf]⟩
    · obtain ⟨S, hm, hSv, hSb⟩ :=
        make_none hv hf ((n + 128) % ADDR_MOD) b.total_data b.total_length 0
      obtain ⟨st', hk, hr⟩ := released_of_kill hSv (hSb this b hb)
      exact ⟨st', none, by rw [expensive_push_none hb hm, hk]; rfl, hr, by simp [hf]⟩
    · obtain ⟨S, hm, hSv, hSb⟩ :=
        make_none hv hf 0 b.total_data b.total_length ((n + 128) % ADDR_MOD)
      obtain ⟨st', hk, hr⟩ := released_of_kill hSv (hSb this b hb)
      exact ⟨st', none, by rw [expensive_put_none hb hm, hk]; rfl, hr, by simp [hf]⟩
  · have hp : pnew = true := by
      cases pnew
      · exact absurd (Or.inl rfl) hf
      · rfl
    have ha : arr ≠ 0 := fun h => hf (Or.inr h)
    subst hp
    refine ⟨?_, ?_, ?_⟩
    · obtain ⟨st', hr, hc⟩ := uniqueify_copy_returns u hv hb ha
      exact ⟨st', _, hr, ⟨hc.count, hc.deleted_once⟩, by simp [ha]⟩
    · obtain ⟨st', hr, hc⟩ := expensive_push_returns n hv hb ha
      exact ⟨st', _, hr, ⟨hc.count, hc.deleted_once⟩, by simp [ha]⟩
    · obtain ⟨st', hr, hc⟩ := expensive_put_returns n hv hb ha
      exact ⟨st', _, hr, ⟨hc.count, hc.deleted_once⟩, by simp [ha]⟩

/-- C7 at `helloHeap` when `new unsigned char[n]` fails: the three operations
still kill the buffer holding `HELLO` and return nothing. -/
theorem consuming_operations_kill_input_witness :
    helloHeap.Valid ∧ helloHeap.deref 0 = some helloPacket ∧
    (∃ st' r, uniqueify_copy helloHeap 0 true roomyPacket 0 = some (st', r) ∧
      Released 0 helloPacket st' ∧ (r = none ↔ (true = false ∨ (0 : Nat) = 0))) ∧
    (∃ st' r, expensive_push helloHeap 0 4 true 0 = some (st', r) ∧
      Released 0 helloPacket st' ∧ (r = none ↔ (true = false ∨ (0 : Nat) = 0))) ∧
    (∃ st' r, expensive_put helloHeap 0 4 true 0 = some (st', r) ∧
      Released 0 helloPacket st' ∧ (r = none ↔ (true = false ∨ (0 : Nat) = 0))) :=
  ⟨Heap.valid_single _ _ rfl, by decide,
   consuming_operations_kill_input helloHeap 0 helloPacket true roomyPacket 0 4
     (Heap.valid_single _ _ rfl) (by decide)⟩

/-- C8: for a live buffer `s`, a successful user-level `clone(s)` returns a
new buffer `c` whose head, data, tail and end equal those of `s`, whose
reference count is 1, whose alias link is `s` and whose release callback is
empty; the reference count of `s` grows by exactly one; the region of `s` and
every byte of memory are unchanged. -/
theorem clone_shares_arena (st : Heap) (s : Nat) (u b : Packet) (hv : st.Valid)
    (hb : st.deref s = some b) :
    ∃ st' c cp sp, clone st s true u = some (st', some c) ∧
      st'.deref c = some cp ∧ c ≠ s ∧
      cp._head = b._head ∧ cp._data = b._data ∧ cp._tail = b._tail ∧ cp._end = b._end ∧
      cp._use_count = 1 ∧ cp._data_packet = some s ∧ cp._destructor = none ∧
      st'.deref s = some sp ∧ sp._use_count = b._use_count + 1 ∧
      sp._head = b._head ∧ sp._data = b._data ∧ sp._tail = b._tail ∧ sp._end = b._end ∧
      st'.mem = st.mem := by
  have hlt := Heap.lt_of_deref hb
  obtain ⟨hbd, hbs⟩ := Heap.deref_eq_some hb
  refine ⟨_, _, cloned u b s, { b with _use_count := b._use_count + 1 }, clone_ok u hb,
    ?_, by omega, rfl, rfl, rfl, rfl, rfl, rfl, rfl, ?_, rfl, rfl, rfl, rfl, rfl, rfl⟩
  · apply Heap.deref_of
    · exact Heap.fresh_not_deleted hv
    have hl : st.pkts.length = (st.pkts.set s { b with _use_count := b._use_count + 1 }).length :=
      by simp
    show (_ ++ [cloned u b s])[st.pkts.length]? = _
    rw [hl, List.getElem?_concat_length]
  · apply Heap.deref_of
    · exact hbd
    show (_ ++ [cloned u b s])[s]? = _
    rw [List.getElem?_append_left (by simpa using hlt)]
    simp [List.getElem?_set, hlt]

/-- C8 at `helloHeap`: a clone of the buffer holding `HELLO`. -/
theorem clone_shares_arena_witness :
    helloHeap.Valid ∧ helloHeap.deref 0 = some helloPacket ∧
    ∃ st' c cp sp, clone helloHeap 0 true roomyPacket = some (st', some c) ∧
      st'.deref c = some cp ∧ c ≠ 0 ∧
      cp._head = helloPacket._head ∧ cp._data = helloPacket._data ∧
      cp._tail = helloPacket._tail ∧ cp._end = helloPacket._end ∧
      cp._use_count = 1 ∧ cp._data_packet = some 0 ∧ cp._destructor = none ∧
      st'.deref 0 = some sp ∧ sp._use_count = helloPacket._use_count + 1 ∧
      sp._head = helloPacket._head ∧ sp._data = helloPacket._data ∧
      sp._tail = helloPacket._tail ∧ sp._end = helloPacket._end ∧
      st'.mem = helloHeap.mem :=
  ⟨Heap.valid_single _ _ rfl, by decide,
   clone_shares_arena helloHeap 0 roomyPacket helloPacket (Heap.valid_single _ _ rfl)
     (by decide)⟩

/-- C9: in every state reachable from a `make` by `clone` and `kill` (each
handle killed at most once, clones of clones allowed, any order), the alias
link of a buffer that has not been destroyed points to a buffer that has not
been destroyed; a handle not yet killed is a live buffer over the region that
`make` laid out; the arena has been released, once, exactly when every handle
has been killed, and not at all while one handle is left; no byte of memory
has changed; and every handle not yet killed can be killed and cloned. -/
theorem alias_lifetime (st0 : Heap) (g : Packet) (s : Sys) (hm : FromMake st0 g)
    (hr : Reachable st0 s) :
    (∀ x pk d, s.heap.deref x = some pk → pk._data_packet = some d →
      ∃ pd, s.heap.deref d = some pd) ∧
    (∀ x, x < s.heap.pkts.length → x ∉ s.killed →
      ∃ pk, s.heap.deref x = some pk ∧ pk._head = g._head ∧ pk._data = g._data ∧
        pk._tail = g._tail ∧ pk._end = g._end) ∧
    ((∀ x, x < s.heap.pkts.length → x ∈ s.killed) →
      ReleasedOnce g s.heap ∧ s.heap.releases = 1) ∧
    ((∃ x, x < s.heap.pkts.length ∧ x ∉ s.killed) →
      s.heap.freed = [] ∧ s.heap.released = []) ∧
    s.heap.mem = st0.mem ∧
    (∀ x, x < s.heap.pkts.length → x ∉ s.killed →
      (∃ st', kill s.heap x = some st') ∧
      ∀ pnew u, ∃ st' r, clone s.heap x pnew u = some (st', r)) := by
  have hI := hr.inv hm
  have hlive : ∀ x pk, s.heap.deref x = some pk → 0 < s.heap.cnt x := by
    intro x pk hx
    obtain ⟨hxd, hxg⟩ := Heap.deref_eq_some hx
    have hxl := Heap.lt_of_deref hx
    by_contra hc
    exact hxd (((hI.dead x).mpr ⟨hxl, by omega⟩).elim id (fun h => h.elim))
  refine ⟨?_, ?_, ?_, ?_, hI.mem_eq, ?_⟩
  · intro x pk d hx hd
    obtain ⟨hxd, hxg⟩ := Heap.deref_eq_some hx
    have hxl := Heap.lt_of_deref hx
    have hpos := hlive x pk hx
    have hl : s.heap.link x = some d := by rw [Heap.link_of_get hxg, hd]
    have hdx : d < x := by
      rcases Nat.eq_zero_or_pos x with h0 | h0
      · subst h0; rw [hI.root] at hl; cases hl
      · obtain ⟨d', hd', hlt⟩ := hI.links x h0 hxl
        rw [hd'] at hl; cases hl; exact hlt
    have hdl : d < s.heap.pkts.length := by omega
    have hal : 0 < s.heap.aliases d := aliasCount_pos hxl hl hpos
    have hc := hI.counts d hdl
    have hcd : 0 < s.heap.cnt d := by
      have h3 : (0 : Int) < (s.heap.aliases d : Int) := by exact_mod_cast hal
      simp only [reduceCtorEq, if_false] at hc
      split at hc <;> omega
    have hdd : d ∉ s.heap.deleted := by
      intro h
      have := ((hI.dead d).mp (Or.inl h)).2
      omega
    exact ⟨_, Heap.deref_of hdd (List.getElem?_eq_getElem hdl)⟩
  · intro x hx hk
    obtain ⟨_, hxd⟩ := hI.live_of_not_killed hx hk
    have hg : s.heap.pkts[x]? = some (s.heap.pkts[x]) := List.getElem?_eq_getElem hx
    exact ⟨_, Heap.deref_of hxd hg, hI.region x _ hxd hg⟩
  · intro hall
    have h0 := hI.all_killed hall s.heap.pkts.length 0 hI.pos (by omega)
    have hd : 0 ∈ s.heap.deleted :=
      ((hI.dead 0).mpr ⟨hI.pos, h0⟩).elim id (fun h => h.elim)
    have hR := hI.log_dead hd
    refine ⟨hR, ?_⟩
    unfold ReleasedOnce at hR
    unfold Heap.releases
    cases hdes : g._destructor with
    | some f => rw [hdes] at hR; simp [hR.1, hR.2]
    | none => rw [hdes] at hR; simp [hR.1, hR.2]
  · rintro ⟨x, hx, hk⟩
    apply hI.log_live _ (fun h => h)
    intro hd
    have h0 := ((hI.dead 0).mp (Or.inl hd)).2
    have hcx := hI.root_dead h0 x x (Nat.le_refl _) hx
    have := (hI.live_of_not_killed hx hk).1
    omega
  · intro x hx hk
    constructor
    · obtain ⟨st', hk', _⟩ := hI.kill_step hx hk
      exact ⟨st', hk'⟩
    · intro pnew u
      obtain ⟨st', r, hc, _⟩ := hI.clone_step hx hk pnew u
      exact ⟨st', r, hc⟩

/-- C9 after `clone(s)` followed by `kill(s)` on the buffer holding `HELLO`:
the clone is the handle left, so it is live over the same region, the arena
has not been released and memory is unchanged. -/
theorem alias_lifetime_witness :
    FromMake helloHeap helloPacket ∧
    Reachable helloHeap { heap := orphanHeap, killed := [0] } ∧
    (∀ x pk d, orphanHeap.deref x = some pk → pk._data_packet = some d →
      ∃ pd, orphanHeap.deref d = some pd) ∧
    (∀ x, x < orphanHeap.pkts.length → x ∉ [0] →
      ∃ pk, orphanHeap.deref x = some pk ∧ pk._head = helloPacket._head ∧
        pk._data = helloPacket._data ∧ pk._tail = helloPacket._tail ∧
        pk._end = helloPacket._end) ∧
    ((∀ x, x < orphanHeap.pkts.length → x ∈ [0]) →
      ReleasedOnce helloPacket orphanHeap ∧ orphanHeap.releases = 1) ∧
    ((∃ x, x < orphanHeap.pkts.length ∧ x ∉ [0]) →
      orphanHeap.freed = [] ∧ orphanHeap.released = []) ∧
    orphanHeap.mem = helloHeap.mem ∧
    (∀ x, x < orphanHeap.pkts.length → x ∉ [0] →
      (∃ st', kill orphanHeap x = some st') ∧
      ∀ pnew u, ∃ st' r, clone orphanHeap x pnew u = some (st', r)) :=
  ⟨helloHeap_fromMake, orphanHeap_reachable,
   alias_lifetime helloHeap helloPacket { heap := orphanHeap, killed := [0] }
     helloHeap_fromMake orphanHeap_reachable⟩

theorem Packet.WellFormed.rooms {b : Packet} (hwf : b.WellFormed) :
    b.headroom = b._data - b._head ∧ b.length = b._tail - b._data ∧
    b.tailroom = b._end - b._tail ∧ b.total_length = b._end - b._head := by
  obtain ⟨r1, r2, r3, r4, -⟩ :=
    Packet.rooms_of_region b _ _ _ _ rfl rfl rfl rfl hwf.1 hwf.2.1 hwf.2.2.1 hwf.2.2.2
  exact ⟨r1, r2, r3, r4⟩

/-! ## What `kill` keeps -/

theorem Kept.refl (st : Heap) : Kept st st :=
  ⟨rfl, fun _ h => h, fun _ pk' h => ⟨pk', h, rfl, rfl, fun _ => ⟨rfl, rfl⟩⟩⟩

theorem Kept.trans {a b c : Heap} (h1 : Kept a b) (h2 : Kept b c) : Kept a c := by
  refine ⟨by rw [h2.mem_eq, h1.mem_eq], fun x h => h2.deleted_mono x (h1.deleted_mono x h), ?_⟩
  intro x pk'' hx
  obtain ⟨pk', hx', t2, e2, k2⟩ := h2.fields x pk'' hx
  obtain ⟨pk, hx0, t1, e1, k1⟩ := h1.fields x pk' hx'
  refine ⟨pk, hx0, by rw [t2, t1], by rw [e2, e1], ?_⟩
  intro hnd
  have hnd' : x ∉ b.deleted := fun h => hnd (h2.deleted_mono x h)
  obtain ⟨a2, b2⟩ := k2 hnd
  obtain ⟨a1, b1⟩ := k1 hnd'
  exact ⟨by rw [a2, a1], by rw [b2, b1]⟩

/-- A store that changes the reference count only keeps the state. -/
theorem Kept.of_store {st : Heap} {p : Nat} {pk v : Packet} (hp : st.pkts[p]? = some pk)
    (h1 : v._head = pk._head) (h2 : v._data = pk._data) (h3 : v._tail = pk._tail)
    (h4 : v._end = pk._end) : Kept st (st.store p v) := by
  have hplt : p < st.pkts.length := (List.getElem?_eq_some.mp hp).1
  refine ⟨rfl, fun _ h => h, ?_⟩
  intro x pk' hx
  by_cases hxp : p = x
  · subst hxp
    rw [Heap.store_get_self hplt] at hx
    cases hx
    exact ⟨pk, hp, h3, h4, fun _ => ⟨h1, h2⟩⟩
  · rw [Heap.store_get_ne st hxp] at hx
    exact ⟨pk', hx, rfl, rfl, fun _ => ⟨rfl, rfl⟩⟩

theorem Kept.of_release (st : Heap) (pk : Packet) : Kept st (release_arena st pk) := by
  refine ⟨release_arena_mem st pk, fun x h => by rw [release_arena_deleted]; exact h, ?_⟩
  intro x pk' hx
  rw [release_arena_pkts] at hx
  exact ⟨pk', hx, rfl, rfl, fun _ => ⟨rfl, rfl⟩⟩

theorem Kept.of_end_of_delete {st st' : Heap} {p : Nat} (h : end_of_delete st p = some st') :
    Kept st st' := by
  cases hp : st.pkts[p]? with
  | none => simp [Click.end_of_delete, hp] at h
  | some pk =>
    have hplt : p < st.pkts.length := (List.getElem?_eq_some.mp hp).1
    rw [end_of_delete_eq hp] at h
    have h' := Option.some.inj h
    subst h'
    refine ⟨rfl, fun x hx => List.mem_cons_of_mem _ hx, ?_⟩
    intro x pk' hx
    have hx' : (st.store p { pk with _head := 0, _data := 0 }).pkts[x]? = some pk' := hx
    by_cases hxp : p = x
    · subst hxp
      rw [Heap.store_get_self hplt] at hx'
      cases hx'
      exact ⟨pk, hp, rfl, rfl, fun hnd => absurd (List.mem_cons_self _ _) hnd⟩
    · rw [Heap.store_get_ne st hxp] at hx'
      exact ⟨pk', hx', rfl, rfl, fun _ => ⟨rfl, rfl⟩⟩

theorem kill_with_kept {del : Heap → Nat → Option Heap}
    (hdel : ∀ st p st', del st p = some st' → Kept st st') {st : Heap} {p : Nat}
    {st' : Heap} (h : kill_with del st p = some st') : Kept st st' := by
  cases hd : st.deref p with
  | none => simp [kill_with, hd] at h
  | some pk =>
    rw [kill_with_eq _ hd] at h
    have hs : Kept st (st.store p { pk with _use_count := pk._use_count - 1 }) :=
      Kept.of_store (Heap.deref_eq_some hd).2 rfl rfl rfl rfl
    by_cases hz : pk._use_count - 1 ≤ 0
    · rw [if_pos hz] at h
      exact hs.trans (hdel _ _ _ h)
    · rw [if_neg hz] at h
      rw [← Option.some.inj h]; exact hs

theorem delete_packet_kept : ∀ (fuel : Nat) (st : Heap) (p : Nat) (st' : Heap),
    delete_packet fuel st p = some st' → Kept st st' := by
  intro fuel
  induction fuel with
  | zero => intro st p st' h; simp [delete_packet] at h
  | succ fuel ih =>
    intro st p st' h
    cases hd : st.deref p with
    | none => simp [delete_packet, hd] at h
    | some pk =>
      rw [delete_packet_succ fuel hd] at h
      cases hl : pk._data_packet with
      | some d =>
        rw [hl] at h
        cases hk : kill_with (delete_packet fuel) st d with
        | none => simp [hk] at h
        | some st2 =>
          simp only [hk] at h
          exact (kill_with_kept ih hk).trans (Kept.of_end_of_delete h)
      | none =>
        rw [hl] at h
        simp only [] at h
        exact (Kept.of_release st pk).trans (Kept.of_end_of_delete h)

theorem kill_kept {st : Heap} {p : Nat} {st' : Heap} (h : kill st p = some st') :
    Kept st st' :=
  kill_with_kept (delete_packet_kept st.pkts.length) h

/-- The bytes outside the destination of `memcpy` are the bytes of before. -/
theorem memcpy_outside (mem : Mem) {dst len x : Nat} (src : Nat)
    (hfit : dst + len < ADDR_MOD) (hx : x < ADDR_MOD) (hout : x < dst ∨ dst + len ≤ x) :
    memcpy mem dst src len x = mem x := by
  have h : ¬ psub x dst < len := by
    unfold psub; simp only [ADDR_MOD] at *; omega
  simp [memcpy, h]

theorem sharedHeap_valid : sharedHeap.Valid := by
  constructor
  · intro d hd; exact absurd hd (List.not_mem_nil d)
  · intro x pk hx d hd
    obtain ⟨-, hxs⟩ := Heap.deref_eq_some hx
    have hxl : x < 2 := (List.getElem?_eq_some.mp hxs).1
    refine ⟨?_, List.not_mem_nil d⟩
    rcases Nat.lt_or_ge x 1 with h0 | h1
    · have hx0 : x = 0 := by omega
      subst hx0
      have : pk = { helloPacket with _use_count := 2 } := by
        have h2 : sharedHeap.pkts[0]? = some { helloPacket with _use_count := 2 } := rfl
        rw [h2] at hxs; exact (Option.some.inj hxs).symm
      rw [this] at hd; cases hd
    · have hx1 : x = 1 := by omega
      subst hx1
      have h2 : sharedHeap.pkts[1]? = some { roomyPacket with
          _use_count := 1, _data_packet := some 0, _tail := 8197, _end := 8197,
          _data := 8192 } := rfl
      rw [h2] at hxs
      have := (Option.some.inj hxs).symm
      rw [this] at hd
      have hd0 : d = 0 := (Option.some.inj hd).symm
      omega

/-- C11: the result `q` of a successful `uniqueify_copy(b)`, the allocator having
returned a block apart from the arena of `b`, is private: every other buffer
`c` that views the arena of `b` (as a clone of `b`, or the buffer `b` was
cloned from, does) and is still live after the call has its head, data, tail
and end unchanged and its payload bytes as before the call, and keeps both
after any byte is written anywhere in the arena of `q`. -/
theorem uniqueify_copy_result_is_private (st : Heap) (this : Nat) (u : Packet) (arr : Nat)
    (b : Packet) (hv : st.Valid) (hb : st.deref this = some b) (hwf : b.WellFormed)
    (hal : AllocOk arr ((b.length + b.headroom + b.tailroom) % ADDR_MOD))
    (hfresh : Apart arr ((b.length + b.headroom + b.tailroom) % ADDR_MOD) b._head b._end) :
    ∃ st' q qp, uniqueify_copy st this true u arr = some (st', some q) ∧
      st'.deref q = some qp ∧
      ∀ c cp cp', st.deref c = some cp → cp._head = b._head → cp._end = b._end →
        cp.WellFormed → st'.deref c = some cp' →
        (cp'._head = cp._head ∧ cp'._data = cp._data ∧ cp'._tail = cp._tail ∧
          cp'._end = cp._end) ∧
        (∀ i, i < cp.length → payload_byte st'.mem cp' i = payload_byte st.mem cp i) ∧
        ∀ a v, qp._head ≤ a → a < qp._end →
          (st'.write a v).deref c = some cp' ∧
          ∀ i, i < cp.length →
            payload_byte (st'.write a v).mem cp' i = payload_byte st.mem cp i := by
  have hl : (uniqueify_fixup (uniqueified u b arr) b)._data_packet = none := by
    unfold uniqueify_fixup; simp only []; split <;> rfl
  obtain ⟨st', hk, hc⟩ := kill_after_new hv hb hl
    (memcpy st.mem (padd arr b.headroom) b._data (psub b._tail b._data))
  have hr : uniqueify_copy st this true u arr = some (st', some st.pkts.length) := by
    rw [uniqueify_copy_ok u hb hal.1, hk]; rfl
  have hkept := kill_kept hk
  obtain ⟨g1, g2, g3, g4, -, -, -, hsum, hfit⟩ := uniqueify_region u hwf hal
  obtain ⟨e1, e2, e3, e4⟩ := hwf.rooms
  obtain ⟨w1, w2, w3, w4⟩ := hwf
  have hsz : (b.length + b.headroom + b.tailroom) % ADDR_MOD =
      b.length + b.headroom + b.tailroom := Nat.mod_eq_of_lt (by omega)
  rw [hsz] at hfresh
  have hdst : padd arr b.headroom = arr + b.headroom := padd_of_lt (by omega)
  have hlen : psub b._tail b._data = b.length := rfl
  refine ⟨st', _, _, hr, hc.result, ?_⟩
  intro c cp cp' hcd hh he hcw hcd'
  obtain ⟨c1, c2, c3, c4⟩ := hcw
  obtain ⟨hcnd, hcs⟩ := Heap.deref_eq_some hcd
  obtain ⟨hcnd', hcs'⟩ := Heap.deref_eq_some hcd'
  have hclt := Heap.lt_of_deref hcd
  obtain ⟨pk, hpk, t1, t2, t3⟩ := hkept.fields c cp' hcs'
  have hpk' : pk = cp := by
    have : (st.withNew (uniqueify_fixup (uniqueified u b arr) b)
        (memcpy st.mem (padd arr b.headroom) b._data (psub b._tail b._data))).pkts[c]? =
        st.pkts[c]? := by
      show (st.pkts ++ [_])[c]? = _
      exact List.getElem?_append_left hclt
    rw [this, hcs] at hpk
    exact (Option.some.inj hpk).symm
  subst hpk'
  obtain ⟨t4, t5⟩ := t3 hcnd'
  have hlenc : pk.length = pk._tail - pk._data := psub_of_le c2 (by omega)
  -- an address of the payload of `c` is none of the new arena
  have haddr : ∀ i, i < pk.length → padd cp'._data i = pk._data + i ∧
      (pk._data + i < arr ∨ arr + (b.length + b.headroom + b.tailroom) ≤ pk._data + i) := by
    intro i hi
    rw [t5]
    refine ⟨padd_of_lt (by omega), ?_⟩
    rcases hfresh with h | h
    · right; omega
    · left; omega
  have hbytes : ∀ i, i < pk.length → payload_byte st'.mem cp' i = payload_byte st.mem pk i := by
    intro i hi
    obtain ⟨ha, hout⟩ := haddr i hi
    unfold payload_byte
    rw [ha, padd_of_lt (by omega : pk._data + i < ADDR_MOD), hc.mem_eq, hdst, hlen]
    exact memcpy_outside _ _ (by omega) (by omega) (by omega)
  refine ⟨⟨t4, t5, t1, t2⟩, hbytes, ?_⟩
  intro a v ha1 ha2
  refine ⟨hcd', ?_⟩
  intro i hi
  obtain ⟨hx, hout⟩ := haddr i hi
  rw [← hbytes i hi]
  unfold payload_byte
  show (if padd cp'._data i = a then v else st'.mem (padd cp'._data i)) = _
  rw [g1] at ha1
  rw [g4] at ha2
  have hne : padd cp'._data i ≠ a := by rw [hx]; omega
  rw [if_neg hne]

/-- C11 at `sharedHeap`: `uniqueify_copy` of the buffer holding `HELLO` while
its clone is live, the allocator returning the block at `16384`. -/
theorem uniqueify_copy_result_is_private_witness :
    sharedHeap.Valid ∧ sharedHeap.deref 0 = some { helloPacket with _use_count := 2 } ∧
    Packet.WellFormed { helloPacket with _use_count := 2 } ∧
    AllocOk 16384 ((5 + 0 + 0) % ADDR_MOD) ∧ Apart 16384 ((5 + 0 + 0) % ADDR_MOD) 8192 8197 ∧
    ∃ st' q qp, uniqueify_copy sharedHeap 0 true roomyPacket 16384 = some (st', some q) ∧
      st'.deref q = some qp ∧
      ∀ c cp cp', sharedHeap.deref c = some cp → cp._head = 8192 → cp._end = 8197 →
        cp.WellFormed → st'.deref c = some cp' →
        (cp'._head = cp._head ∧ cp'._data = cp._data ∧ cp'._tail = cp._tail ∧
          cp'._end = cp._end) ∧
        (∀ i, i < cp.length →
          payload_byte st'.mem cp' i = payload_byte sharedHeap.mem cp i) ∧
        ∀ a v, qp._head ≤ a → a < qp._end →
          (st'.write a v).deref c = some cp' ∧
          ∀ i, i < cp.length →
            payload_byte (st'.write a v).mem cp' i = payload_byte sharedHeap.mem cp i :=
  ⟨sharedHeap_valid, by decide, by decide, by decide, by decide,
   uniqueify_copy_result_is_private sharedHeap 0 roomyPacket 16384
     { helloPacket with _use_count := 2 } sharedHeap_valid (by decide) (by decide)
     (by decide) (by decide)⟩

/-! ## Header positions -/

/-- Adding a wrapped 32-bit difference to a position gives the exact integer
position whenever that position exists. -/
theorem padd_psub_exact {d h n : Nat} (hh : h < ADDR_MOD)
    (hlo : n ≤ d + h) (hhi : d + h - n < ADDR_MOD) : padd d (psub h n) = d + h - n := by
  unfold padd psub; simp only [ADDR_MOD] at *; omega

theorem uniqueify_fixup_set {p b : Packet} (h : b._nh_raw ≠ 0) :
    (uniqueify_fixup p b)._nh_raw = padd p._data b.network_header_offset ∧
    (uniqueify_fixup p b)._h_raw = padd p._data b.transport_header_offset ∧
    (uniqueify_fixup p b)._data = p._data := by
  simp [uniqueify_fixup, h, Packet.copy_annotations]

theorem uniqueify_fixup_unset {p b : Packet} (h : b._nh_raw = 0) :
    (uniqueify_fixup p b)._nh_raw = 0 ∧ (uniqueify_fixup p b)._h_raw = 0 := by
  simp [uniqueify_fixup, h]

/-- A position `x` of the arena of `b`, moved with the arena to a copy whose
`data` is `nd`, lands where it lay in `b`, counted from the start `a` of the
copy. -/
theorem reloc_inside {a nd hd dt en x : Nat} (h1 : hd ≤ dt)
    (h3 : en < ADDR_MOD) (hx1 : hd ≤ x) (hx2 : x ≤ en) (hnd : nd = a + (dt - hd))
    (hfit : a + (en - hd) < ADDR_MOD) :
    padd nd (psub x dt) = a + (x - hd) := by
  subst hnd
  unfold padd psub; simp only [ADDR_MOD] at *; omega

/-- C12: for a buffer `b` on which `uniqueify_copy` succeeds with result `q`:
when the network-header annotation of `b` is set, the network-header and
transport-header positions of `q` lie at the same offsets from `q.data` as
those of `b` from `b.data`, and a position that lay in the arena of `b` lies in
the new arena of `q`; when it is unset, both positions of `q` are null. -/
theorem uniqueify_copy_header_positions (st : Heap) (this : Nat) (u : Packet) (arr : Nat)
    (b : Packet) (hv : st.Valid) (hb : st.deref this = some b) (hwf : b.WellFormed)
    (hal : AllocOk arr ((b.length + b.headroom + b.tailroom) % ADDR_MOD)) :
    ∃ st' q qp, uniqueify_copy st this true u arr = some (st', some q) ∧
      st'.deref q = some qp ∧
      (b._nh_raw ≠ 0 →
        qp.network_header_offset = b.network_header_offset ∧
        qp.transport_header_offset = b.transport_header_offset ∧
        (b._head ≤ b._nh_raw → b._nh_raw ≤ b._end →
          qp._head ≤ qp._nh_raw ∧ qp._nh_raw ≤ qp._end) ∧
        (b._head ≤ b._h_raw → b._h_raw ≤ b._end →
          qp._head ≤ qp._h_raw ∧ qp._h_raw ≤ qp._end)) ∧
      (b._nh_raw = 0 → qp._nh_raw = 0 ∧ qp._h_raw = 0) := by
  obtain ⟨st', hr, hc⟩ := uniqueify_copy_returns u hv hb hal.1
  obtain ⟨g1, g2, g3, g4, -, -, -, hsum, hfit⟩ := uniqueify_region u hwf hal
  obtain ⟨e1, e2, e3, e4⟩ := hwf.rooms
  obtain ⟨w1, w2, w3, w4⟩ := hwf
  refine ⟨st', _, _, hr, hc.result, ?_, fun h => uniqueify_fixup_unset h⟩
  intro hset
  obtain ⟨f1, f2, f3⟩ := @uniqueify_fixup_set (uniqueified u b arr) b hset
  have hd : (uniqueified u b arr)._data = padd arr b.headroom := rfl
  have hdlt : (uniqueified u b arr)._data < ADDR_MOD := by rw [hd]; exact padd_lt _ _
  have hda : (uniqueified u b arr)._data = arr + (b._data - b._head) := by
    rw [← f3, g2, e1]
  have hfit' : arr + (b._end - b._head) < ADDR_MOD := by omega
  have o1 : ∀ q : Packet, q.network_header_offset = psub q._nh_raw q._data := fun _ => rfl
  have o2 : ∀ q : Packet, q.transport_header_offset = psub q._h_raw q._data := fun _ => rfl
  refine ⟨?_, ?_, ?_, ?_⟩
  · rw [o1, f1, f3]; exact psub_padd_self hdlt (psub_lt _ _)
  · rw [o2, f2, f3]; exact psub_padd_self hdlt (psub_lt _ _)
  · intro x1 x2
    have := reloc_inside w1 w4 x1 x2 hda hfit'
    rw [f1, g1, g4, o1, this]
    omega
  · intro x1 x2
    have := reloc_inside w1 w4 x1 x2 hda hfit'
    rw [f2, g1, g4, o2, this]
    omega

/-- C12 at `annotatedHeap`: `uniqueify_copy` of the buffer whose network header
is at `data + 1`, the allocator returning the block at `16384`. -/
theorem uniqueify_copy_header_positions_witness :
    annotatedHeap.Valid ∧ annotatedHeap.deref 0 = some annotatedPacket ∧
    annotatedPacket.WellFormed ∧
    AllocOk 16384 ((annotatedPacket.length + annotatedPacket.headroom +
      annotatedPacket.tailroom) % ADDR_MOD) ∧
    ∃ st' q qp, uniqueify_copy annotatedHeap 0 true roomyPacket 16384 = some (st', some q) ∧
      st'.deref q = some qp ∧
      (annotatedPacket._nh_raw ≠ 0 →
        qp.network_header_offset = annotatedPacket.network_header_offset ∧
        qp.transport_header_offset = annotatedPacket.transport_header_offset ∧
        (annotatedPacket._head ≤ annotatedPacket._nh_raw →
          annotatedPacket._nh_raw ≤ annotatedPacket._end →
          qp._head ≤ qp._nh_raw ∧ qp._nh_raw ≤ qp._end) ∧
        (annotatedPacket._head ≤ annotatedPacket._h_raw →
          annotatedPacket._h_raw ≤ annotatedPacket._end →
          qp._head ≤ qp._h_raw ∧ qp._h_raw ≤ qp._end)) ∧
      (annotatedPacket._nh_raw = 0 → qp._nh_raw = 0 ∧ qp._h_raw = 0) :=
  ⟨Heap.valid_single _ _ rfl, by decide, by decide, by decide,
   uniqueify_copy_header_positions annotatedHeap 0 roomyPacket 16384 annotatedPacket
     (Heap.valid_single _ _ rfl) (by decide) (by decide) (by decide)⟩

/-- C13 fails on the code: `expensive_push` sets the network header of the
result at the new `data` plus the old offset, after `data` has been moved back
by `n`. On the buffer whose network header is at `data + 1` (the byte 3), a
push of 4 bytes gives a result whose network-header offset is still 1, not
`1 + 4`: its network header designates the byte 131 of the new headroom, while
the copy of the byte 3 lies at offset 5. The network-header length, 2, is
kept. -/
theorem expensive_push_header_offset_kept :
    annotatedHeap.deref 0 = some annotatedPacket ∧
    annotatedPacket.network_header_offset = 1 ∧
    annotatedPacket.network_header_length = 2 ∧
    annotatedHeap.mem annotatedPacket._nh_raw = 3 ∧
    (returned (expensive_push annotatedHeap 0 4 true 16384)).map
      (fun qp => (qp.network_header_offset, qp.network_header_length)) = some (1, 2) ∧
    (1 : Nat) ≠ annotatedPacket.network_header_offset + 4 ∧
    (expensive_push annotatedHeap 0 4 true 16384).bind (fun r => r.2.bind (fun q =>
      (r.1.deref q).map (fun qp => (r.1.mem qp._nh_raw, r.1.mem (padd qp._data (1 + 4))))))
      = some (131, 3) := by
  decide

theorem push_fixup_set {q b : Packet} (n : Nat) (h : b._nh_raw ≠ 0) :
    (push_fixup q b n)._data = padd q._data (psub b.headroom n) ∧
    (push_fixup q b n)._nh_raw =
      padd (padd q._data (psub b.headroom n)) b.network_header_offset ∧
    (push_fixup q b n)._h_raw =
      padd (padd (padd q._data (psub b.headroom n)) b.network_header_offset)
        b.network_header_length := by
  have h' : b.network_header ≠ 0 := h
  simp [push_fixup, h', Packet.set_network_header, Packet.copy_annotations, Packet.data]

/-- What `expensive_push` does with a set network header, for every input: the
offset of the result from its `data` is the offset of `b`, unchanged. -/
theorem expensive_push_header_offset_same (st : Heap) (this n arr : Nat) (b : Packet)
    (hv : st.Valid) (hb : st.deref this = some b) (hset : b._nh_raw ≠ 0) (ha : arr ≠ 0) :
    ∃ st' q qp, expensive_push st this n true arr = some (st', some q) ∧
      st'.deref q = some qp ∧
      qp.network_header_offset = b.network_header_offset ∧
      qp.network_header_length = b.network_header_length := by
  obtain ⟨st', hr, hc⟩ := expensive_push_returns n hv hb ha
  obtain ⟨f1, f2, f3⟩ :=
    @push_fixup_set (made arr ((n + 128) % ADDR_MOD) b.total_length 0) b n hset
  have o1 : ∀ q : Packet, q.network_header_offset = psub q._nh_raw q._data := fun _ => rfl
  have o2 : ∀ q : Packet, q.network_header_length = psub q._h_raw q._nh_raw := fun _ => rfl
  refine ⟨st', _, _, hr, hc.result, ?_, ?_⟩
  · rw [o1, f2, f1]; exact psub_padd_self (padd_lt _ _) (psub_lt _ _)
  · rw [o2, f3, f2]; exact psub_padd_self (padd_lt _ _) (psub_lt _ _)

theorem put_fixup_set {q b : Packet} (n : Nat) (h : b._nh_raw ≠ 0) :
    (put_fixup q b n)._head = q._head ∧ (put_fixup q b n)._end = q._end ∧
    (put_fixup q b n)._data = padd q._data b.headroom ∧
    (put_fixup q b n)._nh_raw =
      padd (padd q._data b.headroom) b.network_header_offset ∧
    (put_fixup q b n)._h_raw =
      padd (padd (padd q._data b.headroom) b.network_header_offset)
        b.network_header_length := by
  have h' : b.network_header ≠ 0 := h
  simp [put_fixup, h', Packet.set_network_header, Packet.copy_annotations, Packet.data]

theorem put_inside_arith {arr H TL m : Nat} (hH : H ≤ TL) (hcopy : TL + m < ADDR_MOD)
    (hfit : arr + (TL + 0 + m) % ADDR_MOD < ADDR_MOD) :
    padd (padd arr 0) H = arr + H ∧
    padd arr ((TL + 0 + m) % ADDR_MOD) = arr + TL + m := by
  unfold padd; simp only [ADDR_MOD] at *; omega

/-- C14: for a buffer `b` whose network-header annotation is set and every `n`,
a successful user-level `expensive_put(b, n)` gives a result whose network
header is at the same offset from `data` as that of `b`, with the same
network-header length; and when the position lay in the arena of `b` (and the
arena allocated holds the copy, its size not having wrapped) the position lies
in the arena of the result. -/
theorem expensive_put_header_positions (st : Heap) (this n arr : Nat) (b : Packet)
    (hv : st.Valid) (hb : st.deref this = some b) (hwf : b.WellFormed)
    (hset : b._nh_raw ≠ 0)
    (hal : AllocOk arr ((b.total_length + 0 + (n + 128) % ADDR_MOD) % ADDR_MOD)) :
    ∃ st' q qp, expensive_put st this n true arr = some (st', some q) ∧
      st'.deref q = some qp ∧
      qp.network_header_offset = b.network_header_offset ∧
      qp.network_header_length = b.network_header_length ∧
      (b._head ≤ b._nh_raw → b._nh_raw ≤ b._end →
        b.total_length + (n + 128) % ADDR_MOD < ADDR_MOD →
        qp._head ≤ qp._nh_raw ∧ qp._nh_raw ≤ qp._end) := by
  obtain ⟨st', hr, hc⟩ := expensive_put_returns n hv hb hal.1
  obtain ⟨f1, f2, f3, f4, f5⟩ :=
    @put_fixup_set (made arr 0 b.total_length ((n + 128) % ADDR_MOD)) b n hset
  obtain ⟨e1, e2, e3, e4⟩ := hwf.rooms
  obtain ⟨w1, w2, w3, w4⟩ := hwf
  have o1 : ∀ q : Packet, q.network_header_offset = psub q._nh_raw q._data := fun _ => rfl
  have o2 : ∀ q : Packet, q.network_header_length = psub q._h_raw q._nh_raw := fun _ => rfl
  have m1 : (made arr 0 b.total_length ((n + 128) % ADDR_MOD))._data = padd arr 0 := rfl
  have m2 : (made arr 0 b.total_length ((n + 128) % ADDR_MOD))._head = arr := rfl
  have m3 : (made arr 0 b.total_length ((n + 128) % ADDR_MOD))._end =
      padd arr ((b.total_length + 0 + (n + 128) % ADDR_MOD) % ADDR_MOD) := rfl
  refine ⟨st', _, _, hr, hc.result, ?_, ?_, ?_⟩
  · rw [o1, f4, f3]; exact psub_padd_self (padd_lt _ _) (psub_lt _ _)
  · rw [o2, f5, f4]; exact psub_padd_self (padd_lt _ _) (psub_lt _ _)
  · intro x1 x2 hcopy
    obtain ⟨a1, a2⟩ := put_inside_arith (by omega : b.headroom ≤ b.total_length) hcopy hal.2
    have hda : padd (padd arr 0) b.headroom = arr + (b._data - b._head) := by rw [a1, e1]
    have hfit' : arr + (b._end - b._head) < ADDR_MOD := by
      have := hal.2
      rw [Nat.mod_eq_of_lt (by omega)] at this
      omega
    have := reloc_inside w1 w4 x1 x2 hda hfit'
    rw [f4, f1, f2, m1, m2, m3, o1, this, a2]
    omega

/-- C14 at `annotatedHeap`: a put of 3 bytes on the buffer whose network header
is at `data + 1`, the allocator returning the block at `16384`. -/
theorem expensive_put_header_positions_witness :
    annotatedHeap.Valid ∧ annotatedHeap.deref 0 = some annotatedPacket ∧
    annotatedPacket.WellFormed ∧ annotatedPacket._nh_raw ≠ 0 ∧
    AllocOk 16384 ((annotatedPacket.total_length + 0 + (3 + 128) % ADDR_MOD) % ADDR_MOD) ∧
    ∃ st' q qp, expensive_put annotatedHeap 0 3 true 16384 = some (st', some q) ∧
      st'.deref q = some qp ∧
      qp.network_header_offset = annotatedPacket.network_header_offset ∧
      qp.network_header_length = annotatedPacket.network_header_length ∧
      (annotatedPacket._head ≤ annotatedPacket._nh_raw →
        annotatedPacket._nh_raw ≤ annotatedPacket._end →
        annotatedPacket.total_length + (3 + 128) % ADDR_MOD < ADDR_MOD →
        qp._head ≤ qp._nh_raw ∧ qp._nh_raw ≤ qp._end) :=
  ⟨Heap.valid_single _ _ rfl, by decide, by decide, by decide, by decide,
   expensive_put_header_positions annotatedHeap 0 3 16384 annotatedPacket
     (Heap.valid_single _ _ rfl) (by decide) (by decide) (by decide) (by decide)⟩

/-! ## Wrapped bytes and the fast path -/

/-- The call `kill()` on the last reference of a packet that owns a non-null
arena with a release callback: the callback is called once, nothing is passed
to `delete[]`, the object is deleted. -/
theorem kill_last_reference {st : Heap} {q : Nat} {pk : Packet} {cb : Nat}
    (hq : st.deref q = some pk) (hc : pk._use_count = 1) (hl : pk._data_packet = none)
    (hdes : pk._destructor = some cb) (hh : pk._head ≠ 0) :
    ∃ st', kill st q = some st' ∧ st'.deleted = q :: st.deleted ∧
      st'.released = (cb, pk._head, psub pk._end pk._head) :: st.released ∧
      st'.freed = st.freed ∧ st'.mem = st.mem := by
  have hqlt := Heap.lt_of_deref hq
  obtain ⟨hqd, hqs⟩ := Heap.deref_eq_some hq
  obtain ⟨k, hk⟩ : ∃ k, st.pkts.length = k + 1 := ⟨st.pkts.length - 1, by omega⟩
  unfold kill
  rw [kill_with_eq _ hq, if_pos (by omega), hk]
  generalize hpk1 : ({ pk with _use_count := pk._use_count - 1 } : Packet) = pk1
  have hl1 : pk1._data_packet = none := by rw [← hpk1]; exact hl
  have hd1 : pk1._destructor = some cb := by rw [← hpk1]; exact hdes
  have hh1 : pk1._head = pk._head := by rw [← hpk1]
  have he1 : pk1._end = pk._end := by rw [← hpk1]
  have hp1 : (st.store q pk1).pkts[q]? = some pk1 := Heap.store_get_self hqlt _
  have hder : (st.store q pk1).deref q = some pk1 :=
    Heap.deref_of (by simpa using hqd) hp1
  have hrel : release_arena (st.store q pk1) pk1 =
      { st.store q pk1 with
        released := (cb, pk._head, psub pk._end pk._head) :: st.released } := by
    unfold release_arena
    rw [hd1]
    simp [hh1, he1, hh]
  have e := delete_packet_succ k hder
  simp only [hl1, hrel] at e
  have hp2 : ∀ S : Heap, S.pkts = (st.store q pk1).pkts → S.pkts[q]? = some pk1 :=
    fun S h => by rw [h]; exact hp1
  rw [e]
  exact ⟨_, end_of_delete_eq (hp2 _ rfl), rfl, rfl, rfl, rfl⟩

theorem Inv.released_when_all_killed {g : Packet} {mem0 : Mem} {killed : List Nat}
    {st : Heap} (hI : Inv g mem0 killed (fun _ => False) none st)
    (hall : ∀ x, x < st.pkts.length → x ∈ killed) : ReleasedOnce g st := by
  have h0 := hI.all_killed hall st.pkts.length 0 hI.pos (by omega)
  have hd : 0 ∈ st.deleted := ((hI.dead 0).mpr ⟨hI.pos, h0⟩).elim id (fun h => h.elim)
  exact hI.log_dead hd

/-- C15: for a non-null byte region of length `len` and a release callback
`cb`, `make(externalBytes, len, cb)` returns a buffer with `head == data ==`
the start of the region and `tail == end == start + len` (headroom 0,
tailroom 0, length `len`), reference count 1 and no alias link; killing it
calls `cb` exactly once, with `(head, end - head)`, and passes nothing to
`delete[]`; and the same holds when clones were made and every handle has been
killed, in any order. -/
theorem make_external_wraps_region (st : Heap) (mem : Mem) (data len cb : Nat)
    (hv : st.Valid) (hd : data ≠ 0) (hfit : data + len < ADDR_MOD) :
    (∃ st' q qp, make_external st true data len (some cb) = (st', some q) ∧
      st'.deref q = some qp ∧ qp._head = data ∧ qp._data = data ∧
      qp._tail = data + len ∧ qp._end = data + len ∧
      qp.headroom = 0 ∧ qp.tailroom = 0 ∧ qp.length = len ∧
      qp._use_count = 1 ∧ qp._data_packet = none ∧
      ∃ st'', kill st' q = some st'' ∧ q ∈ st''.deleted ∧
        st''.released = (cb, data, len) :: st.released ∧ st''.freed = st.freed) ∧
    (∀ s, Reachable (make_external (Heap.empty mem) true data len (some cb)).1 s →
      (∀ x, x < s.heap.pkts.length → x ∈ s.killed) →
      s.heap.released = [(cb, data, len)] ∧ s.heap.freed = []) := by
  have a1 : padd data len = data + len := padd_of_lt hfit
  have hsz : psub (padd data len) data = len := psub_padd_self (by omega) (by omega)
  constructor
  · obtain ⟨r1, r2, r3, r4, -⟩ :=
      Packet.rooms_of_region (wrapped data len (some cb)) data data (padd data len)
        (padd data len) rfl rfl rfl rfl (Nat.le_refl _) (by omega) (Nat.le_refl _) (by omega)
    have hq : (st.withNew (wrapped data len (some cb)) st.mem).deref st.pkts.length =
        some (wrapped data len (some cb)) := Heap.deref_withNew_new hv _ _
    obtain ⟨st'', hk, hdel, hrel, hfr, -⟩ :=
      kill_last_reference hq (rfl : (wrapped data len (some cb))._use_count = 1) rfl rfl hd
    refine ⟨_, _, wrapped data len (some cb), make_external_ok st data len (some cb), hq,
      rfl, rfl, a1, a1, ?_, ?_, ?_, rfl, rfl, st'', hk, ?_, ?_, hfr⟩
    · rw [r1]; omega
    · rw [r3]; omega
    · rw [r2, a1]; omega
    · rw [hdel]; exact List.mem_cons_self _ _
    · rw [hrel]
      show (cb, data, psub (padd data len) data) :: st.released = _
      rw [hsz]
  · intro s hr hall
    have hm : FromMake (make_external (Heap.empty mem) true data len (some cb)).1
        (wrapped data len (some cb)) :=
      Or.inr ⟨mem, data, len, some cb, hd, rfl, rfl⟩
    have hR := (hr.inv hm).released_when_all_killed hall
    unfold ReleasedOnce at hR
    have hR' : s.heap.freed = [] ∧
        s.heap.released = [(cb, data, psub (padd data len) data)] := hR
    rw [hsz] at hR'
    exact ⟨hR'.2, hR'.1⟩

/-- C15 on the five bytes of `HELLO` at `4096`, wrapped with the callback `7`
in the empty state. -/
theorem make_external_wraps_region_witness :
    (Heap.empty helloMem).Valid ∧ (4096 : Nat) ≠ 0 ∧ 4096 + 5 < ADDR_MOD ∧
    (∃ st' q qp, make_external (Heap.empty helloMem) true 4096 5 (some 7) = (st', some q) ∧
      st'.deref q = some qp ∧ qp._head = 4096 ∧ qp._data = 4096 ∧
      qp._tail = 4096 + 5 ∧ qp._end = 4096 + 5 ∧
      qp.headroom = 0 ∧ qp.tailroom = 0 ∧ qp.length = 5 ∧
      qp._use_count = 1 ∧ qp._data_packet = none ∧
      ∃ st'', kill st' q = some st'' ∧ q ∈ st''.deleted ∧
        st''.released = (7, 4096, 5) :: (Heap.empty helloMem).released ∧
        st''.freed = (Heap.empty helloMem).freed) ∧
    (∀ s, Reachable (make_external (Heap.empty helloMem) true 4096 5 (some 7)).1 s →
      (∀ x, x < s.heap.pkts.length → x ∈ s.killed) →
      s.heap.released = [(7, 4096, 5)] ∧ s.heap.freed = []) :=
  ⟨Heap.valid_empty helloMem, by decide, by decide,
   make_external_wraps_region (Heap.empty helloMem) helloMem 4096 5 7
     (Heap.valid_empty helloMem) (by decide) (by decide)⟩

theorem push_fast {st : Heap} {q : Nat} {p : Packet} (n : Nat) (pnew : Bool) (arr : Nat)
    (hq : st.deref q = some p) (hn : n ≤ p.headroom) (hc : p._use_count = 1)
    (hl : p._data_packet = none) :
    push st q n pnew arr = some (st.store q { p with _data := psub p._data n }, some q) := by
  simp [push, hq, hn, hc, hl]

/-- A sequence of pushes on an exclusively owned buffer whose headroom holds
them all is served in place: same handle, same store, same memory, `data`
moved back by the bytes pushed. -/
theorem pushes_fast : ∀ (steps : List (Nat × Bool × Nat)) (st : Heap) (q : Nat) (p : Packet),
    st.deref q = some p → p._use_count = 1 → p._data_packet = none →
    p._head ≤ p._data → p._data < ADDR_MOD → pushed steps ≤ p._data - p._head →
    ∃ st', pushes st q steps = some (st', some q) ∧
      st'.pkts.length = st.pkts.length ∧ st'.mem = st.mem ∧ st'.freed = st.freed ∧
      st'.released = st.released ∧ st'.deleted = st.deleted ∧
      st'.deref q = some { p with _data := p._data - pushed steps } := by
  intro steps
  induction steps with
  | nil =>
    intro st q p hq _ _ _ _ _
    exact ⟨st, rfl, rfl, rfl, rfl, rfl, rfl, by simpa [pushed] using hq⟩
  | cons step rest ih =>
    intro st q p hq hc hl h1 h2 hs
    have hsum : pushed (step :: rest) = step.1 + pushed rest := by simp [pushed]
    rw [hsum] at hs
    have hroom : p.headroom = p._data - p._head := psub_of_le h1 h2
    have hsub : psub p._data step.1 = p._data - step.1 := psub_of_le (by omega) h2
    have hqlt := Heap.lt_of_deref hq
    have hq1 : (st.store q { p with _data := p._data - step.1 }).deref q =
        some { p with _data := p._data - step.1 } :=
      Heap.deref_of (by simpa using (Heap.deref_eq_some hq).1) (Heap.store_get_self hqlt _)
    obtain ⟨st', hp, e1, e2, e3, e4, e5, e6⟩ :=
      ih (st.store q { p with _data := p._data - step.1 }) q
        { p with _data := p._data - step.1 } hq1 hc hl
        (show p._head ≤ p._data - step.1 by omega)
        (show p._data - step.1 < ADDR_MOD by omega)
        (show pushed rest ≤ p._data - step.1 - p._head by omega)
    refine ⟨st', ?_, by simpa using e1, by simpa using e2, by simpa using e3,
      by simpa using e4, by simpa using e5, ?_⟩
    · show (match push st q step.1 step.2.1 step.2.2 with
        | some (st1, some q) => pushes st1 q rest
        | r => r) = _
      rw [push_fast step.1 step.2.1 step.2.2 hq (by omega) hc hl, hsub]
      exact hp
    · rw [e6, hsum]
      have : p._data - step.1 - pushed rest = p._data - (step.1 + pushed rest) := by omega
      simp only [this]

/-- C16: the result `q` of a successful `expensive_push(b, n)` is exclusively
owned and has `headroom(q) >= S - n`, so every following sequence of pushes
`n_1 .. n_k` with `n + n_1 + .. + n_k <= S` is served by the fast path whatever
the allocator would do: the same packet comes back, no object and no arena is
made, memory is untouched and `data` has moved back by `n_1 + .. + n_k`. -/
theorem pushes_within_slack_stay_fast (st : Heap) (this n arr : Nat) (b : Packet)
    (hv : st.Valid) (hb : st.deref this = some b) (hwf : b.WellFormed)
    (hcopy : b.total_length + (n + 128) % ADDR_MOD < ADDR_MOD)
    (hal : AllocOk arr ((b.total_length + (n + 128) % ADDR_MOD + 0) % ADDR_MOD)) :
    ∃ st' q qp, expensive_push st this n true arr = some (st', some q) ∧
      st'.deref q = some qp ∧ qp._use_count = 1 ∧ qp._data_packet = none ∧
      SLACK - n ≤ qp.headroom ∧
      ∀ steps : List (Nat × Bool × Nat), n + pushed steps ≤ SLACK →
        ∃ st'' qp', pushes st' q steps = some (st'', some q) ∧
          st''.pkts.length = st'.pkts.length ∧ st''.mem = st'.mem ∧
          st''.freed = st'.freed ∧ st''.deref q = some qp' ∧
          qp'._head = qp._head ∧ qp'._tail = qp._tail ∧ qp'._end = qp._end ∧
          qp'._data + pushed steps = qp._data ∧
          qp'.headroom + pushed steps = qp.headroom := by
  obtain ⟨st', hr, hc⟩ := expensive_push_returns n hv hb hal.1
  have g5 : (push_fixup (made arr ((n + 128) % ADDR_MOD) b.total_length 0) b n)._use_count
      = 1 := by
    unfold push_fixup; simp only []; split <;> rfl
  have g6 : (push_fixup (made arr ((n + 128) % ADDR_MOD) b.total_length 0) b n)._data_packet
      = none := by
    unfold push_fixup; simp only []; split <;> rfl
  -- when `n` is within the slack, the requested size is exact
  have hexact : n ≤ SLACK → n + 128 + b.total_length < ADDR_MOD := by
    intro hn
    simp only [SLACK, ADDR_MOD] at hn hcopy ⊢
    omega
  refine ⟨st', _, _, hr, hc.result, g5, g6, ?_, ?_⟩
  · by_cases hn : n ≤ SLACK
    · obtain ⟨g1, g2, g3, g4, hsum⟩ := push_fixup_region hwf (hexact hn) hal
      have hfit2 := hal.2
      rw [push_size_eq (hexact hn)] at hfit2
      obtain ⟨r1, -, -, -, -⟩ :=
        Packet.rooms_of_region _ _ _ _ _ g1 g2 g3 g4 (by omega) (by omega) (by omega)
          (by omega)
      rw [r1]; simp only [SLACK]; omega
    · have : SLACK - n = 0 := by omega
      rw [this]; exact Nat.zero_le _
  · intro steps hs
    have hn : n ≤ SLACK := by omega
    obtain ⟨g1, g2, g3, g4, hsum⟩ := push_fixup_region hwf (hexact hn) hal
    have hfit2 := hal.2
    rw [push_size_eq (hexact hn)] at hfit2
    obtain ⟨r1, -, -, -, -⟩ :=
      Packet.rooms_of_region _ _ _ _ _ g1 g2 g3 g4 (by omega) (by omega) (by omega)
        (by omega)
    have hs' : pushed steps ≤
        (push_fixup (made arr ((n + 128) % ADDR_MOD) b.total_length 0) b n)._data -
        (push_fixup (made arr ((n + 128) % ADDR_MOD) b.total_length 0) b n)._head := by
      rw [g1, g2]; simp only [SLACK] at hs; omega
    obtain ⟨st'', hp, e1, e2, e3, -, -, e6⟩ :=
      pushes_fast steps st' _ _ hc.result g5 g6 (by rw [g1, g2]; omega)
        (by rw [g2]; omega) hs'
    refine ⟨st'', _, hp, e1, e2, e3, e6, rfl, rfl, rfl, ?_, ?_⟩
    · show (push_fixup (made arr ((n + 128) % ADDR_MOD) b.total_length 0) b n)._data -
        pushed steps + pushed steps = _
      omega
    · have hh : ∀ q : Packet, q.headroom = psub q._data q._head := fun _ => rfl
      rw [r1, hh]
      show psub ((push_fixup (made arr ((n + 128) % ADDR_MOD) b.total_length 0) b n)._data -
        pushed steps) (push_fixup (made arr ((n + 128) % ADDR_MOD) b.total_length 0) b n)._head
        + pushed steps = _
      rw [psub_of_le (by omega) (by rw [g2]; omega)]
      rw [g1, g2] at hs' ⊢
      omega

/-- C16 on the scenario of the slow push: after `expensive_push(4)` on the
buffer holding `HELLO`, pushes within the slack stay on the fast path. -/
theorem pushes_within_slack_stay_fast_witness :
    helloHeap.Valid ∧ helloHeap.deref 0 = some helloPacket ∧ helloPacket.WellFormed ∧
    helloPacket.total_length + (4 + 128) % ADDR_MOD < ADDR_MOD ∧
    AllocOk 16384 ((helloPacket.total_length + (4 + 128) % ADDR_MOD + 0) % ADDR_MOD) ∧
    ∃ st' q qp, expensive_push helloHeap 0 4 true 16384 = some (st', some q) ∧
      st'.deref q = some qp ∧ qp._use_count = 1 ∧ qp._data_packet = none ∧
      SLACK - 4 ≤ qp.headroom ∧
      ∀ steps : List (Nat × Bool × Nat), 4 + pushed steps ≤ SLACK →
        ∃ st'' qp', pushes st' q steps = some (st'', some q) ∧
          st''.pkts.length = st'.pkts.length ∧ st''.mem = st'.mem ∧
          st''.freed = st'.freed ∧ st''.deref q = some qp' ∧
          qp'._head = qp._head ∧ qp'._tail = qp._tail ∧ qp'._end = qp._end ∧
          qp'._data + pushed steps = qp._data ∧
          qp'.headroom + pushed steps = qp.headroom :=
  ⟨Heap.valid_single _ _ rfl, by decide, by decide, by decide, by decide,
   pushes_within_slack_stay_fast helloHeap 0 4 16384 helloPacket
     (Heap.valid_single _ _ rfl) (by decide) (by decide) (by decide) (by decide)⟩

/-! ## Unsigned arithmetic -/

theorem push_fixup_data (q b : Packet) (n : Nat) :
    (push_fixup q b n)._data = padd q._data (psub b.headroom n) := by
  unfold push_fixup; simp only []; split <;> rfl

theorem put_fixup_tail (q b : Packet) (n : Nat) :
    (put_fixup q b n)._tail = padd q._tail (psub n b.tailroom) := by
  unfold put_fixup; simp only []; split <;> rfl

/-- C17: the adjustments of the slow paths are computed in unsigned 32-bit
arithmetic and wrap (`headroom() - nbytes` when `nbytes > headroom`,
`nbytes - tailroom()` when `nbytes < tailroom`); positions being taken modulo
2^32, adding the wrapped value gives exactly the intended integer position,
`data + headroom - nbytes` in `expensive_push` and `tail + nbytes - tailroom`
in `expensive_put`, whenever that position is one of the address space. -/
theorem slow_path_adjustments_exact (q b : Packet) (n : Nat) (hn : n < ADDR_MOD) :
    (b.headroom < n → psub b.headroom n = ADDR_MOD + b.headroom - n) ∧
    (n < b.tailroom → psub n b.tailroom = ADDR_MOD + n - b.tailroom) ∧
    (n ≤ q._data + b.headroom → q._data + b.headroom - n < ADDR_MOD →
      (push_fixup q b n)._data = q._data + b.headroom - n) ∧
    (b.tailroom ≤ q._tail + n → q._tail + n - b.tailroom < ADDR_MOD →
      (put_fixup q b n)._tail = q._tail + n - b.tailroom) := by
  have hH : b.headroom < ADDR_MOD := psub_lt _ _
  have hT : b.tailroom < ADDR_MOD := psub_lt _ _
  refine ⟨?_, ?_, ?_, ?_⟩
  · intro h
    generalize b.headroom = H at *
    unfold psub; simp only [ADDR_MOD] at *; omega
  · intro h
    generalize b.tailroom = T at *
    unfold psub; simp only [ADDR_MOD] at *; omega
  · intro h1 h2
    rw [push_fixup_data]
    exact padd_psub_exact hH h1 h2
  · intro h1 h2
    rw [put_fixup_tail]
    exact padd_psub_exact hn h1 h2

/-- C17 on the scenario of the slow push: the new packet of `make(4 + 128, ..)`
for the buffer holding `HELLO` (headroom 0) and a push of 4 bytes; the
difference `0 - 4` wraps to `2^32 - 4` and `data` lands 4 bytes lower. -/
theorem slow_path_adjustments_exact_witness :
    4 < ADDR_MOD ∧
    (helloPacket.headroom < 4 → psub helloPacket.headroom 4 =
      ADDR_MOD + helloPacket.headroom - 4) ∧
    (4 < helloPacket.tailroom → psub 4 helloPacket.tailroom =
      ADDR_MOD + 4 - helloPacket.tailroom) ∧
    (4 ≤ (made 16384 132 5 0)._data + helloPacket.headroom →
      (made 16384 132 5 0)._data + helloPacket.headroom - 4 < ADDR_MOD →
      (push_fixup (made 16384 132 5 0) helloPacket 4)._data =
        (made 16384 132 5 0)._data + helloPacket.headroom - 4) ∧
    (helloPacket.tailroom ≤ (made 16384 132 5 0)._tail + 4 →
      (made 16384 132 5 0)._tail + 4 - helloPacket.tailroom < ADDR_MOD →
      (put_fixup (made 16384 132 5 0) helloPacket 4)._tail =
        (made 16384 132 5 0)._tail + 4 - helloPacket.tailroom) :=
  ⟨by decide, slow_path_adjustments_exact (made 16384 132 5 0) helloPacket 4 (by decide)⟩

/-- C18: the arena size in `alloc_data` is `(len + headroom + tailroom) mod 2^32`
and is not checked: `make(0, 0, 2^31, 2^31)`, whose exact size is 2^32,
succeeds with an arena of 0 bytes, smaller than `headroom + len`, and returns
a buffer whose tail lies beyond its end, so `head <= data <= tail <= end`
fails; and `expensive_push` and `expensive_put` with `nbytes = 2^32 - 128`,
where `nbytes + 128` wraps to 0, return a buffer whose data lies beyond its
tail. -/
theorem arena_size_wraps :
    (0 : Nat) < ADDR_MOD ∧ (2147483648 : Nat) < ADDR_MOD ∧
    ADDR_MOD ≤ 0 + 2147483648 + 2147483648 ∧
    AllocOk 4096 ((2147483648 + 0 + 2147483648) % ADDR_MOD) ∧
    (returned (make (Heap.empty byteMem) true 4096 0 0 2147483648 2147483648)).map
      (fun p => (p._head, p._data, p._tail, p._end)) =
        some (4096, 4096, 2147487744, 4096) ∧
    (returned (make (Heap.empty byteMem) true 4096 0 0 2147483648 2147483648)).map
      (fun p => (decide (p.total_length < 0 + 2147483648), decide (p._end < p._tail),
        decide p.WellFormed)) = some (true, true, false) ∧
    AllocOk 16384 ((helloPacket.total_length + (4294967168 + 128) % ADDR_MOD + 0) %
      ADDR_MOD) ∧
    (returned (expensive_push helloHeap 0 4294967168 true 16384)).map
      (fun p => (p._head, p._data, p._tail, p._end, decide p.WellFormed)) =
        some (16384, 16512, 16389, 16389, false) ∧
    (returned (expensive_put helloHeap 0 4294967168 true 16384)).map
      (fun p => (p._head, p._data, p._tail, p._end, decide p.WellFormed)) =
        some (16384, 16384, 16261, 16389, false) := by
  decide

end Click
